import Mathlib

/-!
# asl: the SSO credential orchestration engine

A shallow embedding of `aws_sso.go`, `util.go` and `file.go` of `leocomelli/asl`.

* Go strings are lists of Unicode characters (`List Char`) where the code inspects them
  and `String` where it only passes them on.
* An instant (`time.Time` compared through `After`) is the number of nanoseconds since the
  Unix epoch, an `Int`.
* Everything the program reaches outside its own memory (the clock, the file system, the
  `aws` command line) is a field of `Env`, a record of state-passing functions over an
  arbitrary state type `σ`; every call of such a primitive that a property talks about is
  recorded in a log of `Event`s.
* Library functions that cannot be evaluated here (JSON decoding, SHA-1, the Unicode
  lower-case table off the ASCII range) are pure fields of `Env`; reading and writing an INI
  file (`ini.LooseLoad`, `SaveTo`) are stateful fields that exchange the parsed document.
* The standard library and `gopkg.in/ini.v1` are modelled as far as the program uses them:
  `time.Parse` for the two layouts of `ExpiresAt`, `regexp` for the two expressions of
  `util.go`, and sections and keys of an INI document.
-/

namespace Asl

/-! ## Errors and results -/

/-- A Go `error` value: its message and what `os.IsNotExist` answers on it. -/
structure GoError where
  msg : String
  notExist : Bool
  deriving DecidableEq, Repr

/-- The sentinel `os.ErrNotExist`. -/
def ErrNotExist : GoError := ⟨"file does not exist", true⟩

/-- The value of `errors.New(msg)`: `os.IsNotExist` is false on it. -/
def errorsNew (msg : String) : GoError := ⟨msg, false⟩

/-- The function `os.IsNotExist`; a nil error is not one. -/
def osIsNotExist : Option GoError → Bool
  | none => false
  | some e => e.notExist

/-- The outcome of a Go function returning `(value, error)` that may also panic. -/
inductive GoResult (α : Type) where
  | returned (val : α) (err : Option GoError)
  | panicked (msg : String)
  deriving DecidableEq, Repr

/-! ## Instants and `time.Parse` for the two layouts of `SSOCredential.ExpiresAt` -/

/-- An instant: nanoseconds since 1970-01-01T00:00:00 UTC. -/
abbrev Time := Int

/-- One second, in nanoseconds. -/
def second : Int := 1000000000

/-- The calendar day that `AddDate(0, 0, -1)` goes back on a UTC time: 86400 seconds. -/
def oneDay : Int := 86400 * second

/-- The method `Time.After`: `t` is strictly later than `u`. -/
def After (t u : Time) : Bool := decide (u < t)

/-- The helper `isDigit` of package `time`: an ASCII decimal digit. -/
def isDigit (c : Char) : Bool := decide ('0' ≤ c) && decide (c ≤ '9')

/-- The value of an ASCII digit. -/
def digitVal (c : Char) : Nat := c.toNat - '0'.toNat

/-- The helper `getnum` of package `time`: one or two digits, exactly two when `fixed`. -/
def getnum (s : List Char) (fixed : Bool) : Option (Nat × List Char) :=
  match s with
  | [] => none
  | [d] => if !isDigit d then none else if fixed then none else some (digitVal d, [])
  | d :: e :: rest =>
    if !isDigit d then none
    else if !isDigit e then (if fixed then none else some (digitVal d, e :: rest))
    else some (digitVal d * 10 + digitVal e, rest)

/-- The four-digit year of layout element `2006`: `atoi` of the first four bytes. -/
def getyear (s : List Char) : Option (Nat × List Char) :=
  match s with
  | a :: b :: c :: d :: rest =>
    if isDigit a && isDigit b && isDigit c && isDigit d then
      some (digitVal a * 1000 + digitVal b * 100 + digitVal c * 10 + digitVal d, rest)
    else none
  | _ => none

/-- The helper `skip` of package `time` for a literal prefix without spaces. -/
def skip (value lit : List Char) : Option (List Char) :=
  match lit, value with
  | [], v => some v
  | _ :: _, [] => none
  | p :: ps, c :: cs => if c = p then skip cs ps else none

/-- The decimal value of a list of digits. -/
def digitsVal (ds : List Char) : Nat := ds.foldl (fun n d => n * 10 + digitVal d) 0

/-- A fractional second that follows the seconds field although the layout has none:
`time.Parse` accepts `.` or `,` and digits there, keeping the first nine digits. -/
def getfrac (s : List Char) : Nat × List Char :=
  match s with
  | p :: d :: rest =>
    if (p = '.' || p = ',') && isDigit d then
      let ds := (d :: rest).takeWhile isDigit
      let ds9 := ds.take 9
      (digitsVal ds9 * 10 ^ (9 - ds9.length), (d :: rest).dropWhile isDigit)
    else (0, s)
  | _ => (0, s)

/-- Leap years of the proleptic Gregorian calendar. -/
def isLeap (y : Nat) : Bool := y % 4 == 0 && (y % 100 != 0 || y % 400 == 0)

/-- The helper `daysIn` of package `time`. -/
def daysIn (m y : Nat) : Nat :=
  if m = 2 then (if isLeap y then 29 else 28)
  else if m = 4 ∨ m = 6 ∨ m = 9 ∨ m = 11 then 30 else 31

/-- Days of the year before the first of month `m`. -/
def daysBeforeMonth (m y : Nat) : Nat :=
  ((List.range (m - 1)).map (fun i => daysIn (i + 1) y)).sum

/-- Leap years among the years `1 .. n`; written for an integer `n`. -/
def leapsThrough (n : Int) : Int := n / 4 - n / 100 + n / 400

/-- Days from 1970-01-01 to the first of January of year `y`. -/
def daysBeforeYear (y : Nat) : Int :=
  365 * ((y : Int) - 1970) + (leapsThrough ((y : Int) - 1) - leapsThrough 1969)

/-- The function `time.Date` in UTC on fields that are in range. -/
def Date (year month day hour min sec nsec : Nat) : Time :=
  (((daysBeforeYear year + (daysBeforeMonth month year : Int) + ((day : Int) - 1)) * 86400
      + (hour : Int) * 3600 + (min : Int) * 60 + (sec : Int)) * second) + (nsec : Int)

/-- The date part `2006-01-02` of the layouts: year, month (checked to be 1..12) and day. -/
def parseDate (value : List Char) : Option (Nat × Nat × Nat × List Char) :=
  (getyear value).bind fun yv =>
  (skip yv.2 ['-']).bind fun v =>
  (getnum v true).bind fun mv =>
  if mv.1 < 1 ∨ 12 < mv.1 then none else
  (skip mv.2 ['-']).bind fun v =>
  (getnum v true).bind fun dv =>
  some (yv.1, mv.1, dv.1, dv.2)

/-- The clock part `15:04:05` of the layouts: hour (one or two digits, below 24), minute and
second (two digits, below 60) and the fractional second that may follow, in nanoseconds. -/
def parseClock (value : List Char) : Option (Nat × Nat × Nat × Nat × List Char) :=
  (getnum value false).bind fun hv =>
  if 24 ≤ hv.1 then none else
  (skip hv.2 [':']).bind fun v =>
  (getnum v true).bind fun mv =>
  if 60 ≤ mv.1 then none else
  (skip mv.2 [':']).bind fun v =>
  (getnum v true).bind fun sv =>
  if 60 ≤ sv.1 then none else
  some (hv.1, mv.1, sv.1, (getfrac sv.2).1, (getfrac sv.2).2)

/-- The function `time.Parse` on a layout `"2006-01-02T15:04:05" ++ lit`, where `lit` holds no
layout element (`"Z"` and `"UTC"` are plain text to `time.Parse`); `none` is a non-nil error.
After the fields, the literal tail must match, no text may remain, and the day must exist in
its month. -/
def timeParse (lit value : List Char) : Option Time :=
  (parseDate value).bind fun d =>
  (skip d.2.2.2 ['T']).bind fun v =>
  (parseClock v).bind fun c =>
  (skip c.2.2.2.2 lit).bind fun rest =>
  if rest ≠ [] then none else
  if d.2.2.1 < 1 ∨ daysIn d.2.1 d.1 < d.2.2.1 then none else
  some (Date d.1 d.2.1 d.2.2.1 c.1 c.2.1 c.2.2.1 c.2.2.2.1)

/-- The first layout of `ExpiresAt`, `"2006-01-02T15:04:05Z"`: its literal tail. -/
def layoutZ : List Char := ['Z']

/-- The second layout of `ExpiresAt`, `"2006-01-02T15:04:05UTC"`: its literal tail. -/
def layoutUTC : List Char := ['U', 'T', 'C']

/-! ## Data model (`aws_sso.go`) -/

/-- The struct `SSOCredential`. -/
structure SSOCredential where
  URL : String
  Region : String
  AccessToken : String
  ExpiresAsStr : String
  deriving DecidableEq, Repr

/-- The struct `SSO` without its `Cmd` field, which lives in `Env`. -/
structure SSO where
  AccountID : String
  RoleName : String
  StartURL : String
  Region : String
  BackupFile : Bool
  deriving DecidableEq, Repr

/-- The struct `Account`. -/
structure Account where
  ID : String
  Name : String
  Email : String
  Roles : List String
  deriving DecidableEq, Repr

/-- The struct `AccountRole`. -/
structure AccountRole where
  RoleName : String
  AccountID : String
  deriving DecidableEq, Repr

/-- The struct `Accounts`: a slice of pointers, a JSON `null` element being a nil pointer. -/
structure Accounts where
  Items : List (Option Account)
  deriving DecidableEq, Repr

/-- The struct `AccountRoles`: a slice of pointers, a JSON `null` element being a nil
pointer. -/
structure AccountRoles where
  Items : List (Option AccountRole)
  deriving DecidableEq, Repr

/-- The struct `Credential`; `Expiration` is an `int64` of milliseconds. -/
structure Credential where
  ProfileName : String
  AccountName : String
  Region : String
  AccessKeyID : String
  SecretAccessKey : String
  SessionToken : String
  Expiration : Int
  deriving DecidableEq, Repr

/-- The struct `CredentialResultInfo`. -/
structure CredentialResultInfo where
  Filename : String
  ExpiresAt : Time
  deriving DecidableEq, Repr

/-! ## The INI document of `gopkg.in/ini.v1` as the program uses it -/

/-- One section of an INI document: its name and its keys in order. -/
structure IniSection where
  name : String
  keys : List (String × String)
  deriving DecidableEq, Repr

/-- An INI document (`*ini.File`): its sections in order. -/
abbrev Cfg := List IniSection

/-! ## The environment -/

/-- A call that leaves the process, as recorded in the log. -/
inductive Event where
  | readCache (path : String)
  | cmdLogin (roleName : String)
  | cmdListAccounts (accessToken region : String)
  | cmdListAccountRoles (accessToken region accountID : String)
  | cmdGetRoleCredentials (accessToken region accountID roleName : String)
  | writeFile (path content : String)
  | saveTo (path : String) (doc : Cfg)
  deriving DecidableEq, Repr

/-- The world outside the program. The first group of fields are the stateful primitives:
`time.Now`, `os.Stat` (as `File.Exists` reads it), `os.ReadFile`, `os.WriteFile`, the four
methods of `SSOCommand`, and `ini.LooseLoad` / `(*ini.File).SaveTo`, where a nil document of
`LooseLoad` is `none`. The second group are the global `awsPath` and pure library functions:
the hex SHA-1 digest, `unicode.ToLower` off the ASCII range, and `json.Unmarshal` into each
of the four target types. -/
structure Env (σ : Type) where
  now : σ → Time × σ
  fileExists : String → σ → Bool × σ
  readFile : String → σ → (String × Option GoError) × σ
  writeFile : String → String → σ → Option GoError × σ
  cmdLogin : String → σ → (String × Option GoError) × σ
  cmdListAccounts : String → String → σ → (String × Option GoError) × σ
  cmdListAccountRoles : String → String → String → σ → (String × Option GoError) × σ
  cmdGetRoleCredentials : String → String → String → String → σ → (String × Option GoError) × σ
  iniLooseLoad : String → σ → Option Cfg × σ
  iniSaveTo : String → Cfg → σ → Option GoError × σ
  awsPath : String
  sha1Hex : String → String
  lowerTable : Char → Char
  unmarshalSSOCredential : String → SSOCredential × Option GoError
  unmarshalAccounts : String → Accounts × Option GoError
  unmarshalAccountRoles : String → AccountRoles × Option GoError
  unmarshalCredentials : String → Option Credential × Option GoError

/-- The state of a run: the outside world and the log of calls made so far. -/
structure Sys (σ : Type) where
  st : σ
  log : List Event

/-- A run that starts in outside state `s` with an empty log. -/
def Sys.init {σ : Type} (s : σ) : Sys σ := ⟨s, []⟩

/-- Append an event to the log. -/
def Sys.emit {σ : Type} (w : Sys σ) (e : Event) : Sys σ := ⟨w.st, w.log ++ [e]⟩

/-- Replace the outside state. -/
def Sys.set {σ : Type} (w : Sys σ) (s : σ) : Sys σ := ⟨s, w.log⟩

/-- The role names of the `Cmd.Login` calls in a log, in order. -/
def loginCalls (log : List Event) : List String :=
  log.filterMap fun e => match e with
    | .cmdLogin r => some r
    | _ => none

/-- The paths of the cache reads (`ReadCacheFile`) in a log, in order. -/
def cacheReads (log : List Event) : List String :=
  log.filterMap fun e => match e with
    | .readCache p => some p
    | _ => none

/-! ## Strings -/

/-- The function `unicode.ToLower`: ASCII letters by arithmetic, other runes by the case
table `tbl` of package `unicode`. -/
def unicodeToLower (tbl : Char → Char) (c : Char) : Char :=
  if c.toNat < 128 then (if 'A' ≤ c ∧ c ≤ 'Z' then Char.ofNat (c.toNat + 32) else c)
  else tbl c

/-- The function `strings.ToLower`: every rune mapped by `unicode.ToLower` (the ASCII fast
path of the library computes the same string). -/
def ToLower (tbl : Char → Char) (s : List Char) : List Char := s.map (unicodeToLower tbl)

/-- The function `filepath.Join` on clean, non-empty elements. -/
def pathJoin (parts : List String) : String := "/".intercalate parts

/-- The constant `awsSSOPath`. -/
def awsSSOPath : String := "sso"

/-! ## The cache and the login state machine (`aws_sso.go`) -/

/-- The `FullName` of the cache file of `ReadCacheFile`: under `awsPath/sso/cache`, named by
the lower-cased hex SHA-1 of `StartURL` (`hash.Write` never fails). -/
def cacheFile {σ : Type} (env : Env σ) (a : SSO) : String :=
  pathJoin [env.awsPath, awsSSOPath, "cache",
    String.mk (ToLower env.lowerTable (env.sha1Hex a.StartURL).data) ++ ".json"]

/-- The method `SSO.ReadCacheFile`. A missing file gives `os.ErrNotExist`, and
`File.ReadJSON` gives the error of `os.ReadFile` or of `json.Unmarshal`. -/
def ReadCacheFile {σ : Type} (env : Env σ) (a : SSO) (w : Sys σ) :
    (Option SSOCredential × Option GoError) × Sys σ :=
  let cache := cacheFile env a
  let w := w.emit (.readCache cache)
  let ex := env.fileExists cache w.st
  if !ex.1 then ((none, some ErrNotExist), w.set ex.2)
  else
    let rd := env.readFile cache ex.2
    match rd.1.2 with
    | some e => ((none, some e), w.set rd.2)
    | none =>
      match (env.unmarshalSSOCredential rd.1.1).2 with
      | some e => ((none, some e), w.set rd.2)
      | none => ((some (env.unmarshalSSOCredential rd.1.1).1, none), w.set rd.2)

/-- The method `SSOCredential.ExpiresAt`: the first layout, else the second, else one day
before the clock reading `time.Now().UTC().AddDate(0, 0, -1)`. -/
def SSOCredential.ExpiresAt {σ : Type} (env : Env σ) (c : SSOCredential) (s : σ) : Time × σ :=
  match timeParse layoutZ c.ExpiresAsStr.data with
  | some t => (t, s)
  | none =>
    match timeParse layoutUTC c.ExpiresAsStr.data with
    | some t => (t, s)
    | none => ((env.now s).1 - oneDay, (env.now s).2)

/-- The method `SSOCredential.Expired`: `time.Now().UTC().After(c.ExpiresAt())`; the receiver
is evaluated first, so the clock is read before `ExpiresAt` runs. -/
def SSOCredential.Expired {σ : Type} (env : Env σ) (c : SSOCredential) (s : σ) : Bool × σ :=
  let n := env.now s
  let e := c.ExpiresAt env n.2
  (After n.1 e.1, e.2)

/-- The condition `c != nil && !c.Expired()` of `Login`; `Expired` runs only on a non-nil `c`. -/
def notExpired {σ : Type} (env : Env σ) (c : Option SSOCredential) (s : σ) : Bool × σ :=
  match c with
  | none => (false, s)
  | some cred => (!(cred.Expired env s).1, (cred.Expired env s).2)

/-- The arguments of the debug line of `Login`'s fast path: `c.Expired()` and `c.ExpiresAt()`
are evaluated once more, which reads the clock but decides nothing. -/
def logNotExpired {σ : Type} (env : Env σ) (c : Option SSOCredential) (s : σ) : σ :=
  match c with
  | none => s
  | some cred => (cred.ExpiresAt env (cred.Expired env s).2).2

/-- The condition `len(retry) > 0 && retry[0]` on the variadic argument of `Login`. -/
def retryFlag (retry : List Bool) : Bool :=
  match retry with
  | [] => false
  | b :: _ => b

/-- The method `SSO.Login`. -/
def Login {σ : Type} (env : Env σ) (a : SSO) (retry : List Bool) (w : Sys σ) :
    (Option SSOCredential × Option GoError) × Sys σ :=
  let r := ReadCacheFile env a w
  if r.1.2 ≠ none ∧ osIsNotExist r.1.2 = false then ((none, r.1.2), r.2)
  else
    let chk := notExpired env r.1.1 r.2.st
    if chk.1 then ((r.1.1, none), r.2.set (logNotExpired env r.1.1 chk.2))
    else if _h : retryFlag retry = true then
      ((none, some (errorsNew "can not renew the sso token")), r.2.set chk.2)
    else
      let l := env.cmdLogin a.RoleName chk.2
      let w2 := (r.2.emit (.cmdLogin a.RoleName)).set l.2
      match l.1.2 with
      | some e => ((none, some e), w2)
      | none => Login env a [true] w2
termination_by (if retryFlag retry = true then 0 else 1)
decreasing_by
  show (if retryFlag [true] = true then 0 else 1) < (if retryFlag retry = true then 0 else 1)
  rw [if_neg _h]
  decide

/-! ## `Snake` (`util.go`)

The two regular expressions of `util.go` are sequences of character classes, the last one
of `matchFirstCap` under a greedy `+`, in two capture groups. `Piece` and `matchHere` are the
leftmost-first (backtracking, greedy) matcher of package `regexp` for expressions of that
shape, and `ReplaceAllString` its replacement loop for the template `"${1}-${2}"`. -/

/-- One character class of a regular expression: whether it is under `+`, and the capture
group it stands in. -/
structure Piece where
  cls : Char → Bool
  plus : Bool
  group : Nat

/-- The class `.`: any character but a newline. -/
def clsAny (c : Char) : Bool := c != '\n'

/-- The class `[A-Z]`. -/
def clsUpper (c : Char) : Bool := decide ('A' ≤ c) && decide (c ≤ 'Z')

/-- The class `[a-z]`. -/
def clsLower (c : Char) : Bool := decide ('a' ≤ c) && decide (c ≤ 'z')

/-- The class `[a-z0-9]`. -/
def clsLowerDigit (c : Char) : Bool :=
  (decide ('a' ≤ c) && decide (c ≤ 'z')) || (decide ('0' ≤ c) && decide (c ≤ '9'))

/-- The expression `matchFirstCap`, `(.)([A-Z][a-z]+)`. -/
def matchFirstCap : List Piece :=
  [⟨clsAny, false, 1⟩, ⟨clsUpper, false, 2⟩, ⟨clsLower, true, 2⟩]

/-- The expression `matchAllCap`, `([a-z0-9])([A-Z])`. -/
def matchAllCap : List Piece :=
  [⟨clsLowerDigit, false, 1⟩, ⟨clsUpper, false, 2⟩]

/-- The match of an expression at the start of the input, if there is one: the characters
it consumes, each with the capture group of the piece that took it. A piece under `+` first
tries to take one more character and falls back to the rest of the expression. -/
def matchHere : List Piece → List Char → Option (List (Nat × Char))
  | [], _ => some []
  | _ :: _, [] => none
  | p :: ps, c :: cs =>
    if p.cls c then
      if p.plus then
        match matchHere (p :: ps) cs with
        | some m => some ((p.group, c) :: m)
        | none => (matchHere ps cs).map fun m => (p.group, c) :: m
      else (matchHere ps cs).map fun m => (p.group, c) :: m
    else none

/-- The text of capture group `k` in a match. -/
def capture (k : Nat) (m : List (Nat × Char)) : List Char :=
  (m.filter fun e => e.1 == k).map Prod.snd

/-- The template `"${1}-${2}"` expanded on a match. -/
def expandTemplate (m : List (Nat × Char)) : List Char :=
  capture 1 m ++ ['-'] ++ capture 2 m

/-- The loop of `(*Regexp).ReplaceAllString` with template `"${1}-${2}"`, for an expression
whose matches are not empty: at each position outside a match, the leftmost match is
replaced and the search resumes after it; `skip` counts the characters of the current
match that are still to be passed over. -/
def replaceAllFrom (re : List Piece) : Nat → List Char → List Char
  | _, [] => []
  | skip + 1, _ :: cs => replaceAllFrom re skip cs
  | 0, c :: cs =>
    match matchHere re (c :: cs) with
    | some m => expandTemplate m ++ replaceAllFrom re (m.length - 1) cs
    | none => c :: replaceAllFrom re 0 cs

/-- The call `re.ReplaceAllString(src, "${1}-${2}")`. -/
def ReplaceAllString (re : List Piece) (src : List Char) : List Char := replaceAllFrom re 0 src

/-- The function `Snake` of `util.go`. -/
def Snake (txt : List Char) : List Char :=
  ReplaceAllString matchAllCap (ReplaceAllString matchFirstCap txt)

/-- No character of `[a-z0-9]` stands right before a character of `[A-Z]`. -/
def Hyphenated (l : List Char) : Prop :=
  List.Chain' (fun x y => ¬ (clsLowerDigit x = true ∧ clsUpper y = true)) l

/-! ## Fan-out over accounts and roles (`SSO.GetCredentials`) -/

/-- The call `strings.ReplaceAll(s, " ", "-")`. -/
def replaceSpaces (s : List Char) : List Char := s.map fun c => if c = ' ' then '-' else c

/-- Lines 263 to 270 of `GetCredentials`: the profile name of the role `r` at index `i` of
the account named `name`. -/
def profileName (tbl : Char → Char) (name : String) (i : Nat) (r : String) : String :=
  let profile := replaceSpaces name.data
  let profile := if i > 0 then profile ++ ['-'] ++ Snake r.data else profile
  String.mk (ToLower tbl profile)

/-- The profile name of an account without a role suffix, as characters: the display name
with spaces as hyphens, lower-cased. -/
def baseName (tbl : Char → Char) (acc : Account) : List Char :=
  ToLower tbl (replaceSpaces acc.Name.data)

/-- The suffix that a role past the first adds to the profile name: its `Snake` form,
lower-cased. -/
def roleSuffix (tbl : Char → Char) (r : String) : List Char := ToLower tbl (Snake r.data)

/-- How a loop body ends: it falls through to the next iteration with the credentials
collected so far, or the function returns (or panics) from inside the loop. -/
inductive LoopEnd where
  | fallThrough (creds : List Credential)
  | leave (r : GoResult (List Credential))

/-- The inner loop `for i, r := range acc.Roles` of `GetCredentials`, from index `i` on.
A JSON document without `roleCredentials` leaves `cs.Item` nil, and the assignment to
`cs.Item.AccountName` panics. -/
def rolesLoop {σ : Type} (env : Env σ) (c : SSOCredential) (acc : Account) :
    Nat → List String → List Credential → Sys σ → LoopEnd × Sys σ
  | _, [], creds, w => (.fallThrough creds, w)
  | i, r :: rs, creds, w =>
    let out := env.cmdGetRoleCredentials c.AccessToken c.Region acc.ID r w.st
    let w1 := (w.emit (.cmdGetRoleCredentials c.AccessToken c.Region acc.ID r)).set out.2
    match out.1.2 with
    | some e => (.leave (.returned [] (some e)), w1)
    | none =>
      match (env.unmarshalCredentials out.1.1).2 with
      | some e => (.leave (.returned [] (some e)), w1)
      | none =>
        match (env.unmarshalCredentials out.1.1).1 with
        | none => (.leave (.panicked "invalid memory address or nil pointer dereference"), w1)
        | some item =>
          rolesLoop env c acc (i + 1) rs
            (creds ++ [{ item with
              AccountName := acc.Name
              Region := c.Region
              ProfileName := profileName env.lowerTable acc.Name i r }]) w1

/-- The outer loop `for _, acc := range accounts` of `GetCredentials`. -/
def accountsLoop {σ : Type} (env : Env σ) (c : SSOCredential) :
    List Account → List Credential → Sys σ → LoopEnd × Sys σ
  | [], creds, w => (.fallThrough creds, w)
  | acc :: rest, creds, w =>
    match rolesLoop env c acc 0 acc.Roles creds w with
    | (.fallThrough creds1, w1) => accountsLoop env c rest creds1 w1
    | (.leave r, w1) => (.leave r, w1)

/-- The method `SSO.GetCredentials`; a nil slice is the empty list. -/
def GetCredentials {σ : Type} (env : Env σ) (c : SSOCredential) (accounts : List Account)
    (w : Sys σ) : GoResult (List Credential) × Sys σ :=
  match accountsLoop env c accounts [] w with
  | (.leave r, w1) => (r, w1)
  | (.fallThrough creds, w1) =>
    if creds.length = 0 then (.returned [] (some (errorsNew "no credentials were found")), w1)
    else (.returned creds none, w1)

/-- The `GetRoleCredentials` calls in a log, as (account id, role name), in order. -/
def roleCredentialCalls (log : List Event) : List (String × String) :=
  log.filterMap fun e => match e with
    | .cmdGetRoleCredentials _ _ acc r => some (acc, r)
    | _ => none

/-! ## The INI document operations the program calls (`gopkg.in/ini.v1`)

A section is addressed by its name; the empty name addresses the section `DEFAULT`
(`SectionsByName`). A name with dots has parent sections, `a.b.c` the parents `a.b` and `a`.
The method `Section.GetKey` looks the key up in the section itself; when it is not there, it
cuts the section name at its last `.` (the `ChildSectionDelimiter`), and if a section of the
shorter name exists it answers with that section's `GetKey`, else it cuts again. The
library documents this as parent-child sections: with a key `CLONE_URL` in `[package]`,
`cfg.Section("package.sub").Key("CLONE_URL")` is the key of `[package]`. The method
`Section.Key` returns what `GetKey` finds and creates the key in the section itself only
when `GetKey` finds none; `Key.SetValue` then writes to the key it was given, in the section
that owns it. -/

/-- The constant `ini.DefaultSection`. -/
def defaultSection : String := "DEFAULT"

/-- The name under which `Section(name)` and `GetSection(name)` look a section up. -/
def sectionKey (name : String) : String := if name = "" then defaultSection else name

/-- The first section with the given name (`GetSection`). -/
def getSection (cfg : Cfg) (name : String) : Option IniSection :=
  cfg.find? fun s => s.name == sectionKey name

/-- Whether a section of that exact name is in the document. -/
def hasSection (cfg : Cfg) (name : String) : Bool := cfg.any fun s => s.name == name

/-- The call `cfg.Section(name)`: the document with the section created at the end when it
was missing. The section itself is then addressed as `sectionKey name`. -/
def iniSection (cfg : Cfg) (name : String) : Cfg :=
  match getSection cfg name with
  | some _ => cfg
  | none => cfg ++ [⟨sectionKey name, []⟩]

/-- The prefixes of a name that end right before a dot, shortest first. -/
def dotPrefixes : List Char → List (List Char)
  | [] => []
  | c :: cs => (if c = '.' then [[]] else []) ++ (dotPrefixes cs).map fun p => c :: p

/-- The parent names of a section name, nearest first (`strings.LastIndex(sname, ".")`
applied again and again). -/
def parentNames (name : String) : List String :=
  (dotPrefixes name.data).reverse.map String.mk

/-- Whether the section named `n` exists and holds key `key`. -/
def holdsKey (cfg : Cfg) (key : String) (n : String) : Bool :=
  match getSection cfg n with
  | some s => s.keys.any fun kv => kv.1 == key
  | none => false

/-- The section in which `GetKey(key)` on section `sec` finds the key: `sec` itself or the
nearest existing parent that holds it. -/
def keyOwner (cfg : Cfg) (sec key : String) : Option String :=
  (sec :: parentNames sec).find? (holdsKey cfg key)

/-- Apply `f` to the first element that satisfies `p`. -/
def updateFirst {α : Type} (p : α → Bool) (f : α → α) : List α → List α
  | [] => []
  | x :: xs => if p x then f x :: xs else x :: updateFirst p f xs

/-- The call `s.Key(key).SetValue(val)` on the section addressed as `sec`: the value is set
on the key that `GetKey` finds, and else on a new key at the end of the section. -/
def iniKeySetValue (cfg : Cfg) (sec key val : String) : Cfg :=
  match keyOwner cfg sec key with
  | some o =>
    updateFirst (fun s => s.name == sectionKey o)
      (fun s => { s with keys := updateFirst (fun kv => kv.1 == key) (fun kv => (kv.1, val)) s.keys })
      cfg
  | none =>
    updateFirst (fun s => s.name == sectionKey sec)
      (fun s => { s with keys := s.keys ++ [(key, val)] }) cfg

/-! ### Values as the library reads them back

`SaveTo` writes a value that holds no line break, back quote or comment sign and no blank
at either end just as it is. `LooseLoad` (`parser.readValue` under the default options)
then trims single and double quotes: a value that begins and ends with the same quote and
holds that quote nowhere in between is read without the two quotes. -/

/-- The function `hasSurroundedQuote` of `gopkg.in/ini.v1`: the text has at least two
characters, the first and the last are the quote, and the quote stands nowhere in between. -/
def hasSurroundedQuote (s : List Char) (quote : Char) : Bool :=
  match s with
  | [] => false
  | c :: rest => c == quote && rest.getLast? == some quote && !rest.dropLast.contains quote

/-- The step "Trim single and double quotes" of `readValue`: the value without its
surrounding single (rune 39) or double (rune 34) quotes. -/
def readValue (v : String) : String :=
  if hasSurroundedQuote v.data (Char.ofNat 39) || hasSurroundedQuote v.data (Char.ofNat 34) then
    String.mk v.data.tail.dropLast
  else v

/-- A section as it is read back when values are read by `rd`. -/
def readSection (rd : String → String) (s : IniSection) : IniSection :=
  ⟨s.name, s.keys.map fun kv => (kv.1, rd kv.2)⟩

/-- A document as it is read back when values are read by `rd`. -/
def readDoc (rd : String → String) (cfg : Cfg) : Cfg := cfg.map (readSection rd)

/-! ## Persistence (`file.go`, `SSO.PersistCredentials`) -/

/-- The constant `keyRegion`. -/
def keyRegion : String := "region"

/-- The constant `keyCrdAccessKeyID`. -/
def keyCrdAccessKeyID : String := "aws_access_key_id"

/-- The constant `keyCrdSecretAccessKey`. -/
def keyCrdSecretAccessKey : String := "aws_secret_access_key"

/-- The constant `keyCrdSessionToken`. -/
def keyCrdSessionToken : String := "aws_session_token"

/-- The method `Credential.ExpiresAt`: `time.Unix(d.Expiration/1000, 0)`, the division of
Go truncating toward zero. -/
def Credential.ExpiresAt (d : Credential) : Time := Int.tdiv d.Expiration 1000 * second

/-- The method `File.Backup` on the file with the given `FullName`; `time.Now().Unix()` is
the clock reading in whole seconds. -/
def Backup {σ : Type} (env : Env σ) (fullName : String) (w : Sys σ) :
    (String × Option GoError) × Sys σ :=
  let ex := env.fileExists fullName w.st
  if !ex.1 then (("", none), w.set ex.2)
  else
    let n := env.now ex.2
    let bkpFilename := fullName ++ ".backup_" ++ toString (n.1 / second)
    let rd := env.readFile fullName n.2
    match rd.1.2 with
    | some e => (("", some e), w.set rd.2)
    | none =>
      let wr := env.writeFile bkpFilename rd.1.1 rd.2
      match wr.1 with
      | some e => (("", some e), (w.emit (.writeFile bkpFilename rd.1.1)).set wr.2)
      | none => ((bkpFilename, none), (w.emit (.writeFile bkpFilename rd.1.1)).set wr.2)

/-- The `FullName` of the credential store, `NewFile(awsPath, "credentials")`. -/
def credentialsFile {σ : Type} (env : Env σ) : String := pathJoin [env.awsPath, "credentials"]

/-- The body of the loop of `PersistCredentials`, lines 303 to 308. -/
def persistOne (cfg : Cfg) (c : Credential) : Cfg :=
  let cfg := iniSection cfg c.ProfileName
  let s := sectionKey c.ProfileName
  let cfg := iniKeySetValue cfg s "output" "json"
  let cfg := iniKeySetValue cfg s keyRegion c.Region
  let cfg := iniKeySetValue cfg s keyCrdAccessKeyID c.AccessKeyID
  let cfg := iniKeySetValue cfg s keyCrdSecretAccessKey c.SecretAccessKey
  iniKeySetValue cfg s keyCrdSessionToken c.SessionToken

/-- The backup step of `PersistCredentials`, lines 291 to 298: the error of `Backup`, if
backups are on. -/
def backupStep {σ : Type} (env : Env σ) (a : SSO) (fullName : String) (w : Sys σ) :
    Option GoError × Sys σ :=
  if a.BackupFile then ((Backup env fullName w).1.2, (Backup env fullName w).2) else (none, w)

/-- The method `SSO.PersistCredentials`. The error of `ini.LooseLoad` is dropped, so a nil
document reaches `cfg.Section` or `cfg.SaveTo` and panics; `creds[len(creds)-1]` panics on
an empty list. -/
def PersistCredentials {σ : Type} (env : Env σ) (a : SSO) (creds : List Credential)
    (w : Sys σ) : GoResult (Option CredentialResultInfo) × Sys σ :=
  let cred := credentialsFile env
  let bk := backupStep env a cred w
  match bk.1 with
  | some e => (.returned none (some e), bk.2)
  | none =>
    let ld := env.iniLooseLoad cred bk.2.st
    match ld.1 with
    | none => (.panicked "invalid memory address or nil pointer dereference", bk.2.set ld.2)
    | some cfg =>
      let doc := creds.foldl persistOne cfg
      let sv := env.iniSaveTo cred doc ld.2
      let w2 := (bk.2.emit (.saveTo cred doc)).set sv.2
      match sv.1 with
      | some e => (.returned none (some e), w2)
      | none =>
        match creds.getLast? with
        | none => (.panicked "index out of range [-1]", w2)
        | some last => (.returned (some ⟨cred, last.ExpiresAt⟩) none, w2)

/-- Lines 79 to 87 of `main`: `GetCredentials`, and `PersistCredentials` only on its
success. -/
def runCredentialStage {σ : Type} (env : Env σ) (a : SSO) (ssoCred : SSOCredential)
    (accounts : List Account) (w : Sys σ) : GoResult (Option CredentialResultInfo) × Sys σ :=
  match GetCredentials env ssoCred accounts w with
  | (.panicked m, w1) => (.panicked m, w1)
  | (.returned _ (some e), w1) => (.returned none (some e), w1)
  | (.returned c none, w1) => PersistCredentials env a c w1

/-- The credential store as `PersistCredentials` reads it: the document of `ini.LooseLoad`
after the backup step. -/
def storeRead {σ : Type} (env : Env σ) (a : SSO) (w : Sys σ) : Option Cfg :=
  (env.iniLooseLoad (credentialsFile env) (backupStep env a (credentialsFile env) w).2.st).1

/-- The documents written to the file `path` by `SaveTo` in a log, in order. -/
def storeWrites (path : String) (log : List Event) : List Cfg :=
  log.filterMap fun e => match e with
    | .saveTo p d => if p = path then some d else none
    | _ => none

/-- Whether a section falls outside the given profile names. -/
def outsideProfiles (names : List String) (s : IniSection) : Bool := decide (s.name ∉ names)

/-! ## A reference environment

An in-memory machine on which the definitions can be run: a clock that stands still, a file
system of byte strings, a store of INI documents as they were saved, and an `aws` command
whose `sso login` may refresh the token cache. -/

/-- The state of the reference machine. -/
structure Machine where
  clock : Time
  files : List (String × String)
  docs : List (String × Cfg)
  refresh : Option String
  deriving DecidableEq, Repr

/-- Write `v` under key `k` of an association list, replacing what was there. -/
def assocPut {β : Type} (k : String) (v : β) (l : List (String × β)) : List (String × β) :=
  (k, v) :: l.filter (fun e => e.1 != k)

/-- The cache file of the reference machine. -/
def machineCache : String := "/home/u/.aws/sso/cache/0a.json"

/-- The lower case of the capital letters of Latin-1, Greek and Cyrillic, as in the case
table of package `unicode`; every other rune is left as it is. -/
def lowerCapitals (c : Char) : Char :=
  if 0xC0 ≤ c.toNat ∧ c.toNat ≤ 0xDE ∧ c.toNat ≠ 0xD7 then Char.ofNat (c.toNat + 32)
  else if 0x391 ≤ c.toNat ∧ c.toNat ≤ 0x3A9 ∧ c.toNat ≠ 0x3A2 then Char.ofNat (c.toNat + 32)
  else if 0x410 ≤ c.toNat ∧ c.toNat ≤ 0x42F then Char.ofNat (c.toNat + 32)
  else if 0x400 ≤ c.toNat ∧ c.toNat ≤ 0x40F then Char.ofNat (c.toNat + 80)
  else c

/-- The reference environment. A cache file holds just its `expiresAt` text; the output of
`get-role-credentials` is just the access key id. The control plane knows two accounts,
`"My Team"` with roles `Admin` and `ReadOnly` and `"Sandbox"` without a role; the output
of `list-account-roles` is just the account id. The store keeps every document as it was
saved; loading one reads its values as the INI library does, without their surrounding
quotes. -/
def machineEnv : Env Machine where
  now m := (m.clock, m)
  fileExists p m := ((m.files.lookup p).isSome, m)
  readFile p m :=
    match m.files.lookup p with
    | some b => ((b, none), m)
    | none => (("", some ErrNotExist), m)
  writeFile p b m := (none, { m with files := assocPut p b m.files })
  cmdLogin _ m :=
    match m.refresh with
    | some t => (("", none), { m with files := assocPut machineCache t m.files })
    | none => (("", none), m)
  cmdListAccounts _ _ m := (("accounts", none), m)
  cmdListAccountRoles _ _ acc m := ((acc, none), m)
  cmdGetRoleCredentials _ _ acc role m := ((acc ++ ":" ++ role, none), m)
  iniLooseLoad p m := (some (readDoc readValue ((m.docs.lookup p).getD [⟨"DEFAULT", []⟩])), m)
  iniSaveTo p d m := (none, { m with docs := assocPut p d m.docs })
  awsPath := "/home/u/.aws"
  sha1Hex _ := "0a"
  lowerTable := lowerCapitals
  unmarshalSSOCredential b :=
    if b = "" then (⟨"", "", "", ""⟩, some (errorsNew "unexpected end of JSON input"))
    else (⟨"https://start", "eu-west-1", "token", b⟩, none)
  unmarshalAccounts b :=
    if b = "" then (⟨[]⟩, some (errorsNew "unexpected end of JSON input"))
    else (⟨[some ⟨"111111111111", "My Team", "team@example.com", []⟩,
      some ⟨"222222222222", "Sandbox", "sandbox@example.com", []⟩]⟩, none)
  unmarshalAccountRoles b :=
    if b = "" then (⟨[]⟩, some (errorsNew "unexpected end of JSON input"))
    else if b = "111111111111" then
      (⟨[some ⟨"Admin", "111111111111"⟩, some ⟨"ReadOnly", "111111111111"⟩]⟩, none)
    else (⟨[]⟩, none)
  unmarshalCredentials b :=
    if b = "" then (none, some (errorsNew "unexpected end of JSON input"))
    else (some ⟨"", "", "", b, "secret", "session", 1614592800000⟩, none)

/-- The `SSO` value of the examples. -/
def demoSSO : SSO := ⟨"111111111111", "Dev", "https://start", "eu-west-1", false⟩

/-! ## Machines and tokens of the examples -/

/-- A machine whose cache holds a token that expires one second after the clock reading. -/
def freshMachine : Machine :=
  ⟨1614592800 * second, [(machineCache, "2021-03-01T10:00:01Z")], [], none⟩

/-- A machine without a cache file, whose login does not create one. -/
def staleMachine : Machine := ⟨1614592800 * second, [], [], none⟩

/-- A machine whose clock stands exactly at the expiry instant 2021-03-01T10:00:00Z. -/
def boundaryMachine : Machine := ⟨1614592800 * second, [], [], none⟩

/-- A token that expires at 2021-03-01T10:00:00Z. -/
def boundaryToken : SSOCredential := ⟨"https://start", "eu-west-1", "token", "2021-03-01T10:00:00Z"⟩

/-- A token whose `expiresAt` is in neither layout (an offset instead of `Z`). -/
def garbledToken : SSOCredential :=
  ⟨"https://start", "eu-west-1", "token", "2021-03-01T10:00:00+00:00"⟩

/-- The account of the profile-naming example: `"My Team"` with roles `Admin`, `ReadOnly`. -/
def myTeam : Account := ⟨"111111111111", "My Team", "team@example.com", ["Admin", "ReadOnly"]⟩

/-- An account to which no role is assigned. -/
def roleless : Account := ⟨"222222222222", "Sandbox", "sandbox@example.com", []⟩

/-- Two accounts with distinct display names and the same profile name. -/
def twinAccounts : List Account :=
  [⟨"111111111111", "My Team", "a@example.com", ["Admin"]⟩,
   ⟨"222222222222", "my-team", "b@example.com", ["Admin"]⟩]

/-- A credential that expires at second 2000. -/
def laterCred : Credential := ⟨"a", "A", "eu-west-1", "AK1", "SK1", "ST1", 2000000⟩

/-- A credential that expires at second 1000. -/
def earlierCred : Credential := ⟨"b", "B", "eu-west-1", "AK2", "SK2", "ST2", 1000000⟩

/-- A credential whose profile name `a.b` has the parent `a`. -/
def childCred : Credential := ⟨"a.b", "a.b", "eu-west-1", "AK3", "SK3", "ST3", 1000000⟩

/-- The credential store after profile `a` was persisted into an empty one. -/
def storeWithA : Cfg :=
  [⟨"DEFAULT", []⟩,
   ⟨"a", [("output", "json"), ("region", "eu-west-1"), ("aws_access_key_id", "AK1"),
     ("aws_secret_access_key", "SK1"), ("aws_session_token", "ST1")]⟩]

/-- A machine whose credential store holds profile `a`. -/
def storeMachine : Machine :=
  ⟨1614592800 * second, [], [("/home/u/.aws/credentials", storeWithA)], none⟩

/-- The credentials that the reference machine returns for `myTeam`. -/
def myTeamCredentials : List Credential :=
  [⟨"my-team", "My Team", "eu-west-1", "111111111111:Admin", "secret", "session",
      1614592800000⟩,
   ⟨"my-team-read-only", "My Team", "eu-west-1", "111111111111:ReadOnly", "secret", "session",
      1614592800000⟩]

/-- The run of `GetCredentials` for `myTeam` on the reference machine: two calls. -/
def myTeamRun : Sys Machine :=
  ⟨boundaryMachine,
    [.cmdGetRoleCredentials "token" "eu-west-1" "111111111111" "Admin",
     .cmdGetRoleCredentials "token" "eu-west-1" "111111111111" "ReadOnly"]⟩

/-- The reference machine after a document was saved as its credential store. -/
def savedRun (doc : Cfg) : Sys Machine :=
  ⟨⟨1614592800 * second, [], [("/home/u/.aws/credentials", doc)], none⟩,
    [.saveTo "/home/u/.aws/credentials" doc]⟩

/-! ## Enumeration of accounts and roles (`SSO.ListAccounts`) -/

/-- The method `AccountRoles.List`: the role names in order; `none` is the panic of
`r.RoleName` on a nil element. -/
def AccountRoles.List (r : AccountRoles) : Option (List String) :=
  r.Items.foldl
    (fun list item => match list, item with
      | some l, some x => some (l ++ [x.RoleName])
      | _, _ => none)
    (some [])

/-- The loop `for _, account := range accounts.Items` of `ListAccounts` and the final
`return accounts.Items, nil`; `done` holds the accounts that have their roles already.
A nil element panics at `account.ID`. -/
def listRolesLoop {σ : Type} (env : Env σ) (c : SSOCredential) :
    List (Option Account) → List Account → Sys σ → GoResult (List Account) × Sys σ
  | [], done, w => (.returned done none, w)
  | none :: _, _, w => (.panicked "invalid memory address or nil pointer dereference", w)
  | some account :: rest, done, w =>
    let out := env.cmdListAccountRoles c.AccessToken c.Region account.ID w.st
    let w1 := (w.emit (.cmdListAccountRoles c.AccessToken c.Region account.ID)).set out.2
    match out.1.2 with
    | some e => (.returned [] (some e), w1)
    | none =>
      match (env.unmarshalAccountRoles out.1.1).2 with
      | some e => (.returned [] (some e), w1)
      | none =>
        match (env.unmarshalAccountRoles out.1.1).1.List with
        | none => (.panicked "invalid memory address or nil pointer dereference", w1)
        | some roles => listRolesLoop env c rest (done ++ [{ account with Roles := roles }]) w1

/-- The method `SSO.ListAccounts`. -/
def ListAccounts {σ : Type} (env : Env σ) (c : SSOCredential) (w : Sys σ) :
    GoResult (List Account) × Sys σ :=
  let out := env.cmdListAccounts c.AccessToken c.Region w.st
  let w1 := (w.emit (.cmdListAccounts c.AccessToken c.Region)).set out.2
  match out.1.2 with
  | some e => (.returned [] (some e), w1)
  | none =>
    match (env.unmarshalAccounts out.1.1).2 with
    | some e => (.returned [] (some e), w1)
    | none => listRolesLoop env c (env.unmarshalAccounts out.1.1).1.Items [] w1

/-- The account ids of the `ListAccountRoles` calls in a log, in order. -/
def accountRolesCalls (log : List Event) : List String :=
  log.filterMap fun e => match e with
    | .cmdListAccountRoles _ _ acc => some acc
    | _ => none

/-- The account `r` of the result stands for the decoded account `item`: the same id, name
and e-mail, and as roles the `roleName` values, in order, of what `ListAccountRoles`
returns for that id in some state of the outside world. -/
def EnumeratedFrom {σ : Type} (env : Env σ) (c : SSOCredential) (item : Option Account)
    (r : Account) : Prop :=
  ∃ acc s, item = some acc ∧ r = { acc with Roles := r.Roles } ∧
    (env.cmdListAccountRoles c.AccessToken c.Region acc.ID s).1.2 = none ∧
    (env.unmarshalAccountRoles
      (env.cmdListAccountRoles c.AccessToken c.Region acc.ID s).1.1).2 = none ∧
    (env.unmarshalAccountRoles
      (env.cmdListAccountRoles c.AccessToken c.Region acc.ID s).1.1).1.Items.map
        (Option.map AccountRole.RoleName) = r.Roles.map some

/-- A machine whose cache file exists and holds no JSON document. -/
def corruptMachine : Machine := ⟨1614592800 * second, [(machineCache, "")], [], none⟩

/-- The reference environment on a file system that refuses every write. -/
def readOnlyEnv : Env Machine :=
  { machineEnv with writeFile := fun _ _ m => (some (errorsNew "permission denied"), m) }

/-- The machine of `TestBackupFile`: the file `/tmp/go-test-bkp` holds `foo`. -/
def fooMachine : Machine := ⟨1614592800 * second, [("/tmp/go-test-bkp", "foo")], [], none⟩

/-! ## The calls of `PersistCredentials` on the INI document, one by one

For the idempotence of persistence the loop body is read as the list of its six library
calls, and a call `s.Key(key).SetValue(val)` as an assignment to the place that `GetKey`
resolves: a section and a key name. -/

/-- One library call on the document: `cfg.Section(name)`, or `s.Key(key).SetValue(val)` on
the section addressed as `sec`. -/
inductive IniOp where
  | openSection (name : String)
  | setValue (sec key val : String)
  deriving DecidableEq, Repr

/-- The effect of one call. -/
def applyOp (cfg : Cfg) : IniOp → Cfg
  | .openSection name => iniSection cfg name
  | .setValue sec key val => iniKeySetValue cfg sec key val

/-- The six calls of the loop body of `PersistCredentials` for one credential. -/
def opsOf (c : Credential) : List IniOp :=
  [.openSection c.ProfileName,
   .setValue (sectionKey c.ProfileName) "output" "json",
   .setValue (sectionKey c.ProfileName) keyRegion c.Region,
   .setValue (sectionKey c.ProfileName) keyCrdAccessKeyID c.AccessKeyID,
   .setValue (sectionKey c.ProfileName) keyCrdSecretAccessKey c.SecretAccessKey,
   .setValue (sectionKey c.ProfileName) keyCrdSessionToken c.SessionToken]

/-- Set the value of the first key `key` of a section, if it has one. -/
def setIn (key v : String) (s : IniSection) : IniSection :=
  { s with keys := updateFirst (fun kv => kv.1 == key) (fun kv => (kv.1, v)) s.keys }

/-- Add the key `key` with value `v` at the end of a section. -/
def addIn (key v : String) (s : IniSection) : IniSection :=
  { s with keys := s.keys ++ [(key, v)] }

/-- Whether a section has the given name. -/
def named (n : String) (s : IniSection) : Bool := s.name == n

/-- Set the value of the first key `t.2` of the first section named `t.1`, if there is one. -/
def assign (t : String × String) (v : String) (cfg : Cfg) : Cfg :=
  updateFirst (named t.1) (setIn t.2 v) cfg

/-- Add the key `t.2` with value `v` at the end of the first section named `t.1`. -/
def addKey (t : String × String) (v : String) (cfg : Cfg) : Cfg :=
  updateFirst (named t.1) (addIn t.2 v) cfg

/-- The place that `s.Key(key).SetValue(val)` writes to: the key in the section that owns
it, or the new key in the section itself. -/
def target (cfg : Cfg) (sec key : String) : String × String :=
  match keyOwner cfg sec key with
  | some o => (sectionKey o, key)
  | none => (sectionKey sec, key)

/-- The places and values that a list of calls writes, in order, when run on a document. -/
def targets : List IniOp → Cfg → List ((String × String) × String)
  | [], _ => []
  | .openSection name :: ops, cfg => targets ops (iniSection cfg name)
  | .setValue sec key val :: ops, cfg =>
    (target cfg sec key, val) :: targets ops (iniKeySetValue cfg sec key val)

/-- A list of assignments carried out in order. -/
def assignAll (ts : List ((String × String) × String)) (cfg : Cfg) : Cfg :=
  ts.foldl (fun d tv => assign tv.1 tv.2 d) cfg

/-- Every `SetValue` of the list addresses, by its proper name, a section that exists when
the call is made. -/
def wellFormed : List IniOp → Cfg → Prop
  | [], _ => True
  | .openSection name :: ops, cfg => wellFormed ops (iniSection cfg name)
  | .setValue sec key val :: ops, cfg =>
    sectionKey sec = sec ∧ sec ∈ cfg.map IniSection.name ∧
      wellFormed ops (iniKeySetValue cfg sec key val)

/-- Document `e` has every section of `d`, and every key that `GetKey` finds in `d` it finds
in the same section of `e`. -/
def Extends (d e : Cfg) : Prop :=
  (∀ n ∈ d.map IniSection.name, n ∈ e.map IniSection.name) ∧
  (∀ sec key o, keyOwner d sec key = some o → keyOwner e sec key = some o)

/-- The text `x` in single quotes. -/
def quotedOnce : String := String.mk [Char.ofNat 39, 'x', Char.ofNat 39]

/-- The text `x` in single quotes inside double quotes. -/
def quotedTwice : String :=
  String.mk [Char.ofNat 34, Char.ofNat 39, 'x', Char.ofNat 39, Char.ofNat 34]

/-- A credential store with a section `notes` that is no profile of the examples. -/
def notesStore (v : String) : Cfg := [⟨"DEFAULT", []⟩, ⟨"notes", [("k", v)]⟩]

/-- A machine whose credential store is `notesStore v`. -/
def notesMachine (v : String) : Machine :=
  ⟨1614592800 * second, [], [("/home/u/.aws/credentials", notesStore v)], none⟩

/-- Two accounts with distinct normalised names of which the first, with its second role,
gets the name of the second. -/
def nestedAccounts : List Account :=
  [⟨"111111111111", "team", "a@example.com", ["Admin", "Dev"]⟩,
   ⟨"222222222222", "team-dev", "b@example.com", ["Admin"]⟩]

/-- An account whose second and third role have distinct names and the same suffix. -/
def sameSuffixAccounts : List Account :=
  [⟨"111111111111", "team", "a@example.com", ["Admin", "ReadOnly", "Read-only"]⟩]

/-- Two accounts of which one name continues the other with a hyphen, each with two roles. -/
def teamAccounts : List Account :=
  [⟨"111111111111", "team", "a@example.com", ["Admin", "Dev"]⟩,
   ⟨"222222222222", "team-prod", "b@example.com", ["Admin", "ReadOnly"]⟩]

/-- The credentials that the reference machine returns for `teamAccounts`. -/
def teamCredentials : List Credential :=
  [⟨"team", "team", "eu-west-1", "111111111111:Admin", "secret", "session", 1614592800000⟩,
   ⟨"team-dev", "team", "eu-west-1", "111111111111:Dev", "secret", "session", 1614592800000⟩,
   ⟨"team-prod", "team-prod", "eu-west-1", "222222222222:Admin", "secret", "session",
      1614592800000⟩,
   ⟨"team-prod-read-only", "team-prod", "eu-west-1", "222222222222:ReadOnly", "secret",
      "session", 1614592800000⟩]

/-- The run of `GetCredentials` for `teamAccounts` on the reference machine: four calls. -/
def teamRun : Sys Machine :=
  ⟨boundaryMachine,
    [.cmdGetRoleCredentials "token" "eu-west-1" "111111111111" "Admin",
     .cmdGetRoleCredentials "token" "eu-west-1" "111111111111" "Dev",
     .cmdGetRoleCredentials "token" "eu-west-1" "222222222222" "Admin",
     .cmdGetRoleCredentials "token" "eu-west-1" "222222222222" "ReadOnly"]⟩

/-- The credential of an account named `corp`. -/
def corpCred : Credential := ⟨"corp", "corp", "eu-west-1", "AK4", "SK4", "ST4", 1000000⟩

/-- The credential of an account named `corp.dev`, whose profile name has the parent
`corp`. -/
def corpDevCred : Credential :=
  ⟨"corp.dev", "corp.dev", "eu-west-1", "AK5", "SK5", "ST5", 1000000⟩

/-! # Theorems -/

/-! ## Lemmas on the login state machine -/

theorem ReadCacheFile_log {σ : Type} (env : Env σ) (a : SSO) (w : Sys σ) :
    (ReadCacheFile env a w).2.log = w.log ++ [.readCache (cacheFile env a)] := by
  unfold ReadCacheFile
  simp only [Sys.emit, Sys.set]
  split
  · rfl
  · split
    · rfl
    · split <;> rfl

theorem Login_retry {σ : Type} (env : Env σ) (a : SSO) (w : Sys σ) :
    Login env a [true] w =
      if (ReadCacheFile env a w).1.2 ≠ none ∧ osIsNotExist (ReadCacheFile env a w).1.2 = false then
        ((none, (ReadCacheFile env a w).1.2), (ReadCacheFile env a w).2)
      else if (notExpired env (ReadCacheFile env a w).1.1 (ReadCacheFile env a w).2.st).1 then
        (((ReadCacheFile env a w).1.1, none),
          (ReadCacheFile env a w).2.set (logNotExpired env (ReadCacheFile env a w).1.1
            (notExpired env (ReadCacheFile env a w).1.1 (ReadCacheFile env a w).2.st).2))
      else
        ((none, some (errorsNew "can not renew the sso token")),
          (ReadCacheFile env a w).2.set
            (notExpired env (ReadCacheFile env a w).1.1 (ReadCacheFile env a w).2.st).2) := by
  rw [Login]
  simp [retryFlag]

theorem Login_first {σ : Type} (env : Env σ) (a : SSO) (w : Sys σ) :
    Login env a [] w =
      if (ReadCacheFile env a w).1.2 ≠ none ∧ osIsNotExist (ReadCacheFile env a w).1.2 = false then
        ((none, (ReadCacheFile env a w).1.2), (ReadCacheFile env a w).2)
      else if (notExpired env (ReadCacheFile env a w).1.1 (ReadCacheFile env a w).2.st).1 then
        (((ReadCacheFile env a w).1.1, none),
          (ReadCacheFile env a w).2.set (logNotExpired env (ReadCacheFile env a w).1.1
            (notExpired env (ReadCacheFile env a w).1.1 (ReadCacheFile env a w).2.st).2))
      else
        match (env.cmdLogin a.RoleName
            (notExpired env (ReadCacheFile env a w).1.1 (ReadCacheFile env a w).2.st).2).1.2 with
        | some e => ((none, some e), ((ReadCacheFile env a w).2.emit (.cmdLogin a.RoleName)).set
            (env.cmdLogin a.RoleName
              (notExpired env (ReadCacheFile env a w).1.1 (ReadCacheFile env a w).2.st).2).2)
        | none => Login env a [true] (((ReadCacheFile env a w).2.emit (.cmdLogin a.RoleName)).set
            (env.cmdLogin a.RoleName
              (notExpired env (ReadCacheFile env a w).1.1 (ReadCacheFile env a w).2.st).2).2) := by
  rw [Login]
  simp [retryFlag]

theorem loginCalls_append (l m : List Event) :
    loginCalls (l ++ m) = loginCalls l ++ loginCalls m := by
  simp [loginCalls, List.filterMap_append]

theorem cacheReads_append (l m : List Event) :
    cacheReads (l ++ m) = cacheReads l ++ cacheReads m := by
  simp [cacheReads, List.filterMap_append]

theorem Login_retry_log {σ : Type} (env : Env σ) (a : SSO) (w : Sys σ) :
    (Login env a [true] w).2.log = w.log ++ [.readCache (cacheFile env a)] := by
  rw [Login_retry]
  split
  · exact ReadCacheFile_log env a w
  · split <;> simp [Sys.set, ReadCacheFile_log]

/-- Claim C1. When `Login()` reads a cached token `c` successfully on its first attempt, with
`now` the clock reading of `Expired` and `expiresAt` the value of `c.ExpiresAt()` there:
if `now < expiresAt`, `Login` returns `c` with a nil error and the log holds no `Cmd.Login`
call; if `expiresAt < now`, `Cmd.Login` is called, once, for `a.RoleName`. -/
theorem C1_login_uses_unexpired_cache {σ : Type} (env : Env σ) (a : SSO) (s : σ)
    (c : SSOCredential) (w1 : Sys σ)
    (hread : ReadCacheFile env a (Sys.init s) = ((some c, none), w1)) :
    ((env.now w1.st).1 < (c.ExpiresAt env (env.now w1.st).2).1 →
      (Login env a [] (Sys.init s)).1 = (some c, none) ∧
      loginCalls (Login env a [] (Sys.init s)).2.log = []) ∧
    ((c.ExpiresAt env (env.now w1.st).2).1 < (env.now w1.st).1 →
      loginCalls (Login env a [] (Sys.init s)).2.log = [a.RoleName]) := by
  have hlog : w1.log = [.readCache (cacheFile env a)] := by
    have h := ReadCacheFile_log env a (Sys.init s)
    rw [hread] at h
    simpa [Sys.init] using h
  constructor
  · intro hlt
    rw [Login_first, hread]
    have hchk : (notExpired env (some c) w1.st).1 = true := by
      simp [notExpired, SSOCredential.Expired, After]
      exact le_of_lt hlt
    simp [hchk, Sys.set, hlog, loginCalls, osIsNotExist]
  · intro hlt
    rw [Login_first, hread]
    have hchk : (notExpired env (some c) w1.st).1 = false := by
      simp [notExpired, SSOCredential.Expired, After]
      exact hlt
    simp only [hchk, osIsNotExist]
    simp
    split
    · simp [Sys.set, Sys.emit, hlog, loginCalls]
    · rw [Login_retry_log]
      simp [Sys.set, Sys.emit, hlog, loginCalls]

/-- On `freshMachine` the cached token expires a second after the clock reading: `Login`
returns it and does not log in. -/
theorem C1_login_uses_unexpired_cache_witness :
    (Login machineEnv demoSSO [] (Sys.init freshMachine)).1 =
        (some ⟨"https://start", "eu-west-1", "token", "2021-03-01T10:00:01Z"⟩, none) ∧
      loginCalls (Login machineEnv demoSSO [] (Sys.init freshMachine)).2.log = [] :=
  (C1_login_uses_unexpired_cache machineEnv demoSSO freshMachine
    ⟨"https://start", "eu-west-1", "token", "2021-03-01T10:00:01Z"⟩
    ⟨freshMachine, [.readCache machineCache]⟩ (by rfl)).1 (by decide)

/-- Claim C2. In every environment and from every outside state, one call of `Login()` calls
`Cmd.Login` at most once and reads the cache at most twice. If the first read is not fatal
and gives no usable token, `Cmd.Login` succeeds, and the second read again is not fatal and
gives no usable token (the cache is still missing or still expired), then `Login` returns
no token and the error "can not renew the sso token", having called `Cmd.Login` exactly
once. -/
theorem C2_login_retry_bound {σ : Type} (env : Env σ) (a : SSO) (s : σ) :
    (loginCalls (Login env a [] (Sys.init s)).2.log).length ≤ 1 ∧
    (cacheReads (Login env a [] (Sys.init s)).2.log).length ≤ 2 ∧
    (∀ (c1 c2 : Option SSOCredential) (e1 e2 : Option GoError) (w1 w2 : Sys σ) (s2 s3 s4 : σ)
        (out : String),
      ReadCacheFile env a (Sys.init s) = ((c1, e1), w1) →
      (e1 = none ∨ osIsNotExist e1 = true) →
      notExpired env c1 w1.st = (false, s2) →
      env.cmdLogin a.RoleName s2 = ((out, none), s3) →
      ReadCacheFile env a ((w1.emit (.cmdLogin a.RoleName)).set s3) = ((c2, e2), w2) →
      (e2 = none ∨ osIsNotExist e2 = true) →
      notExpired env c2 w2.st = (false, s4) →
      (Login env a [] (Sys.init s)).1 = (none, some (errorsNew "can not renew the sso token")) ∧
      loginCalls (Login env a [] (Sys.init s)).2.log = [a.RoleName]) := by
  have hlog : (ReadCacheFile env a (Sys.init s)).2.log = [.readCache (cacheFile env a)] :=
    ReadCacheFile_log env a (Sys.init s)
  refine ⟨?_, ?_, ?_⟩
  · rw [Login_first]
    split
    · simp [hlog, loginCalls]
    · split
      · simp [hlog, Sys.set, loginCalls]
      · split
        · simp [hlog, Sys.set, Sys.emit, loginCalls]
        · rw [Login_retry_log]
          simp [hlog, Sys.set, Sys.emit, loginCalls]
  · rw [Login_first]
    split
    · simp [hlog, cacheReads]
    · split
      · simp [hlog, Sys.set, cacheReads]
      · split
        · simp [hlog, Sys.set, Sys.emit, cacheReads]
        · rw [Login_retry_log]
          simp [hlog, Sys.set, Sys.emit, cacheReads]
  · intro c1 c2 e1 e2 w1 w2 s2 s3 s4 out h1 he1 hc1 hl h2 he2 hc2
    have hlog1 : w1.log = [.readCache (cacheFile env a)] := by
      rw [h1] at hlog
      exact hlog
    have hf1 : ¬ (e1 ≠ none ∧ osIsNotExist e1 = false) := by
      rcases he1 with h | h <;> simp [h]
    have hf2 : ¬ (e2 ≠ none ∧ osIsNotExist e2 = false) := by
      rcases he2 with h | h <;> simp [h]
    rw [Login_first, h1]
    simp only [hf1, if_false, hc1, hl, Login_retry, h2, hf2, hc2]
    have hlog2 := ReadCacheFile_log env a ((w1.emit (.cmdLogin a.RoleName)).set s3)
    rw [h2] at hlog2
    simp [Sys.set, Sys.emit, hlog1] at hlog2
    simp [Sys.set, hlog2, loginCalls]

/-- On `staleMachine` there is no cache file and the login creates none: the run ends in the
renewal error after one login. -/
theorem C2_login_retry_bound_witness :
    (Login machineEnv demoSSO [] (Sys.init staleMachine)).1 =
        (none, some (errorsNew "can not renew the sso token")) ∧
      loginCalls (Login machineEnv demoSSO [] (Sys.init staleMachine)).2.log = ["Dev"] :=
  (C2_login_retry_bound machineEnv demoSSO staleMachine).2.2
    none none (some ErrNotExist) (some ErrNotExist)
    ⟨staleMachine, [.readCache machineCache]⟩
    ⟨staleMachine, [.readCache machineCache, .cmdLogin "Dev", .readCache machineCache]⟩
    staleMachine staleMachine staleMachine ""
    (by rfl) (by decide) (by rfl) (by rfl) (by rfl) (by decide) (by rfl)

/-! ## Lemmas on `time.Parse` -/

theorem getyear_suffix (s r : List Char) (y : Nat) (h : getyear s = some (y, r)) : r <:+ s := by
  unfold getyear at h
  split at h
  · split at h
    · simp only [Option.some.injEq, Prod.mk.injEq] at h
      rw [← h.2]
      exact ⟨[_, _, _, _], rfl⟩
    · simp at h
  · simp at h

theorem getnum_suffix (s r : List Char) (fixed : Bool) (n : Nat)
    (h : getnum s fixed = some (n, r)) : r <:+ s := by
  unfold getnum at h
  split at h
  · simp at h
  · split at h
    · simp at h
    · split at h
      · simp at h
      · simp only [Option.some.injEq, Prod.mk.injEq] at h
        rw [← h.2]
        exact List.nil_suffix
  · split at h
    · simp at h
    · split at h
      · split at h
        · simp at h
        · simp only [Option.some.injEq, Prod.mk.injEq] at h
          rw [← h.2]
          exact List.suffix_cons _ _
      · simp only [Option.some.injEq, Prod.mk.injEq] at h
        rw [← h.2]
        exact ⟨[_, _], rfl⟩

theorem skip_suffix : ∀ (lit value r : List Char), skip value lit = some r → r <:+ value := by
  intro lit
  induction lit with
  | nil =>
    intro value r h
    cases value <;> simp [skip] at h <;> simp [h]
  | cons p ps ih =>
    intro value r h
    cases value with
    | nil => simp [skip] at h
    | cons c cs =>
      simp only [skip] at h
      split at h
      · exact (ih cs r h).trans (List.suffix_cons _ _)
      · simp at h

theorem skip_eq_nil : ∀ (lit value : List Char), skip value lit = some [] → value = lit := by
  intro lit
  induction lit with
  | nil =>
    intro value h
    cases value <;> simp [skip] at h
    rfl
  | cons p ps ih =>
    intro value h
    cases value with
    | nil => simp [skip] at h
    | cons c cs =>
      simp only [skip] at h
      split at h
      · rename_i hc
        rw [hc, ih cs h]
      · simp at h

theorem getfrac_suffix (s : List Char) : (getfrac s).2 <:+ s := by
  unfold getfrac
  split
  · split
    · exact (List.dropWhile_suffix _).trans (List.suffix_cons _ _)
    · exact List.suffix_refl _
  · exact List.suffix_refl _

/-- A text that `time.Parse` accepts under one of the layouts ends in the literal tail of
that layout. -/
theorem timeParse_suffix (lit value : List Char) (t : Time)
    (h : timeParse lit value = some t) : lit <:+ value := by
  unfold timeParse at h
  simp only [Option.bind_eq_some] at h
  obtain ⟨d, hd, v, hv, c, hc, rest, hrest, h⟩ := h
  split at h
  · simp at h
  · rename_i hnil
    simp only [ne_eq, not_not] at hnil
    subst hnil
    have h1 : c.2.2.2.2 = lit := skip_eq_nil _ _ hrest
    have h2 : c.2.2.2.2 <:+ v := by
      unfold parseClock at hc
      simp only [Option.bind_eq_some] at hc
      obtain ⟨hv', hh, hc⟩ := hc
      split at hc
      · simp at hc
      · simp only [Option.bind_eq_some] at hc
        obtain ⟨v1, hv1, mv, hmv, hc⟩ := hc
        split at hc
        · simp at hc
        · simp only [Option.bind_eq_some] at hc
          obtain ⟨v2, hv2, sv, hsv, hc⟩ := hc
          split at hc
          · simp at hc
          · simp only [Option.some.injEq] at hc
            rw [← hc]
            exact (getfrac_suffix _).trans <| (getnum_suffix _ _ _ _ hsv).trans <|
              (skip_suffix _ _ _ hv2).trans <| (getnum_suffix _ _ _ _ hmv).trans <|
              (skip_suffix _ _ _ hv1).trans (getnum_suffix _ _ _ _ hh)
    have h3 : d.2.2.2 <:+ value := by
      unfold parseDate at hd
      simp only [Option.bind_eq_some] at hd
      obtain ⟨yv, hy, v1, hv1, mv, hmv, hd⟩ := hd
      split at hd
      · simp at hd
      · simp only [Option.bind_eq_some] at hd
        obtain ⟨v2, hv2, dv, hdv, hd⟩ := hd
        simp only [Option.some.injEq] at hd
        rw [← hd]
        exact (getnum_suffix _ _ _ _ hdv).trans <| (skip_suffix _ _ _ hv2).trans <|
          (getnum_suffix _ _ _ _ hmv).trans <| (skip_suffix _ _ _ hv1).trans
          (getyear_suffix _ _ _ hy)
    rw [← h1]
    exact h2.trans ((skip_suffix _ _ _ hv).trans h3)

/-- Claim C3. `ExpiresAt` gives the instant 2021-03-01 10:00:00 UTC (Unix second 1614592800)
for `"2021-03-01T10:00:00Z"` and for `"2021-03-01T10:00:00UTC"`. For a string that
`time.Parse` accepts under neither layout, `ExpiresAt` returns its clock reading minus one
day, which is strictly before that reading, and `Expired` is true provided the clock does not
run a day ahead between the reading of `Expired` and the reading of `ExpiresAt`. Every
string that ends neither in `Z` nor in `UTC` is such a string. `ExpiresAt` is a total
function: it has no failing outcome. -/
theorem C3_expiresAt_parsing {σ : Type} (env : Env σ) (s : σ) (c : SSOCredential) :
    (∀ u r t : String,
      (SSOCredential.ExpiresAt env ⟨u, r, t, "2021-03-01T10:00:00Z"⟩ s).1 = 1614592800 * second) ∧
    (∀ u r t : String,
      (SSOCredential.ExpiresAt env ⟨u, r, t, "2021-03-01T10:00:00UTC"⟩ s).1
        = 1614592800 * second) ∧
    (timeParse layoutZ c.ExpiresAsStr.data = none →
      timeParse layoutUTC c.ExpiresAsStr.data = none →
      (c.ExpiresAt env s).1 = (env.now s).1 - oneDay ∧
      (c.ExpiresAt env s).1 < (env.now s).1 ∧
      ((env.now (env.now s).2).1 < (env.now s).1 + oneDay → (c.Expired env s).1 = true)) ∧
    (¬ layoutZ <:+ c.ExpiresAsStr.data → ¬ layoutUTC <:+ c.ExpiresAsStr.data →
      timeParse layoutZ c.ExpiresAsStr.data = none ∧
      timeParse layoutUTC c.ExpiresAsStr.data = none) := by
  refine ⟨fun _ _ _ => by rfl, fun _ _ _ => by rfl, ?_, ?_⟩
  · intro hz hu
    have hE : ∀ s', (c.ExpiresAt env s').1 = (env.now s').1 - oneDay := by
      intro s'
      simp [SSOCredential.ExpiresAt, hz, hu]
    have hday : (0 : Int) < oneDay := by decide
    refine ⟨hE s, ?_, ?_⟩
    · rw [hE]
      exact sub_lt_self _ hday
    · intro hclock
      simp only [SSOCredential.Expired, After, hE, decide_eq_true_eq]
      exact sub_lt_iff_lt_add.mpr hclock
  · intro hz hu
    constructor
    · cases h : timeParse layoutZ c.ExpiresAsStr.data with
      | none => rfl
      | some t => exact absurd (timeParse_suffix _ _ t h) hz
    · cases h : timeParse layoutUTC c.ExpiresAsStr.data with
      | none => rfl
      | some t => exact absurd (timeParse_suffix _ _ t h) hu

/-- The text `"2021-03-01T10:00:00+00:00"` is in neither layout: the token counts as
expired since the day before. -/
theorem C3_expiresAt_parsing_witness :
    (garbledToken.ExpiresAt machineEnv boundaryMachine).1 = 1614592800 * second - oneDay ∧
    (garbledToken.ExpiresAt machineEnv boundaryMachine).1 < 1614592800 * second ∧
    ((1614592800 * second : Int) < 1614592800 * second + oneDay →
      (garbledToken.Expired machineEnv boundaryMachine).1 = true) :=
  (C3_expiresAt_parsing machineEnv boundaryMachine garbledToken).2.2.1 (by decide) (by decide)

/-- Claim C4 fails at `now == expiresAt`: `Expired()` is false there although `now` is not
strictly before `ExpiresAt()`. -/
theorem C4_usable_iff_before_expiry_counterexample :
    (boundaryToken.Expired machineEnv boundaryMachine).1 = false ∧
    ¬ ((machineEnv.now boundaryMachine).1 < (boundaryToken.ExpiresAt machineEnv boundaryMachine).1) := by
  decide

/-- Claim C4, amended. For every token whose `expiresAt` parses under one of the two layouts
and every clock reading `now`, `Expired()` is false exactly when `now ≤ ExpiresAt()`, and
`ExpiresAt()` does not depend on the clock. -/
theorem C4_usable_iff_not_after_expiry {σ : Type} (env : Env σ) (s : σ) (c : SSOCredential)
    (hparse : (timeParse layoutZ c.ExpiresAsStr.data).isSome = true ∨
      (timeParse layoutUTC c.ExpiresAsStr.data).isSome = true) :
    ((c.Expired env s).1 = false ↔ (env.now s).1 ≤ (c.ExpiresAt env s).1) ∧
    (∀ s', (c.ExpiresAt env s').1 = (c.ExpiresAt env s).1) := by
  have hE : ∀ s' s'', (c.ExpiresAt env s').1 = (c.ExpiresAt env s'').1 := by
    intro s' s''
    unfold SSOCredential.ExpiresAt
    cases hz : timeParse layoutZ c.ExpiresAsStr.data with
    | some t => rfl
    | none =>
      cases hu : timeParse layoutUTC c.ExpiresAsStr.data with
      | some t => rfl
      | none => simp [hz, hu] at hparse
  refine ⟨?_, fun s' => hE s' s⟩
  simp only [SSOCredential.Expired, After, decide_eq_false_iff_not, not_lt]
  rw [hE (env.now s).2 s]

/-- At the expiry instant itself the token is still usable. -/
theorem C4_usable_iff_not_after_expiry_witness :
    ((boundaryToken.Expired machineEnv boundaryMachine).1 = false ↔
      (machineEnv.now boundaryMachine).1 ≤ (boundaryToken.ExpiresAt machineEnv boundaryMachine).1) ∧
    (∀ s', (boundaryToken.ExpiresAt machineEnv s').1
      = (boundaryToken.ExpiresAt machineEnv boundaryMachine).1) :=
  C4_usable_iff_not_after_expiry machineEnv boundaryMachine boundaryToken (Or.inl (by decide))

/-! ## Lemmas on `Snake` -/

theorem char_le_iff (c d : Char) : c ≤ d ↔ c.toNat ≤ d.toNat := Iff.rfl

theorem clsUpper_not_lowerDigit (c : Char) (h : clsUpper c = true) : clsLowerDigit c = false := by
  simp only [clsUpper, clsLowerDigit, Bool.and_eq_true, decide_eq_true_eq, char_le_iff,
    Bool.or_eq_false_iff, Bool.and_eq_false_iff, decide_eq_false_iff_not] at h ⊢
  have h1 : ('Z' : Char).toNat = 90 := rfl
  have h2 : ('a' : Char).toNat = 97 := rfl
  have h3 : ('9' : Char).toNat = 57 := rfl
  have h4 : ('A' : Char).toNat = 65 := rfl
  constructor
  · left; omega
  · right; omega

theorem matchHere_allCap_two (a b : Char) (rest : List Char) :
    matchHere matchAllCap (a :: b :: rest) =
      if clsLowerDigit a = true ∧ clsUpper b = true then some [(1, a), (2, b)] else none := by
  simp only [matchAllCap, matchHere]
  by_cases ha : clsLowerDigit a = true <;> by_cases hb : clsUpper b = true <;> simp [ha, hb]

theorem matchHere_allCap_one (a : Char) : matchHere matchAllCap [a] = none := by
  simp only [matchAllCap, matchHere]
  by_cases ha : clsLowerDigit a = true <;> simp [ha]

theorem replaceAll_allCap_hyphenated (n : Nat) :
    ∀ s : List Char, s.length ≤ n →
      Hyphenated (replaceAllFrom matchAllCap 0 s) ∧
      (replaceAllFrom matchAllCap 0 s).head? = s.head? := by
  induction n using Nat.strong_induction_on with
  | _ n ih =>
    intro s hs
    match s, hs with
    | [], _ => simp [replaceAllFrom, Hyphenated]
    | [a], _ =>
      simp [replaceAllFrom, matchHere_allCap_one, Hyphenated]
    | a :: b :: rest, hs =>
      simp only [List.length_cons] at hs
      by_cases hm : clsLowerDigit a = true ∧ clsUpper b = true
      · have hrest := ih rest.length (by omega) rest le_rfl
        have hout : replaceAllFrom matchAllCap 0 (a :: b :: rest) =
            a :: '-' :: b :: replaceAllFrom matchAllCap 0 rest := by
          simp [replaceAllFrom, matchHere_allCap_two, hm, expandTemplate, capture]
        rw [hout]
        refine ⟨?_, rfl⟩
        unfold Hyphenated
        refine List.chain'_cons'.mpr ⟨?_, List.chain'_cons'.mpr ⟨?_, List.chain'_cons'.mpr ⟨?_, hrest.1⟩⟩⟩
        · intro y hy
          simp only [List.head?_cons, Option.mem_def, Option.some.injEq] at hy
          subst hy
          simp [show clsUpper '-' = false by decide]
        · intro y hy
          simp only [List.head?_cons, Option.mem_def, Option.some.injEq] at hy
          subst hy
          simp [show clsLowerDigit '-' = false by decide]
        · intro y _
          simp [clsUpper_not_lowerDigit b hm.2]
      · have htail := ih (b :: rest).length (by simp only [List.length_cons]; omega)
          (b :: rest) le_rfl
        have hout : replaceAllFrom matchAllCap 0 (a :: b :: rest) =
            a :: replaceAllFrom matchAllCap 0 (b :: rest) := by
          rw [replaceAllFrom, matchHere_allCap_two, if_neg hm]
        rw [hout]
        refine ⟨?_, rfl⟩
        unfold Hyphenated
        refine List.chain'_cons'.mpr ⟨?_, htail.1⟩
        intro y hy
        rw [htail.2] at hy
        simp only [List.head?_cons, Option.mem_def, Option.some.injEq] at hy
        subst hy
        exact hm

theorem Snake_hyphenated (txt : List Char) : Hyphenated (Snake txt) :=
  (replaceAll_allCap_hyphenated _ _ le_rfl).1

theorem hyphenated_index (l : List Char) (h : Hyphenated l) (i : Nat) (x y : Char)
    (hx : l[i]? = some x) (hy : l[i + 1]? = some y) :
    ¬ (clsLowerDigit x = true ∧ clsUpper y = true) := by
  obtain ⟨hi, rfl⟩ := List.getElem?_eq_some_iff.mp hx
  obtain ⟨hj, rfl⟩ := List.getElem?_eq_some_iff.mp hy
  have := List.chain'_iff_get.mp h i (by omega)
  simpa using this

/-- Claim C6. `Snake("")` is `""`, `Snake("DevSSOLogin")` is `"Dev-SSO-Login"`, and in
`Snake(txt)`, for every `txt`, no character of `[a-z0-9]` is immediately followed by a
character of `[A-Z]`. -/
theorem C6_snake_hyphenation :
    Snake "".data = "".data ∧
    Snake "DevSSOLogin".data = "Dev-SSO-Login".data ∧
    ∀ (txt : List Char) (i : Nat) (x y : Char),
      (Snake txt)[i]? = some x → (Snake txt)[i + 1]? = some y →
      ¬ (clsLowerDigit x = true ∧ clsUpper y = true) :=
  ⟨by decide, by decide, fun txt i x y hx hy => hyphenated_index _ (Snake_hyphenated txt) i x y hx hy⟩

/-- In `Snake("DevSSOLogin")` the `v` at index 2 is followed by the inserted hyphen. -/
theorem C6_snake_hyphenation_witness :
    Snake "DevSSOLogin".data = "Dev-SSO-Login".data ∧
      ¬ (clsLowerDigit 'v' = true ∧ clsUpper '-' = true) :=
  ⟨C6_snake_hyphenation.2.1,
    C6_snake_hyphenation.2.2 "DevSSOLogin".data 2 'v' '-' (by decide) (by decide)⟩

/-! ## Lemmas on the fan-out -/

/-- The profile names that the inner loop adds for the roles of one account, the first of
them at index `i`. -/
theorem rolesLoop_fallThrough {σ : Type} (env : Env σ) (c : SSOCredential) (acc : Account) :
    ∀ (roles : List String) (i : Nat) (creds creds1 : List Credential) (w w1 : Sys σ),
      rolesLoop env c acc i roles creds w = (.fallThrough creds1, w1) →
      creds1.map Credential.ProfileName =
        creds.map Credential.ProfileName ++
          (roles.enumFrom i).map fun p => profileName env.lowerTable acc.Name p.1 p.2 := by
  intro roles
  induction roles with
  | nil =>
    intro i creds creds1 w w1 h
    simp only [rolesLoop, Prod.mk.injEq, LoopEnd.fallThrough.injEq] at h
    simp [h.1]
  | cons r rs ih =>
    intro i creds creds1 w w1 h
    rw [rolesLoop] at h
    split at h
    · simp at h
    · split at h
      · simp at h
      · split at h
        · simp at h
        · have := ih _ _ _ _ _ h
          simp [this, List.enumFrom_cons]

theorem rolesLoop_leave {σ : Type} (env : Env σ) (c : SSOCredential) (acc : Account) :
    ∀ (roles : List String) (i : Nat) (creds : List Credential) (w w1 : Sys σ)
      (r : GoResult (List Credential)),
      rolesLoop env c acc i roles creds w = (.leave r, w1) →
      ∀ cs, r ≠ .returned cs none := by
  intro roles
  induction roles with
  | nil =>
    intro i creds w w1 r h
    simp [rolesLoop] at h
  | cons x rs ih =>
    intro i creds w w1 r h
    rw [rolesLoop] at h
    split at h
    · simp only [Prod.mk.injEq, LoopEnd.leave.injEq] at h
      intro cs hr
      rw [← h.1] at hr
      simp at hr
    · split at h
      · simp only [Prod.mk.injEq, LoopEnd.leave.injEq] at h
        intro cs hr
        rw [← h.1] at hr
        simp at hr
      · split at h
        · simp only [Prod.mk.injEq, LoopEnd.leave.injEq] at h
          intro cs hr
          rw [← h.1] at hr
          simp at hr
        · exact ih _ _ _ _ _ h

/-- The profile names in fan-out order: every account in turn, every role of it in turn. -/
theorem accountsLoop_fallThrough {σ : Type} (env : Env σ) (c : SSOCredential) :
    ∀ (accounts : List Account) (creds creds1 : List Credential) (w w1 : Sys σ),
      accountsLoop env c accounts creds w = (.fallThrough creds1, w1) →
      creds1.map Credential.ProfileName =
        creds.map Credential.ProfileName ++
          accounts.flatMap fun acc =>
            acc.Roles.enum.map fun p => profileName env.lowerTable acc.Name p.1 p.2 := by
  intro accounts
  induction accounts with
  | nil =>
    intro creds creds1 w w1 h
    simp only [accountsLoop, Prod.mk.injEq, LoopEnd.fallThrough.injEq] at h
    simp [h.1]
  | cons acc rest ih =>
    intro creds creds1 w w1 h
    rw [accountsLoop] at h
    split at h
    · rename_i creds2 w2 hr
      have h1 := rolesLoop_fallThrough env c acc _ _ _ _ _ _ hr
      have h2 := ih _ _ _ _ h
      simp [h2, h1, List.enum]
    · simp at h

theorem accountsLoop_leave {σ : Type} (env : Env σ) (c : SSOCredential) :
    ∀ (accounts : List Account) (creds : List Credential) (w w1 : Sys σ)
      (r : GoResult (List Credential)),
      accountsLoop env c accounts creds w = (.leave r, w1) →
      ∀ cs, r ≠ .returned cs none := by
  intro accounts
  induction accounts with
  | nil =>
    intro creds w w1 r h
    simp [accountsLoop] at h
  | cons acc rest ih =>
    intro creds w w1 r h
    rw [accountsLoop] at h
    split at h
    · exact ih _ _ _ _ h
    · rename_i r2 w2 hr
      simp only [Prod.mk.injEq, LoopEnd.leave.injEq] at h
      rw [← h.1]
      exact rolesLoop_leave env c acc _ _ _ _ _ _ hr

/-- A successful `GetCredentials` returns the profile names of the fan-out, in order. -/
theorem GetCredentials_names {σ : Type} (env : Env σ) (c : SSOCredential)
    (accounts : List Account) (w w1 : Sys σ) (creds : List Credential)
    (h : GetCredentials env c accounts w = (.returned creds none, w1)) :
    creds.map Credential.ProfileName =
      accounts.flatMap fun acc =>
        acc.Roles.enum.map fun p => profileName env.lowerTable acc.Name p.1 p.2 := by
  unfold GetCredentials at h
  split at h
  · rename_i r w2 hr
    simp only [Prod.mk.injEq] at h
    exact absurd h.1 (accountsLoop_leave env c _ _ _ _ _ hr creds)
  · rename_i creds2 w2 hr
    split at h
    · simp at h
    · simp only [Prod.mk.injEq, GoResult.returned.injEq, and_true] at h
      have := accountsLoop_fallThrough env c _ _ _ _ _ hr
      rw [← h.1]
      simpa using this

/-- Claim C5. The profile names of the credentials of a successful `GetCredentials`, in
order, are: for every account in turn and every role at index `i` of it in turn, the
lower-cased account name with spaces as hyphens when `i = 0`, and the lower-cased
concatenation of that name, `"-"` and `Snake(role)` when `i ≥ 1`. For the account
`"My Team"` with roles `Admin`, `ReadOnly` they are `"my-team"`, `"my-team-read-only"`. -/
theorem C5_profile_naming {σ : Type} (env : Env σ) (c : SSOCredential)
    (accounts : List Account) (w w1 : Sys σ) (creds : List Credential)
    (h : GetCredentials env c accounts w = (.returned creds none, w1)) :
    creds.map Credential.ProfileName =
      (accounts.flatMap fun acc => acc.Roles.enum.map fun p =>
        if p.1 = 0 then String.mk (ToLower env.lowerTable (replaceSpaces acc.Name.data))
        else String.mk (ToLower env.lowerTable
          (replaceSpaces acc.Name.data ++ ['-'] ++ Snake p.2.data))) ∧
    (accounts = [myTeam] → creds.map Credential.ProfileName = ["my-team", "my-team-read-only"]) := by
  have hn := GetCredentials_names env c accounts w w1 creds h
  constructor
  · rw [hn]
    congr 1
    funext acc
    congr 1
    funext p
    by_cases hp : p.1 = 0
    · simp [profileName, hp]
    · have : p.1 > 0 := Nat.pos_of_ne_zero hp
      simp [profileName, hp, this]
  · intro hacc
    rw [hn, hacc]
    rfl

/-- The fan-out over `myTeam` on the reference machine. -/
theorem C5_profile_naming_witness :
    GetCredentials machineEnv boundaryToken [myTeam] (Sys.init boundaryMachine) =
        (.returned myTeamCredentials none, myTeamRun) ∧
      myTeamCredentials.map Credential.ProfileName = ["my-team", "my-team-read-only"] :=
  ⟨by rfl, (C5_profile_naming machineEnv boundaryToken [myTeam] (Sys.init boundaryMachine)
    myTeamRun myTeamCredentials (by rfl)).2 rfl⟩

theorem accountsLoop_roleless {σ : Type} (env : Env σ) (c : SSOCredential) :
    ∀ (accounts : List Account) (creds : List Credential) (w : Sys σ),
      (∀ acc ∈ accounts, acc.Roles = []) →
      accountsLoop env c accounts creds w = (.fallThrough creds, w) := by
  intro accounts
  induction accounts with
  | nil => intro creds w _; rfl
  | cons acc rest ih =>
    intro creds w h
    have h0 : acc.Roles = [] := h acc (List.mem_cons_self _ _)
    rw [accountsLoop, h0]
    simp only [rolesLoop]
    exact ih creds w fun x hx => h x (List.mem_cons_of_mem _ hx)

/-- Claim C9. When every account of the list has no role (an empty list included),
`GetCredentials` returns no credentials and the error "no credentials were found" and leaves
the outside state and the log as they were, so it makes no `GetRoleCredentials` call; and
lines 79 to 87 of `main` return that error without reaching `PersistCredentials`: state and
log are unchanged, so nothing is written to the credential store. -/
theorem C9_no_credentials_found {σ : Type} (env : Env σ) (a : SSO) (c : SSOCredential)
    (accounts : List Account) (w : Sys σ) (hroles : ∀ acc ∈ accounts, acc.Roles = []) :
    GetCredentials env c accounts w =
      (.returned [] (some (errorsNew "no credentials were found")), w) ∧
    roleCredentialCalls (GetCredentials env c accounts w).2.log = roleCredentialCalls w.log ∧
    runCredentialStage env a c accounts w =
      (.returned none (some (errorsNew "no credentials were found")), w) ∧
    storeWrites (credentialsFile env) (runCredentialStage env a c accounts w).2.log =
      storeWrites (credentialsFile env) w.log := by
  have hg : GetCredentials env c accounts w =
      (.returned [] (some (errorsNew "no credentials were found")), w) := by
    unfold GetCredentials
    rw [accountsLoop_roleless env c accounts [] w hroles]
    rfl
  have hr : runCredentialStage env a c accounts w =
      (.returned none (some (errorsNew "no credentials were found")), w) := by
    unfold runCredentialStage
    rw [hg]
  exact ⟨hg, by rw [hg], hr, by rw [hr]⟩

/-- Two accounts without roles on the reference machine. -/
theorem C9_no_credentials_found_witness :
    runCredentialStage machineEnv demoSSO boundaryToken [roleless, roleless]
        (Sys.init boundaryMachine) =
      (.returned none (some (errorsNew "no credentials were found")), Sys.init boundaryMachine) :=
  (C9_no_credentials_found machineEnv demoSSO boundaryToken [roleless, roleless]
    (Sys.init boundaryMachine) (by decide)).2.2.1

/-! ## Lemmas on profile names -/

theorem profileName_zero (tbl : Char → Char) (acc : Account) (r : String) :
    profileName tbl acc.Name 0 r = String.mk (baseName tbl acc) := by
  simp [profileName, baseName]

theorem profileName_succ (tbl : Char → Char) (acc : Account) (i : Nat) (r : String) :
    profileName tbl acc.Name (i + 1) r =
      String.mk (baseName tbl acc ++ '-' :: roleSuffix tbl r) := by
  have hdash : unicodeToLower tbl '-' = '-' := by
    simp only [unicodeToLower]
    rw [if_pos (by decide), if_neg (by decide)]
  simp [profileName, baseName, roleSuffix, ToLower, hdash]

theorem enumFrom_names (tbl : Char → Char) (acc : Account) :
    ∀ (rs : List String) (i : Nat),
      ((rs.enumFrom (i + 1)).map fun p => profileName tbl acc.Name p.1 p.2) =
        rs.map fun r => String.mk (baseName tbl acc ++ '-' :: roleSuffix tbl r) := by
  intro rs
  induction rs with
  | nil => intro i; rfl
  | cons r rs ih =>
    intro i
    simp only [List.enumFrom_cons, List.map_cons, profileName_succ, ih (i + 1)]

/-- The profile names of one account, as characters: the bare name for the first role and
a suffixed name for every later role. -/
theorem account_names (tbl : Char → Char) (acc : Account) :
    (acc.Roles.enum.map fun p => profileName tbl acc.Name p.1 p.2) =
      (match acc.Roles with
        | [] => []
        | _ :: rs => baseName tbl acc ::
            (rs.map (roleSuffix tbl)).map fun x => baseName tbl acc ++ '-' :: x).map
        String.mk := by
  cases hr : acc.Roles with
  | nil => rfl
  | cons r rs =>
    simp only [List.enum, List.enumFrom_cons, List.map_cons, profileName_zero, zero_add,
      enumFrom_names tbl acc rs 0, List.map_map]
    rfl

/-- The profile names of one account have no duplicate exactly when the suffixes of its
roles after the first have none. -/
theorem account_names_nodup (tbl : Char → Char) (acc : Account) :
    (match acc.Roles with
      | [] => []
      | _ :: rs => baseName tbl acc ::
          (rs.map (roleSuffix tbl)).map fun x => baseName tbl acc ++ '-' :: x).Nodup ↔
      (acc.Roles.tail.map (roleSuffix tbl)).Nodup := by
  cases hR : acc.Roles with
  | nil => simp
  | cons r rs =>
    simp only [List.tail_cons, List.nodup_cons]
    have hinj : Function.Injective fun x : List Char => baseName tbl acc ++ '-' :: x := by
      intro x y hxy
      simpa using hxy
    rw [List.nodup_map_iff hinj]
    constructor
    · exact fun h => h.2
    · intro h
      refine ⟨?_, h⟩
      intro hmem
      obtain ⟨x, _, hx⟩ := List.mem_map.mp hmem
      have := congrArg List.length hx
      simp at this

/-- The profile names of two accounts are disjoint exactly when, if both have a role, the
base names differ and no suffixed name of one is the base name or a suffixed name of the
other. -/
theorem account_names_disjoint (tbl : Char → Char) (a1 a2 : Account) :
    List.Disjoint
        (match a1.Roles with
          | [] => []
          | _ :: rs => baseName tbl a1 ::
              (rs.map (roleSuffix tbl)).map fun x => baseName tbl a1 ++ '-' :: x)
        (match a2.Roles with
          | [] => []
          | _ :: rs => baseName tbl a2 ::
              (rs.map (roleSuffix tbl)).map fun x => baseName tbl a2 ++ '-' :: x) ↔
      (a1.Roles ≠ [] → a2.Roles ≠ [] →
        baseName tbl a1 ≠ baseName tbl a2 ∧
        (∀ r2 ∈ a2.Roles.tail,
          baseName tbl a1 ≠ baseName tbl a2 ++ '-' :: roleSuffix tbl r2) ∧
        (∀ r1 ∈ a1.Roles.tail,
          baseName tbl a1 ++ '-' :: roleSuffix tbl r1 ≠ baseName tbl a2) ∧
        (∀ r1 ∈ a1.Roles.tail, ∀ r2 ∈ a2.Roles.tail,
          baseName tbl a1 ++ '-' :: roleSuffix tbl r1 ≠
            baseName tbl a2 ++ '-' :: roleSuffix tbl r2)) := by
  cases h1 : a1.Roles with
  | nil => simp
  | cons r1 rs1 =>
    cases h2 : a2.Roles with
    | nil => simp
    | cons r2 rs2 =>
      simp only [List.tail_cons, ne_eq, reduceCtorEq, not_false_eq_true, true_implies,
        List.disjoint_cons_left, List.disjoint_cons_right, List.mem_cons, List.mem_map,
        not_or, not_exists, not_and, List.disjoint_left, List.map_map, Function.comp]
      constructor
      · intro h
        refine ⟨(h (Or.inl rfl)).1, ?_, ?_, ?_⟩
        · intro r hr e
          exact (h (Or.inl rfl)).2 r hr e.symm
        · intro r hr e
          exact (h (Or.inr ⟨r, hr, rfl⟩)).1 e
        · intro r hr r' hr' e
          exact (h (Or.inr ⟨r, hr, rfl⟩)).2 r' hr' e.symm
      · rintro ⟨hb, hb2, h3, h4⟩ x hx
        rcases hx with hx | ⟨r, hr, hx⟩
        · subst hx
          exact ⟨hb, fun r' hr' e => hb2 r' hr' e.symm⟩
        · subst hx
          exact ⟨h3 r hr, fun r' hr' e => h4 r hr r' hr' e.symm⟩

/-- Claim C8 fails in three ways, each with pairwise distinct display names and pairwise
distinct role names within every account. The display names `"My Team"` and `"my-team"`
are normalised to the same name. The account `team` with second role `Dev` gets the name
`team-dev` of the account `team-dev`. The roles `ReadOnly` and `Read-only`, second and
third of one account, get the same suffix `read-only`. -/
theorem C8_profile_names_collide_counterexample :
    ((twinAccounts.map Account.Name).Nodup ∧
      (∀ acc ∈ twinAccounts, acc.Roles.Nodup) ∧
      ∃ creds w1,
        GetCredentials machineEnv boundaryToken twinAccounts (Sys.init boundaryMachine) =
          (.returned creds none, w1) ∧
        creds.map Credential.ProfileName = ["my-team", "my-team"] ∧
        ¬ (creds.map Credential.ProfileName).Nodup) ∧
    ((nestedAccounts.map Account.Name).Nodup ∧
      (nestedAccounts.map (baseName machineEnv.lowerTable)).Nodup ∧
      (∀ acc ∈ nestedAccounts, acc.Roles.Nodup) ∧
      ∃ creds w1,
        GetCredentials machineEnv boundaryToken nestedAccounts (Sys.init boundaryMachine) =
          (.returned creds none, w1) ∧
        creds.map Credential.ProfileName = ["team", "team-dev", "team-dev"] ∧
        ¬ (creds.map Credential.ProfileName).Nodup) ∧
    ((sameSuffixAccounts.map Account.Name).Nodup ∧
      (∀ acc ∈ sameSuffixAccounts, acc.Roles.Nodup) ∧
      ∃ creds w1,
        GetCredentials machineEnv boundaryToken sameSuffixAccounts (Sys.init boundaryMachine) =
          (.returned creds none, w1) ∧
        creds.map Credential.ProfileName = ["team", "team-read-only", "team-read-only"] ∧
        ¬ (creds.map Credential.ProfileName).Nodup) :=
  ⟨⟨by decide, by decide, _, _, by rfl, by rfl, by decide⟩,
    ⟨by decide, by decide, by decide, _, _, by rfl, by rfl, by decide⟩,
    ⟨by decide, by decide, _, _, by rfl, by rfl, by decide⟩⟩

/-- Claim C8, amended. The credentials of a successful `GetCredentials` have pairwise
distinct profile names if and only if, with the base name of an account its display name
with spaces as hyphens, lower-cased, and the suffix of a role its `Snake` form,
lower-cased: within each account the roles after the first have pairwise distinct
suffixes; and of any two accounts that both have a role, the base names differ, and a base
name followed by a hyphen and the suffix of a later role of that account is neither the
base name of the other account nor such a suffixed name of the other account. -/
theorem C8_profile_names_distinct {σ : Type} (env : Env σ) (c : SSOCredential)
    (accounts : List Account) (w w1 : Sys σ) (creds : List Credential)
    (h : GetCredentials env c accounts w = (.returned creds none, w1)) :
    (creds.map Credential.ProfileName).Nodup ↔
      (∀ acc ∈ accounts, (acc.Roles.tail.map (roleSuffix env.lowerTable)).Nodup) ∧
      accounts.Pairwise (fun a1 a2 =>
        a1.Roles ≠ [] → a2.Roles ≠ [] →
          baseName env.lowerTable a1 ≠ baseName env.lowerTable a2 ∧
          (∀ r2 ∈ a2.Roles.tail,
            baseName env.lowerTable a1 ≠
              baseName env.lowerTable a2 ++ '-' :: roleSuffix env.lowerTable r2) ∧
          (∀ r1 ∈ a1.Roles.tail,
            baseName env.lowerTable a1 ++ '-' :: roleSuffix env.lowerTable r1 ≠
              baseName env.lowerTable a2) ∧
          (∀ r1 ∈ a1.Roles.tail, ∀ r2 ∈ a2.Roles.tail,
            baseName env.lowerTable a1 ++ '-' :: roleSuffix env.lowerTable r1 ≠
              baseName env.lowerTable a2 ++ '-' :: roleSuffix env.lowerTable r2)) := by
  rw [GetCredentials_names env c accounts w w1 creds h]
  simp only [account_names]
  have hmk : Function.Injective String.mk := fun x y hxy => by
    simpa using congrArg String.data hxy
  have hflat : ∀ (l : List Account) (f : Account → List (List Char)),
      (l.flatMap fun acc => (f acc).map String.mk) = (l.flatMap f).map String.mk := by
    intro l f
    induction l with
    | nil => rfl
    | cons x xs ih => simp [List.flatMap_cons, ih]
  rw [hflat, List.nodup_map_iff hmk, List.nodup_flatMap]
  constructor
  · rintro ⟨hin, hpw⟩
    refine ⟨fun acc hacc => (account_names_nodup env.lowerTable acc).mp (hin acc hacc), ?_⟩
    exact hpw.imp fun {a1 a2} hd => (account_names_disjoint env.lowerTable a1 a2).mp hd
  · rintro ⟨hin, hpw⟩
    refine ⟨fun acc hacc => (account_names_nodup env.lowerTable acc).mpr (hin acc hacc), ?_⟩
    exact hpw.imp fun {a1 a2} hd => (account_names_disjoint env.lowerTable a1 a2).mpr hd

/-- The accounts `team` and `team-prod`, two roles each: the four names `team`, `team-dev`,
`team-prod` and `team-prod-read-only` differ, although one base name continues the other
with a hyphen. -/
theorem C8_profile_names_distinct_witness :
    GetCredentials machineEnv boundaryToken teamAccounts (Sys.init boundaryMachine) =
      (.returned teamCredentials none, teamRun) ∧
    teamCredentials.map Credential.ProfileName =
      ["team", "team-dev", "team-prod", "team-prod-read-only"] ∧
    (teamCredentials.map Credential.ProfileName).Nodup :=
  ⟨by rfl, by rfl,
    (C8_profile_names_distinct machineEnv boundaryToken teamAccounts (Sys.init boundaryMachine)
      teamRun teamCredentials (by rfl)).mpr ⟨by decide, by decide⟩⟩

/-! ## Lemmas on persistence -/

theorem storeWrites_append (path : String) (l m : List Event) :
    storeWrites path (l ++ m) = storeWrites path l ++ storeWrites path m := by
  simp [storeWrites, List.filterMap_append]

theorem Backup_storeWrites {σ : Type} (env : Env σ) (fullName path : String) (w : Sys σ) :
    storeWrites path (Backup env fullName w).2.log = storeWrites path w.log := by
  unfold Backup
  simp only [Sys.emit, Sys.set]
  split
  · rfl
  · split
    · rfl
    · split <;> simp [storeWrites_append, storeWrites]

theorem backupStep_storeWrites {σ : Type} (env : Env σ) (a : SSO) (fullName path : String)
    (w : Sys σ) :
    storeWrites path (backupStep env a fullName w).2.log = storeWrites path w.log := by
  unfold backupStep
  split
  · exact Backup_storeWrites env fullName path w
  · rfl

/-- What a successful `PersistCredentials` did: it read a document, wrote the document that
the loop made of it, and reports the expiry of the last credential. -/
theorem PersistCredentials_success {σ : Type} (env : Env σ) (a : SSO)
    (creds : List Credential) (w w1 : Sys σ) (info : CredentialResultInfo)
    (h : PersistCredentials env a creds w = (.returned (some info) none, w1)) :
    ∃ cfg last,
      storeRead env a w = some cfg ∧
      creds.getLast? = some last ∧
      info = ⟨credentialsFile env, last.ExpiresAt⟩ ∧
      storeWrites (credentialsFile env) w1.log =
        storeWrites (credentialsFile env) w.log ++ [creds.foldl persistOne cfg] := by
  unfold PersistCredentials at h
  simp only at h
  split at h
  · simp at h
  · split at h
    · simp at h
    · rename_i hbk cfg hld
      split at h
      · simp at h
      · split at h
        · simp at h
        · rename_i last hlast
          simp only [Prod.mk.injEq, GoResult.returned.injEq, Option.some.injEq, and_true] at h
          refine ⟨cfg, last, hld, hlast, h.1.symm, ?_⟩
          rw [← h.2]
          simp only [Sys.set, Sys.emit, storeWrites_append, backupStep_storeWrites]
          simp [storeWrites]

/-- Claim C7 fails when the last credential is not the one that expires last: for
expiries at second 2000 and then 1000 the reported expiry is second 1000. -/
theorem C7_latest_expiry_is_max_counterexample :
    ∃ info w1,
      PersistCredentials machineEnv demoSSO [laterCred, earlierCred] (Sys.init boundaryMachine) =
        (.returned (some info) none, w1) ∧
      info.ExpiresAt = 1000 * second ∧
      ([laterCred, earlierCred].map Credential.ExpiresAt).max? = some (2000 * second) ∧
      ([laterCred, earlierCred].map Credential.ExpiresAt).max? ≠ some info.ExpiresAt :=
  ⟨_, _, by rfl, by decide, by decide, by decide⟩

/-- Claim C7, amended. A successful `PersistCredentials` reports the `ExpiresAt()` of the
last credential of the list; that is the maximum over the list whenever no credential of
the list expires later than the last one. -/
theorem C7_latest_expiry_is_last {σ : Type} (env : Env σ) (a : SSO)
    (creds : List Credential) (w w1 : Sys σ) (info : CredentialResultInfo)
    (h : PersistCredentials env a creds w = (.returned (some info) none, w1)) :
    ∃ last, creds.getLast? = some last ∧ info.ExpiresAt = last.ExpiresAt ∧
      ((∀ c ∈ creds, c.ExpiresAt ≤ last.ExpiresAt) →
        (∀ c ∈ creds, c.ExpiresAt ≤ info.ExpiresAt) ∧ ∃ c ∈ creds, c.ExpiresAt = info.ExpiresAt) := by
  obtain ⟨cfg, last, _, hlast, hinfo, _⟩ := PersistCredentials_success env a creds w w1 info h
  refine ⟨last, hlast, by rw [hinfo], ?_⟩
  intro hmax
  rw [hinfo]
  refine ⟨hmax, last, ?_, rfl⟩
  obtain ⟨ys, hys⟩ := List.getLast?_eq_some_iff.mp hlast
  rw [hys]
  simp

/-- Persisting `laterCred` and then `earlierCred` on the reference machine reports the
expiry of `earlierCred`. -/
theorem C7_latest_expiry_is_last_witness :
    ∃ last, [laterCred, earlierCred].getLast? = some last ∧
      (1000 * second : Time) = last.ExpiresAt ∧
      ((∀ c ∈ [laterCred, earlierCred], c.ExpiresAt ≤ last.ExpiresAt) →
        (∀ c ∈ [laterCred, earlierCred], c.ExpiresAt ≤ (1000 * second : Time)) ∧
          ∃ c ∈ [laterCred, earlierCred], c.ExpiresAt = (1000 * second : Time)) :=
  C7_latest_expiry_is_last machineEnv demoSSO [laterCred, earlierCred] (Sys.init boundaryMachine)
    (savedRun ([laterCred, earlierCred].foldl persistOne [⟨"DEFAULT", []⟩]))
    ⟨"/home/u/.aws/credentials", 1000 * second⟩ (by rfl)

/-! ## Lemmas on the INI document -/

theorem updateFirst_map {α β : Type} (p : α → Bool) (f : α → α) (g : α → β)
    (hf : ∀ x, g (f x) = g x) (l : List α) : (updateFirst p f l).map g = l.map g := by
  induction l with
  | nil => rfl
  | cons x xs ih =>
    simp only [updateFirst]
    split
    · simp [hf]
    · simp [ih]

theorem updateFirst_filter {α : Type} (p q : α → Bool) (f : α → α)
    (hp : ∀ x, p x = true → q x = false) (hf : ∀ x, q (f x) = q x) (l : List α) :
    (updateFirst p f l).filter q = l.filter q := by
  induction l with
  | nil => rfl
  | cons x xs ih =>
    simp only [updateFirst]
    split
    · rename_i hx
      simp [List.filter_cons, hf, hp x hx]
    · simp [List.filter_cons, ih]

theorem hasSection_iff (cfg : Cfg) (n : String) :
    hasSection cfg n = true ↔ n ∈ cfg.map IniSection.name := by
  simp only [hasSection, List.any_eq_true, List.mem_map, beq_iff_eq]

theorem iniKeySetValue_names (cfg : Cfg) (sec key val : String) :
    (iniKeySetValue cfg sec key val).map IniSection.name = cfg.map IniSection.name := by
  unfold iniKeySetValue
  split <;> (apply updateFirst_map; intro x; rfl)

theorem iniSection_names_sub (cfg : Cfg) (name n : String)
    (h : n ∈ cfg.map IniSection.name) : n ∈ (iniSection cfg name).map IniSection.name := by
  unfold iniSection
  split
  · exact h
  · simp only [List.map_append, List.mem_append]
    exact Or.inl h

theorem iniSection_has (cfg : Cfg) (name : String) :
    sectionKey name ∈ (iniSection cfg name).map IniSection.name := by
  unfold iniSection
  split
  · rename_i s hs
    have := List.find?_some hs
    obtain ⟨_, as, bs, hl, _⟩ := List.find?_eq_some.mp hs
    simp only [beq_iff_eq] at this
    rw [hl, ← this]
    simp
  · simp

theorem persistOne_names_sub (cfg : Cfg) (c : Credential) (n : String)
    (h : n ∈ cfg.map IniSection.name) : n ∈ (persistOne cfg c).map IniSection.name := by
  simp only [persistOne, iniKeySetValue_names]
  exact iniSection_names_sub cfg _ n h

theorem persistOne_has (cfg : Cfg) (c : Credential) :
    sectionKey c.ProfileName ∈ (persistOne cfg c).map IniSection.name := by
  simp only [persistOne, iniKeySetValue_names]
  exact iniSection_has cfg _

theorem foldl_persistOne_names_sub (creds : List Credential) :
    ∀ (cfg : Cfg) (n : String), n ∈ cfg.map IniSection.name →
      n ∈ (creds.foldl persistOne cfg).map IniSection.name := by
  induction creds with
  | nil => intro cfg n h; exact h
  | cons c cs ih =>
    intro cfg n h
    exact ih _ n (persistOne_names_sub cfg c n h)

/-- Every credential has its section after the loop; the empty profile name is `DEFAULT`. -/
theorem foldl_persistOne_has (creds : List Credential) :
    ∀ (cfg : Cfg), ∀ c ∈ creds,
      sectionKey c.ProfileName ∈ (creds.foldl persistOne cfg).map IniSection.name := by
  induction creds with
  | nil => intro cfg c hc; simp at hc
  | cons c0 cs ih =>
    intro cfg c hc
    rcases List.mem_cons.mp hc with h | h
    · subst h
      exact foldl_persistOne_names_sub cs _ _ (persistOne_has cfg c)
    · exact ih _ c h

theorem dotPrefixes_nil (l : List Char) (h : '.' ∉ l) : dotPrefixes l = [] := by
  induction l with
  | nil => rfl
  | cons c cs ih =>
    simp only [List.mem_cons, not_or] at h
    have hc : ¬ c = '.' := fun e => h.1 e.symm
    simp [dotPrefixes, hc, ih h.2]

theorem sectionKey_of_ne (name : String) (h : name ≠ "") : sectionKey name = name := by
  simp [sectionKey, h]

/-- Setting a key in a section without a dot in its name touches no section of another
name. -/
theorem iniKeySetValue_filter (cfg : Cfg) (sec key val : String) (names : List String)
    (hne : sec ≠ "") (hdot : '.' ∉ sec.data) (hmem : sec ∈ names) :
    (iniKeySetValue cfg sec key val).filter (outsideProfiles names) =
      cfg.filter (outsideProfiles names) := by
  have hpar : parentNames sec = [] := by simp [parentNames, dotPrefixes_nil _ hdot]
  have howner : ∀ o, keyOwner cfg sec key = some o → o = sec := by
    intro o ho
    simp only [keyOwner, hpar] at ho
    have := List.mem_of_find?_eq_some ho
    simpa using this
  have hp : ∀ x : IniSection, (x.name == sectionKey sec) = true →
      outsideProfiles names x = false := by
    intro x hx
    simp only [beq_iff_eq, sectionKey_of_ne sec hne] at hx
    simp [outsideProfiles, hx, hmem]
  unfold iniKeySetValue
  split
  · rename_i o ho
    rw [howner o ho]
    apply updateFirst_filter _ _ _ hp
    intro x
    rfl
  · apply updateFirst_filter _ _ _ hp
    intro x
    rfl

theorem iniSection_filter (cfg : Cfg) (name : String) (names : List String)
    (hne : name ≠ "") (hmem : name ∈ names) :
    (iniSection cfg name).filter (outsideProfiles names) = cfg.filter (outsideProfiles names) := by
  unfold iniSection
  split
  · rfl
  · simp [List.filter_append, outsideProfiles, sectionKey_of_ne name hne, hmem]

theorem persistOne_filter (cfg : Cfg) (c : Credential) (names : List String)
    (hne : c.ProfileName ≠ "") (hdot : '.' ∉ c.ProfileName.data) (hmem : c.ProfileName ∈ names) :
    (persistOne cfg c).filter (outsideProfiles names) = cfg.filter (outsideProfiles names) := by
  simp only [persistOne, sectionKey_of_ne _ hne]
  rw [iniKeySetValue_filter _ _ _ _ names hne hdot hmem,
    iniKeySetValue_filter _ _ _ _ names hne hdot hmem,
    iniKeySetValue_filter _ _ _ _ names hne hdot hmem,
    iniKeySetValue_filter _ _ _ _ names hne hdot hmem,
    iniKeySetValue_filter _ _ _ _ names hne hdot hmem,
    iniSection_filter _ _ names hne hmem]

/-- The loop leaves every section outside the given profile names as it was, when the
names of the credentials are among them, are not empty and hold no dot. -/
theorem foldl_persistOne_filter (names : List String) (creds : List Credential) :
    ∀ (cfg : Cfg),
      (∀ c ∈ creds, c.ProfileName ≠ "" ∧ '.' ∉ c.ProfileName.data ∧ c.ProfileName ∈ names) →
      (creds.foldl persistOne cfg).filter (outsideProfiles names) =
        cfg.filter (outsideProfiles names) := by
  induction creds with
  | nil => intro cfg _; rfl
  | cons c cs ih =>
    intro cfg h
    have hc := h c (List.mem_cons_self _ _)
    simp only [List.foldl_cons]
    rw [ih _ (fun x hx => h x (List.mem_cons_of_mem _ hx)),
      persistOne_filter cfg c names hc.1 hc.2.1 hc.2.2]

/-- Claim C10 fails on the code for a profile name with a dot. The loop asks for the
section of the profile and sets five keys on it, yet persisting profile `a.b` into a store
that holds profile `a` is reported as a success and saves a document in which section `a`,
which is no input profile, holds the credentials of `a.b` in place of its own, and section
`a.b` holds no key: `a` is the parent section of `a.b` and `Key` hands out the parent's
keys. Where no section `a` exists the same call writes the five keys into `a.b`. In one
run for the accounts `corp` and `corp.dev` section `corp` ends with the credentials of
`corp.dev`. -/
theorem C10_child_profile_written_to_parent :
    (∃ info w1 doc,
      PersistCredentials machineEnv demoSSO [childCred] (Sys.init storeMachine) =
        (.returned (some info) none, w1) ∧
      storeRead machineEnv demoSSO (Sys.init storeMachine) = some storeWithA ∧
      storeWrites (credentialsFile machineEnv) w1.log = [doc] ∧
      "a" ∉ [childCred].map Credential.ProfileName ∧
      getSection storeWithA "a" =
        some ⟨"a", [("output", "json"), ("region", "eu-west-1"), ("aws_access_key_id", "AK1"),
          ("aws_secret_access_key", "SK1"), ("aws_session_token", "ST1")]⟩ ∧
      getSection doc "a" =
        some ⟨"a", [("output", "json"), ("region", "eu-west-1"), ("aws_access_key_id", "AK3"),
          ("aws_secret_access_key", "SK3"), ("aws_session_token", "ST3")]⟩ ∧
      getSection doc "a.b" = some ⟨"a.b", []⟩ ∧
      doc.filter (outsideProfiles ([childCred].map Credential.ProfileName)) ≠
        storeWithA.filter (outsideProfiles ([childCred].map Credential.ProfileName))) ∧
    (∃ info w1 doc,
      PersistCredentials machineEnv demoSSO [childCred] (Sys.init boundaryMachine) =
        (.returned (some info) none, w1) ∧
      storeWrites (credentialsFile machineEnv) w1.log = [doc] ∧
      getSection doc "a.b" =
        some ⟨"a.b", [("output", "json"), ("region", "eu-west-1"),
          ("aws_access_key_id", "AK3"), ("aws_secret_access_key", "SK3"),
          ("aws_session_token", "ST3")]⟩) ∧
    (∃ info w1 doc,
      PersistCredentials machineEnv demoSSO [corpCred, corpDevCred] (Sys.init boundaryMachine) =
        (.returned (some info) none, w1) ∧
      storeWrites (credentialsFile machineEnv) w1.log = [doc] ∧
      getSection doc "corp" =
        some ⟨"corp", [("output", "json"), ("region", "eu-west-1"),
          ("aws_access_key_id", "AK5"), ("aws_secret_access_key", "SK5"),
          ("aws_session_token", "ST5")]⟩ ∧
      getSection doc "corp.dev" = some ⟨"corp.dev", []⟩) :=
  ⟨⟨_, _, _, by rfl, by rfl, by rfl, by decide, by rfl, by rfl, by rfl, by decide⟩,
    ⟨_, _, _, by rfl, by rfl, by rfl⟩,
    ⟨_, _, _, by rfl, by rfl, by rfl, by rfl⟩⟩

/-- The paths on which the loop writes into the section of the profile itself: if no input
profile name is empty or holds a dot, then after a successful `PersistCredentials` the
sections of the written document whose names are not input profile names are exactly those
of the document read, in order and with the same keys and values, and every input profile
name has a section. And if profile `a` is persisted, and in a later run that reads the
document written by the first, profile `b` (both names not empty), then the document
written last has sections `a` and `b`. -/
theorem persist_frame_plain_names {σ : Type} (env : Env σ) :
    (∀ (a : SSO) (creds : List Credential) (w w1 : Sys σ) (info : CredentialResultInfo),
      (∀ c ∈ creds, c.ProfileName ≠ "" ∧ '.' ∉ c.ProfileName.data) →
      PersistCredentials env a creds w = (.returned (some info) none, w1) →
      ∃ cfg doc,
        storeRead env a w = some cfg ∧
        storeWrites (credentialsFile env) w1.log =
          storeWrites (credentialsFile env) w.log ++ [doc] ∧
        doc.filter (outsideProfiles (creds.map Credential.ProfileName)) =
          cfg.filter (outsideProfiles (creds.map Credential.ProfileName)) ∧
        ∀ c ∈ creds, hasSection doc c.ProfileName = true) ∧
    (∀ (a1 a2 : SSO) (ca cb : Credential) (w w1 v v1 : Sys σ) (i1 i2 : CredentialResultInfo)
        (d1 : Cfg),
      ca.ProfileName ≠ "" → cb.ProfileName ≠ "" →
      PersistCredentials env a1 [ca] w = (.returned (some i1) none, w1) →
      storeWrites (credentialsFile env) w1.log =
        storeWrites (credentialsFile env) w.log ++ [d1] →
      storeRead env a2 v = some d1 →
      PersistCredentials env a2 [cb] v = (.returned (some i2) none, v1) →
      ∃ d2,
        storeWrites (credentialsFile env) v1.log =
          storeWrites (credentialsFile env) v.log ++ [d2] ∧
        hasSection d2 ca.ProfileName = true ∧ hasSection d2 cb.ProfileName = true) := by
  constructor
  · intro a creds w w1 info hnames h
    obtain ⟨cfg, last, hread, _, _, hlog⟩ := PersistCredentials_success env a creds w w1 info h
    refine ⟨cfg, creds.foldl persistOne cfg, hread, hlog, ?_, ?_⟩
    · apply foldl_persistOne_filter
      intro c hc
      exact ⟨(hnames c hc).1, (hnames c hc).2, List.mem_map_of_mem _ hc⟩
    · intro c hc
      rw [hasSection_iff]
      have := foldl_persistOne_has creds cfg c hc
      rwa [sectionKey_of_ne _ (hnames c hc).1] at this
  · intro a1 a2 ca cb w w1 v v1 i1 i2 d1 hca hcb h1 hw1 hread2 h2
    obtain ⟨cfg1, _, _, _, _, hlog1⟩ := PersistCredentials_success env a1 [ca] w w1 i1 h1
    obtain ⟨cfg2, _, hr2, _, _, hlog2⟩ := PersistCredentials_success env a2 [cb] v v1 i2 h2
    have hd1 : d1 = [ca].foldl persistOne cfg1 := by
      rw [hw1] at hlog1
      simpa using hlog1
    have hcfg2 : cfg2 = d1 := by
      rw [hread2] at hr2
      exact (Option.some.inj hr2).symm
    refine ⟨[cb].foldl persistOne cfg2, hlog2, ?_, ?_⟩
    · rw [hasSection_iff]
      apply foldl_persistOne_names_sub
      rw [hcfg2, hd1]
      have := foldl_persistOne_has [ca] cfg1 ca (List.mem_singleton_self _)
      rwa [sectionKey_of_ne _ hca] at this
    · rw [hasSection_iff]
      have := foldl_persistOne_has [cb] cfg2 cb (List.mem_singleton_self _)
      rwa [sectionKey_of_ne _ hcb] at this

/-! ## Enumeration: `ListAccounts` -/

theorem AccountRoles_List_foldl (items : List (Option AccountRole)) :
    ∀ (acc : Option (List String)),
      items.foldl
        (fun list item => match list, item with
          | some l, some x => some (l ++ [x.RoleName])
          | _, _ => none) acc =
      match acc with
      | none => none
      | some l =>
        if items.all Option.isSome then
          some (l ++ items.filterMap (Option.map AccountRole.RoleName))
        else none := by
  induction items with
  | nil => intro acc; cases acc <;> simp
  | cons x xs ih =>
    intro acc
    simp only [List.foldl_cons]
    rw [ih]
    cases acc with
    | none => rfl
    | some l =>
      cases x with
      | none => simp
      | some r => simp

theorem map_roleName_of_all_some (items : List (Option AccountRole))
    (hall : items.all Option.isSome = true) :
    items.map (Option.map AccountRole.RoleName) =
      (items.filterMap (Option.map AccountRole.RoleName)).map some := by
  induction items with
  | nil => rfl
  | cons x xs ih =>
    simp only [List.all_cons, Bool.and_eq_true] at hall
    cases x with
    | none => simp at hall
    | some v => simp [ih hall.2]

/-- The role names of `List()` are the `roleName` values of the items, in order, and no
item is nil. -/
theorem AccountRoles_List_some (r : AccountRoles) (roles : List String)
    (h : r.List = some roles) :
    r.Items.map (Option.map AccountRole.RoleName) = roles.map some := by
  unfold AccountRoles.List at h
  rw [AccountRoles_List_foldl] at h
  simp only [List.nil_append] at h
  split at h
  · rename_i hall
    simp only [Option.some.injEq] at h
    rw [← h]
    exact map_roleName_of_all_some _ hall
  · simp at h

theorem listRolesLoop_success {σ : Type} (env : Env σ) (c : SSOCredential) :
    ∀ (items : List (Option Account)) (done res : List Account) (w w1 : Sys σ),
      listRolesLoop env c items done w = (.returned res none, w1) →
      ∃ tail, res = done ++ tail ∧ List.Forall₂ (EnumeratedFrom env c) items tail ∧
        accountRolesCalls w1.log = accountRolesCalls w.log ++ tail.map Account.ID := by
  intro items
  induction items with
  | nil =>
    intro done res w w1 h
    simp only [listRolesLoop, Prod.mk.injEq, GoResult.returned.injEq, and_true] at h
    exact ⟨[], by simp [h.1], List.Forall₂.nil, by simp [h.2]⟩
  | cons item rest ih =>
    intro done res w w1 h
    cases item with
    | none => simp [listRolesLoop] at h
    | some account =>
      rw [listRolesLoop] at h
      split at h
      · simp at h
      · rename_i hcall
        split at h
        · simp at h
        · rename_i hdec
          split at h
          · simp at h
          · rename_i roles hroles
            obtain ⟨tail, hres, hall, hlog⟩ := ih _ _ _ _ h
            refine ⟨{ account with Roles := roles } :: tail, by simp [hres], ?_, ?_⟩
            · refine List.Forall₂.cons ?_ hall
              exact ⟨account, w.st, rfl, rfl, hcall, hdec, AccountRoles_List_some _ _ hroles⟩
            · rw [hlog]
              simp [Sys.emit, Sys.set, accountRolesCalls, List.filterMap_append]

theorem enumerated_identity {σ : Type} (env : Env σ) (c : SSOCredential)
    (items : List (Option Account)) (res : List Account)
    (hall : List.Forall₂ (EnumeratedFrom env c) items res) :
    items.map (Option.map fun a => (a.ID, a.Name, a.Email)) =
      res.map (fun r => some (r.ID, r.Name, r.Email)) := by
  induction hall with
  | nil => rfl
  | cons hx _ ih =>
    obtain ⟨acc, s, hitem, hr, _⟩ := hx
    rw [hitem, List.map_cons, List.map_cons, ih, hr]
    rfl

/-- Claim C13. When `ListAccounts` succeeds, the returned accounts stand, one for one and
in the same order, for the accounts that the control plane's account list decodes to: the
same length, the same ids, names and e-mail addresses, and the roles of each are the
`roleName` values, in order, of the `ListAccountRoles` response for its id;
`ListAccountRoles` is called once per account, in that order. An account with an empty
role list keeps its place in the result. -/
theorem C13_enumeration_order {σ : Type} (env : Env σ) (c : SSOCredential) (w w1 : Sys σ)
    (res : List Account) (h : ListAccounts env c w = (.returned res none, w1)) :
    res.length =
      (env.unmarshalAccounts (env.cmdListAccounts c.AccessToken c.Region w.st).1.1).1.Items.length ∧
    List.Forall₂ (EnumeratedFrom env c)
      (env.unmarshalAccounts (env.cmdListAccounts c.AccessToken c.Region w.st).1.1).1.Items res ∧
    (env.unmarshalAccounts (env.cmdListAccounts c.AccessToken c.Region w.st).1.1).1.Items.map
        (Option.map fun a => (a.ID, a.Name, a.Email)) =
      res.map (fun r => some (r.ID, r.Name, r.Email)) ∧
    accountRolesCalls w1.log = accountRolesCalls w.log ++ res.map Account.ID := by
  unfold ListAccounts at h
  simp only at h
  split at h
  · simp at h
  · split at h
    · simp at h
    · obtain ⟨tail, hres, hall, hlog⟩ := listRolesLoop_success env c _ _ _ _ _ h
      simp only [List.nil_append] at hres
      subst hres
      refine ⟨hall.length_eq.symm, hall, enumerated_identity env c _ _ hall, ?_⟩
      · rw [hlog]
        simp [Sys.emit, Sys.set, accountRolesCalls, List.filterMap_append]

/-- On the reference machine the role-less account `Sandbox` is kept, after `My Team`. -/
theorem C13_enumeration_order_witness :
    [myTeam, roleless].length = 2 ∧
    List.Forall₂ (EnumeratedFrom machineEnv boundaryToken)
      [some ⟨"111111111111", "My Team", "team@example.com", []⟩,
       some ⟨"222222222222", "Sandbox", "sandbox@example.com", []⟩] [myTeam, roleless] :=
  ⟨(C13_enumeration_order machineEnv boundaryToken (Sys.init boundaryMachine)
      ⟨boundaryMachine,
        [.cmdListAccounts "token" "eu-west-1",
         .cmdListAccountRoles "token" "eu-west-1" "111111111111",
         .cmdListAccountRoles "token" "eu-west-1" "222222222222"]⟩
      [myTeam, roleless] (by rfl)).1,
   (C13_enumeration_order machineEnv boundaryToken (Sys.init boundaryMachine)
      ⟨boundaryMachine,
        [.cmdListAccounts "token" "eu-west-1",
         .cmdListAccountRoles "token" "eu-west-1" "111111111111",
         .cmdListAccountRoles "token" "eu-west-1" "222222222222"]⟩
      [myTeam, roleless] (by rfl)).2.1⟩

/-! ## Cache-read and login errors in `Login` -/

/-- Claim C14. In `Login`, whatever its retry argument: a cache read that fails with an
error other than "does not exist" is returned at once, with no token and without any
`Cmd.Login` call. In `Login()`: a missing cache file (`ReadCacheFile` then gives
`os.ErrNotExist`) or any read failure that `os.IsNotExist` accepts is not returned but
leads to one `Cmd.Login` call for `a.RoleName`; and when that login is reached and fails,
its error is returned with no token and the cache has been read only once. -/
theorem C14_cache_read_errors {σ : Type} (env : Env σ) (a : SSO) (s : σ) :
    (∀ (retry : List Bool) (c : Option SSOCredential) (e : GoError) (w1 : Sys σ),
      ReadCacheFile env a (Sys.init s) = ((c, some e), w1) → e.notExist = false →
      Login env a retry (Sys.init s) = ((none, some e), w1) ∧
      loginCalls (Login env a retry (Sys.init s)).2.log = []) ∧
    ((env.fileExists (cacheFile env a) s).1 = false →
      (ReadCacheFile env a (Sys.init s)).1 = (none, some ErrNotExist)) ∧
    (∀ (e : GoError), (ReadCacheFile env a (Sys.init s)).1 = (none, some e) →
      e.notExist = true →
      loginCalls (Login env a [] (Sys.init s)).2.log = [a.RoleName]) ∧
    (∀ (c : Option SSOCredential) (e0 : Option GoError) (w1 : Sys σ) (s2 s3 : σ) (out : String)
        (e : GoError),
      ReadCacheFile env a (Sys.init s) = ((c, e0), w1) →
      (e0 = none ∨ osIsNotExist e0 = true) →
      notExpired env c w1.st = (false, s2) →
      env.cmdLogin a.RoleName s2 = ((out, some e), s3) →
      (Login env a [] (Sys.init s)).1 = (none, some e) ∧
      cacheReads (Login env a [] (Sys.init s)).2.log = [cacheFile env a] ∧
      loginCalls (Login env a [] (Sys.init s)).2.log = [a.RoleName]) := by
  have hlog : (ReadCacheFile env a (Sys.init s)).2.log = [.readCache (cacheFile env a)] :=
    ReadCacheFile_log env a (Sys.init s)
  refine ⟨?_, ?_, ?_, ?_⟩
  · intro retry c e w1 h he
    have hlog1 : w1.log = [.readCache (cacheFile env a)] := by
      rw [h] at hlog
      exact hlog
    rw [Login, h]
    simp [osIsNotExist, he, hlog1, loginCalls]
  · intro hex
    unfold ReadCacheFile
    simp [Sys.emit, Sys.init, hex]
  · intro e h he
    rw [Login_first, h]
    simp only [osIsNotExist, he, notExpired]
    simp only [ne_eq, not_true_eq_false, Bool.true_eq_false, and_false, if_false,
      Bool.false_eq_true, reduceCtorEq, not_false_eq_true, and_self]
    split
    · simp [Sys.set, Sys.emit, hlog, loginCalls]
    · rw [Login_retry_log]
      simp [Sys.set, Sys.emit, hlog, loginCalls]
  · intro c e0 w1 s2 s3 out e h he0 hc hl
    have hlog1 : w1.log = [.readCache (cacheFile env a)] := by
      rw [h] at hlog
      exact hlog
    have hf : ¬ (e0 ≠ none ∧ osIsNotExist e0 = false) := by
      rcases he0 with h' | h' <;> simp [h']
    rw [Login_first, h]
    simp only [hf, if_false, hc, hl]
    simp [Sys.set, Sys.emit, hlog1, loginCalls, cacheReads]

/-- On `corruptMachine` the decoding error of the cache file is what `Login` returns, and
no login is tried; on `staleMachine` the missing file leads to a login. -/
theorem C14_cache_read_errors_witness :
    (Login machineEnv demoSSO [] (Sys.init corruptMachine) =
        ((none, some (errorsNew "unexpected end of JSON input")),
          ⟨corruptMachine, [.readCache machineCache]⟩) ∧
      loginCalls (Login machineEnv demoSSO [] (Sys.init corruptMachine)).2.log = []) ∧
    loginCalls (Login machineEnv demoSSO [] (Sys.init staleMachine)).2.log = ["Dev"] :=
  ⟨(C14_cache_read_errors machineEnv demoSSO corruptMachine).1 [] none
      (errorsNew "unexpected end of JSON input") ⟨corruptMachine, [.readCache machineCache]⟩
      (by rfl) (by rfl),
    (C14_cache_read_errors machineEnv demoSSO staleMachine).2.2.1 ErrNotExist (by rfl) (by rfl)⟩

/-! ## Fan-out count and the index of `PersistCredentials` -/

theorem roleCredentialCalls_append (l m : List Event) :
    roleCredentialCalls (l ++ m) = roleCredentialCalls l ++ roleCredentialCalls m := by
  simp [roleCredentialCalls, List.filterMap_append]

/-- The account names of the credentials that the inner loop adds, and the calls it makes. -/
theorem rolesLoop_pairs {σ : Type} (env : Env σ) (c : SSOCredential) (acc : Account) :
    ∀ (roles : List String) (i : Nat) (creds creds1 : List Credential) (w w1 : Sys σ),
      rolesLoop env c acc i roles creds w = (.fallThrough creds1, w1) →
      creds1.map Credential.AccountName =
        creds.map Credential.AccountName ++ roles.map (fun _ => acc.Name) ∧
      roleCredentialCalls w1.log =
        roleCredentialCalls w.log ++ roles.map fun r => (acc.ID, r) := by
  intro roles
  induction roles with
  | nil =>
    intro i creds creds1 w w1 h
    simp only [rolesLoop, Prod.mk.injEq, LoopEnd.fallThrough.injEq] at h
    simp [h.1, h.2]
  | cons r rs ih =>
    intro i creds creds1 w w1 h
    rw [rolesLoop] at h
    split at h
    · simp at h
    · split at h
      · simp at h
      · split at h
        · simp at h
        · obtain ⟨h1, h2⟩ := ih _ _ _ _ _ h
          constructor
          · simp [h1]
          · rw [h2]
            simp [Sys.emit, Sys.set, roleCredentialCalls_append, roleCredentialCalls]

theorem accountsLoop_pairs {σ : Type} (env : Env σ) (c : SSOCredential) :
    ∀ (accounts : List Account) (creds creds1 : List Credential) (w w1 : Sys σ),
      accountsLoop env c accounts creds w = (.fallThrough creds1, w1) →
      creds1.map Credential.AccountName =
        creds.map Credential.AccountName ++
          accounts.flatMap (fun acc => acc.Roles.map fun _ => acc.Name) ∧
      roleCredentialCalls w1.log =
        roleCredentialCalls w.log ++
          accounts.flatMap fun acc => acc.Roles.map fun r => (acc.ID, r) := by
  intro accounts
  induction accounts with
  | nil =>
    intro creds creds1 w w1 h
    simp only [accountsLoop, Prod.mk.injEq, LoopEnd.fallThrough.injEq] at h
    simp [h.1, h.2]
  | cons acc rest ih =>
    intro creds creds1 w w1 h
    rw [accountsLoop] at h
    split at h
    · rename_i creds2 w2 hr
      obtain ⟨h1, h2⟩ := rolesLoop_pairs env c acc _ _ _ _ _ _ hr
      obtain ⟨h3, h4⟩ := ih _ _ _ _ h
      constructor
      · simp [h3, h1]
      · simp [h4, h2]
    · simp at h

theorem GetCredentials_pairs {σ : Type} (env : Env σ) (c : SSOCredential)
    (accounts : List Account) (w w1 : Sys σ) (creds : List Credential)
    (h : GetCredentials env c accounts w = (.returned creds none, w1)) :
    creds ≠ [] ∧
    creds.map Credential.AccountName =
      accounts.flatMap (fun acc => acc.Roles.map fun _ => acc.Name) ∧
    roleCredentialCalls w1.log =
      roleCredentialCalls w.log ++
        accounts.flatMap fun acc => acc.Roles.map fun r => (acc.ID, r) := by
  unfold GetCredentials at h
  split at h
  · rename_i r w2 hr
    simp only [Prod.mk.injEq] at h
    exact absurd h.1 (accountsLoop_leave env c _ _ _ _ _ hr creds)
  · rename_i creds2 w2 hr
    split at h
    · simp at h
    · rename_i hlen
      simp only [Prod.mk.injEq, GoResult.returned.injEq, and_true] at h
      obtain ⟨h1, h2⟩ := accountsLoop_pairs env c _ _ _ _ _ hr
      rw [← h.1, ← h.2]
      refine ⟨?_, by simpa using h1, by simpa using h2⟩
      intro hnil
      exact hlen (by rw [hnil]; rfl)

/-- The index `creds[len(creds)-1]` is out of range only for the empty list. -/
theorem PersistCredentials_index_panic {σ : Type} (env : Env σ) (a : SSO)
    (creds : List Credential) (w : Sys σ)
    (h : (PersistCredentials env a creds w).1 = .panicked "index out of range [-1]") :
    creds = [] := by
  unfold PersistCredentials at h
  simp only at h
  split at h
  · simp at h
  · split at h
    · simp only [GoResult.panicked.injEq] at h
      exact absurd h (by decide)
    · split at h
      · simp at h
      · split at h
        · rename_i hlast
          exact List.getLast?_eq_none_iff.mp hlast
        · simp at h

theorem length_flatMap_roles {β : Type} (g : Account → String → β) (accounts : List Account) :
    (accounts.flatMap fun acc => acc.Roles.map (g acc)).length =
      (accounts.map fun acc => acc.Roles.length).sum := by
  induction accounts with
  | nil => rfl
  | cons acc rest ih =>
    simp only [List.flatMap_cons, List.length_append, List.length_map, List.map_cons,
      List.sum_cons, ih]

/-- Claim C15. A successful `GetCredentials` returns exactly one credential for every
(account, role) pair, in account-then-role order: its length is the sum of the numbers of
roles, the account names of the credentials and the `GetRoleCredentials` calls follow the
pairs in that order, and the list is not empty. So `creds[len(creds)-1]` in
`PersistCredentials` never panics on such a list, in any environment; it panics only for
an empty list, and for the empty list it does panic once the store has been saved. -/
theorem C15_fanout_count_and_index {σ : Type} (env : Env σ) (c : SSOCredential)
    (accounts : List Account) (w w1 : Sys σ) (creds : List Credential)
    (h : GetCredentials env c accounts w = (.returned creds none, w1)) :
    creds.length = (accounts.map fun acc => acc.Roles.length).sum ∧
    creds.map Credential.AccountName =
      accounts.flatMap (fun acc => acc.Roles.map fun _ => acc.Name) ∧
    roleCredentialCalls w1.log =
      roleCredentialCalls w.log ++
        accounts.flatMap (fun acc => acc.Roles.map fun r => (acc.ID, r)) ∧
    creds ≠ [] ∧
    (∀ (τ : Type) (env2 : Env τ) (a : SSO) (v : Sys τ),
      (PersistCredentials env2 a creds v).1 ≠ .panicked "index out of range [-1]") ∧
    (∀ (τ : Type) (env2 : Env τ) (a : SSO) (v : Sys τ) (cs : List Credential),
      (PersistCredentials env2 a cs v).1 = .panicked "index out of range [-1]" → cs = []) ∧
    (∀ (τ : Type) (env2 : Env τ) (a : SSO) (v : Sys τ) (cfg : Cfg),
      (backupStep env2 a (credentialsFile env2) v).1 = none →
      storeRead env2 a v = some cfg →
      (env2.iniSaveTo (credentialsFile env2) cfg
        (env2.iniLooseLoad (credentialsFile env2)
          (backupStep env2 a (credentialsFile env2) v).2.st).2).1 = none →
      (PersistCredentials env2 a [] v).1 = .panicked "index out of range [-1]") := by
  obtain ⟨hne, hnames, hcalls⟩ := GetCredentials_pairs env c accounts w w1 creds h
  refine ⟨?_, hnames, hcalls, hne, ?_, ?_, ?_⟩
  · have := congrArg List.length hnames
    rw [List.length_map, length_flatMap_roles] at this
    exact this
  · intro τ env2 a v hp
    exact hne (PersistCredentials_index_panic env2 a creds v hp)
  · intro τ env2 a v cs hp
    exact PersistCredentials_index_panic env2 a cs v hp
  · intro τ env2 a v cfg hbk hld hsv
    unfold storeRead at hld
    unfold PersistCredentials
    simp [hbk, hld, hsv]

/-- The fan-out over `myTeam` gives two credentials, so the index is in range; on an empty
list the reference machine saves the store and then panics. -/
theorem C15_fanout_count_and_index_witness :
    myTeamCredentials.length = ([myTeam].map fun acc => acc.Roles.length).sum ∧
    (PersistCredentials machineEnv demoSSO [] (Sys.init boundaryMachine)).1 =
      .panicked "index out of range [-1]" :=
  ⟨(C15_fanout_count_and_index machineEnv boundaryToken [myTeam] (Sys.init boundaryMachine)
      myTeamRun myTeamCredentials (by rfl)).1,
    (C15_fanout_count_and_index machineEnv boundaryToken [myTeam] (Sys.init boundaryMachine)
      myTeamRun myTeamCredentials (by rfl)).2.2.2.2.2.2 Machine machineEnv demoSSO
      (Sys.init boundaryMachine) [⟨"DEFAULT", []⟩] (by rfl) (by rfl) (by rfl)⟩

/-! ## `File.Backup` -/

theorem lookup_assocPut_self {β : Type} (k : String) (v : β) (l : List (String × β)) :
    (assocPut k v l).lookup k = some v := by
  simp [assocPut, List.lookup]

theorem lookup_filter_ne {β : Type} (k p : String) (hp : p ≠ k) (l : List (String × β)) :
    (l.filter fun e => e.1 != k).lookup p = l.lookup p := by
  induction l with
  | nil => rfl
  | cons e es ih =>
    obtain ⟨a, b⟩ := e
    by_cases he : a = k
    · have hpk : (p == k) = false := by simpa using hp
      simp [List.filter_cons, he, List.lookup, hpk, ih]
    · simp [List.filter_cons, he, List.lookup, ih]

theorem lookup_assocPut_ne {β : Type} (k p : String) (v : β) (hp : p ≠ k)
    (l : List (String × β)) : (assocPut k v l).lookup p = l.lookup p := by
  have hpk : (p == k) = false := by simpa using hp
  simp only [assocPut, List.lookup_cons, hpk]
  exact lookup_filter_ne k p hp l

/-- The name of a backup is not the name of its original. -/
theorem backup_name_ne (f t : String) : f ++ ".backup_" ++ t ≠ f := by
  intro h
  have h1 := congrArg String.length h
  simp only [String.length_append] at h1
  have h2 : ".backup_".length = 8 := by decide
  omega

theorem backup_name_prefix (f t : String) : f.data <+: (f ++ ".backup_" ++ t).data := by
  simp only [String.data_append, List.append_assoc]
  exact List.prefix_append _ _

/-- Claim C12 fails when the backup file cannot be written: the target exists and is
readable, and `Backup` returns the empty name and the error of `os.WriteFile`. -/
theorem C12_backup_name_counterexample :
    (readOnlyEnv.fileExists "/tmp/go-test-bkp" fooMachine).1 = true ∧
    (readOnlyEnv.readFile "/tmp/go-test-bkp" fooMachine).1 = ("foo", none) ∧
    (Backup readOnlyEnv "/tmp/go-test-bkp" (Sys.init fooMachine)).1 =
      ("", some (errorsNew "permission denied")) ∧
    ¬ ("/tmp/go-test-bkp".data <+:
      (Backup readOnlyEnv "/tmp/go-test-bkp" (Sys.init fooMachine)).1.1.data) ∧
    (Backup readOnlyEnv "/tmp/go-test-bkp" (Sys.init fooMachine)).2.st = fooMachine :=
  ⟨by rfl, by rfl, by rfl, by decide, by rfl⟩

/-- Claim C12, amended. In every environment: if the target does not exist, `Backup`
returns the empty name and no error and calls no write; if the target exists, is read
and the backup file is written without error, `Backup` returns the name `FullName ++
".backup_" ++ unix seconds`, which has `FullName` as a prefix and differs from it, and
its only write is that of the bytes read to that name. On the reference file system,
for every state and every file: the backup then holds the bytes of the original and
every other file, the original included, holds what it held. -/
theorem C12_backup_frame :
    (∀ (σ : Type) (env : Env σ) (fullName : String) (w : Sys σ),
      (env.fileExists fullName w.st).1 = false →
      (Backup env fullName w).1 = ("", none) ∧ (Backup env fullName w).2.log = w.log) ∧
    (∀ (σ : Type) (env : Env σ) (fullName : String) (w : Sys σ) (b : String) (s2 s3 : σ),
      (env.fileExists fullName w.st).1 = true →
      env.readFile fullName (env.now (env.fileExists fullName w.st).2).2 = ((b, none), s2) →
      env.writeFile
        (fullName ++ ".backup_" ++
          toString ((env.now (env.fileExists fullName w.st).2).1 / second)) b s2 = (none, s3) →
      Backup env fullName w =
        ((fullName ++ ".backup_" ++
            toString ((env.now (env.fileExists fullName w.st).2).1 / second), none),
          ⟨s3, w.log ++ [.writeFile (fullName ++ ".backup_" ++
            toString ((env.now (env.fileExists fullName w.st).2).1 / second)) b]⟩) ∧
      fullName.data <+: (Backup env fullName w).1.1.data ∧
      (Backup env fullName w).1.1 ≠ fullName) ∧
    (∀ (m : Machine) (f b : String), m.files.lookup f = some b →
      (Backup machineEnv f (Sys.init m)).1 =
        (f ++ ".backup_" ++ toString (m.clock / second), none) ∧
      (Backup machineEnv f (Sys.init m)).2.st.files.lookup f = some b ∧
      (Backup machineEnv f (Sys.init m)).2.st.files.lookup
        (f ++ ".backup_" ++ toString (m.clock / second)) = some b ∧
      (∀ p, p ≠ f ++ ".backup_" ++ toString (m.clock / second) →
        (Backup machineEnv f (Sys.init m)).2.st.files.lookup p = m.files.lookup p)) := by
  refine ⟨?_, ?_, ?_⟩
  · intro σ env fullName w hex
    unfold Backup
    simp [hex, Sys.set]
  · intro σ env fullName w b s2 s3 hex hrd hwr
    have hB : Backup env fullName w =
        ((fullName ++ ".backup_" ++
            toString ((env.now (env.fileExists fullName w.st).2).1 / second), none),
          ⟨s3, w.log ++ [.writeFile (fullName ++ ".backup_" ++
            toString ((env.now (env.fileExists fullName w.st).2).1 / second)) b]⟩) := by
      unfold Backup
      simp [hex, hrd, hwr, Sys.set, Sys.emit]
    refine ⟨hB, ?_, ?_⟩
    · rw [hB]
      exact backup_name_prefix _ _
    · rw [hB]
      exact backup_name_ne _ _
  · intro m f b hf
    have hB : Backup machineEnv f (Sys.init m) =
        ((f ++ ".backup_" ++ toString (m.clock / second), none),
          ⟨{ m with files := assocPut (f ++ ".backup_" ++ toString (m.clock / second)) b m.files },
            [.writeFile (f ++ ".backup_" ++ toString (m.clock / second)) b]⟩) := by
      unfold Backup
      simp [machineEnv, hf, Sys.set, Sys.emit, Sys.init]
    rw [hB]
    refine ⟨rfl, ?_, lookup_assocPut_self _ _ _, ?_⟩
    · show (assocPut _ b m.files).lookup f = some b
      rw [lookup_assocPut_ne _ _ _ (backup_name_ne f _).symm, hf]
    · intro p hp
      exact lookup_assocPut_ne _ _ _ hp _

/-- The test `TestBackupFile`: after `Backup` the file still holds `foo`, and so does the
backup, whose name starts with the name of the file. -/
theorem C12_backup_frame_witness :
    (Backup machineEnv "/tmp/go-test-bkp" (Sys.init fooMachine)).1 =
      ("/tmp/go-test-bkp.backup_1614592800", none) ∧
    (Backup machineEnv "/tmp/go-test-bkp" (Sys.init fooMachine)).2.st.files.lookup
      "/tmp/go-test-bkp" = some "foo" ∧
    (Backup machineEnv "/tmp/go-test-bkp" (Sys.init fooMachine)).2.st.files.lookup
      "/tmp/go-test-bkp.backup_1614592800" = some "foo" :=
  ⟨(C12_backup_frame.2.2 fooMachine "/tmp/go-test-bkp" "foo" (by rfl)).1,
    (C12_backup_frame.2.2 fooMachine "/tmp/go-test-bkp" "foo" (by rfl)).2.1,
    (C12_backup_frame.2.2 fooMachine "/tmp/go-test-bkp" "foo" (by rfl)).2.2.1⟩

/-! ## Idempotence of the persist loop

The loop of `PersistCredentials` is read as a list of calls on the document. Every
`SetValue` writes to one place, the section that `GetKey` resolves the key to; a second
run on the result of the first resolves every key to the same place and so repeats the
assignments of the first, which are already in the document. -/

theorem persistOne_eq_ops (cfg : Cfg) (c : Credential) :
    persistOne cfg c = (opsOf c).foldl applyOp cfg := rfl

theorem foldl_persistOne_eq_ops (creds : List Credential) :
    ∀ cfg : Cfg, creds.foldl persistOne cfg = (creds.flatMap opsOf).foldl applyOp cfg := by
  induction creds with
  | nil => intro cfg; rfl
  | cons c cs ih =>
    intro cfg
    rw [List.foldl_cons, ih, List.flatMap_cons, List.foldl_append, persistOne_eq_ops]

theorem iniKeySetValue_eq (cfg : Cfg) (sec key val : String) :
    iniKeySetValue cfg sec key val =
      match keyOwner cfg sec key with
      | some _ => assign (target cfg sec key) val cfg
      | none => addKey (target cfg sec key) val cfg := by
  unfold iniKeySetValue target assign addKey
  split <;> rfl

/-! ### `updateFirst` -/

theorem updateFirst_congr {α : Type} (p : α → Bool) (f g : α → α) (l : List α)
    (h : ∀ x, l.find? p = some x → f x = g x) : updateFirst p f l = updateFirst p g l := by
  induction l with
  | nil => rfl
  | cons x xs ih =>
    simp only [updateFirst]
    by_cases hx : p x = true
    · simp only [hx, if_true]
      rw [h x (List.find?_cons_of_pos _ hx)]
    · have hx2 : p x = false := by simpa using hx
      simp only [hx2, Bool.false_eq_true, if_false]
      rw [ih]
      intro y hy
      exact h y (by rw [List.find?_cons_of_neg _ hx]; exact hy)

theorem updateFirst_absorb {α : Type} (p : α → Bool) (f g : α → α) (l : List α)
    (hg : ∀ x, p (g x) = p x) :
    updateFirst p f (updateFirst p g l) = updateFirst p (f ∘ g) l := by
  induction l with
  | nil => rfl
  | cons x xs ih =>
    simp only [updateFirst]
    by_cases hx : p x = true
    · simp [hx, updateFirst, hg]
    · simp [hx, updateFirst, ih]

theorem updateFirst_comm {α : Type} (p q : α → Bool) (f g : α → α) (l : List α)
    (hpq : ∀ x, p x = true → q x = false)
    (hg : ∀ x, p (g x) = p x) (hf : ∀ x, q (f x) = q x) :
    updateFirst p f (updateFirst q g l) = updateFirst q g (updateFirst p f l) := by
  induction l with
  | nil => rfl
  | cons x xs ih =>
    by_cases hx : p x = true
    · have hq : q x = false := hpq x hx
      simp [updateFirst, hx, hq, hf]
    · by_cases hq : q x = true
      · simp [updateFirst, hx, hq, hg]
      · simp [updateFirst, hx, hq, ih]

theorem updateFirst_of_none {α : Type} (p : α → Bool) (f : α → α) (l : List α)
    (h : l.any p = false) : updateFirst p f l = l := by
  induction l with
  | nil => rfl
  | cons x xs ih =>
    simp only [List.any_cons, Bool.or_eq_false_iff] at h
    simp [updateFirst, h.1, ih h.2]

theorem updateFirst_append {α : Type} (p : α → Bool) (f : α → α) (l m : List α) :
    updateFirst p f (l ++ m) =
      if l.any p then updateFirst p f l ++ m else l ++ updateFirst p f m := by
  induction l with
  | nil => simp
  | cons x xs ih =>
    by_cases hx : p x = true
    · simp [updateFirst, hx]
    · have hx2 : p x = false := by simpa using hx
      rw [List.cons_append]
      simp only [updateFirst, hx2, Bool.false_eq_true, if_false, List.any_cons, Bool.false_or]
      rw [ih]
      split <;> rfl

theorem find?_updateFirst_self {α : Type} (p : α → Bool) (f : α → α) (l : List α)
    (hf : ∀ x, p (f x) = p x) : (updateFirst p f l).find? p = (l.find? p).map f := by
  induction l with
  | nil => rfl
  | cons x xs ih =>
    by_cases hx : p x = true
    · simp [updateFirst, hx, hf]
    · simp [updateFirst, hx, ih]

theorem find?_updateFirst_other {α : Type} (p r : α → Bool) (f : α → α) (l : List α)
    (hpr : ∀ x, p x = true → r x = false) (hf : ∀ x, r (f x) = r x) :
    (updateFirst p f l).find? r = l.find? r := by
  induction l with
  | nil => rfl
  | cons x xs ih =>
    by_cases hx : p x = true
    · have hr : r x = false := hpr x hx
      simp [updateFirst, hx, hr, hf]
    · by_cases hr : r x = true
      · simp [updateFirst, hx, hr]
      · simp [updateFirst, hx, hr, ih]

/-! ### Assignments -/

theorem any_key_updateFirst (q : String × String → Bool) (v key : String)
    (keys : List (String × String)) :
    (updateFirst q (fun kv => (kv.1, v)) keys).any (fun kv => kv.1 == key) =
      keys.any (fun kv => kv.1 == key) := by
  induction keys with
  | nil => rfl
  | cons x xs ih =>
    by_cases hx : q x = true
    · simp [updateFirst, hx]
    · simp [updateFirst, hx, ih]

theorem named_disjoint (a b : String) (h : a ≠ b) (x : IniSection) (hx : named a x = true) :
    named b x = false := by
  simp only [named, beq_iff_eq] at hx
  simp only [named, hx, beq_eq_false_iff_ne, ne_eq]
  exact h

theorem key_disjoint (a b : String) (h : a ≠ b) (x : String × String)
    (hx : (x.1 == a) = true) : (x.1 == b) = false := by
  simp only [beq_iff_eq] at hx
  simp only [hx, beq_eq_false_iff_ne, ne_eq]
  exact h

theorem assign_names (t : String × String) (v : String) (cfg : Cfg) :
    (assign t v cfg).map IniSection.name = cfg.map IniSection.name :=
  updateFirst_map (named t.1) (setIn t.2 v) IniSection.name (fun _ => rfl) cfg

theorem addKey_names (t : String × String) (v : String) (cfg : Cfg) :
    (addKey t v cfg).map IniSection.name = cfg.map IniSection.name :=
  updateFirst_map (named t.1) (addIn t.2 v) IniSection.name (fun _ => rfl) cfg

theorem setIn_setIn (key v v' : String) : setIn key v ∘ setIn key v' = setIn key v := by
  funext s
  simp only [Function.comp, setIn]
  rw [updateFirst_absorb (fun kv : String × String => kv.1 == key) (fun kv => (kv.1, v))
    (fun kv => (kv.1, v')) s.keys (fun _ => rfl)]
  rfl

theorem setIn_comm (k k' v v' : String) (h : k ≠ k') :
    setIn k v ∘ setIn k' v' = setIn k' v' ∘ setIn k v := by
  funext s
  simp only [Function.comp, setIn]
  rw [updateFirst_comm (fun kv : String × String => kv.1 == k) (fun kv => kv.1 == k')
    (fun kv => (kv.1, v)) (fun kv => (kv.1, v')) s.keys (key_disjoint k k' h)
    (fun _ => rfl) (fun _ => rfl)]

theorem setIn_addIn_comm (k k' v v' : String) (h : k ≠ k') :
    setIn k v ∘ addIn k' v' = addIn k' v' ∘ setIn k v := by
  funext s
  simp only [Function.comp, setIn, addIn]
  rw [updateFirst_append]
  split
  · rfl
  · rename_i hany
    have hany2 : s.keys.any (fun kv => kv.1 == k) = false := Bool.eq_false_iff.mpr hany
    rw [updateFirst_of_none _ _ _ hany2]
    have hk : (k' == k) = false := by simpa using h.symm
    simp [updateFirst, hk]

theorem assign_absorb (t : String × String) (v v' : String) (cfg : Cfg) :
    assign t v (assign t v' cfg) = assign t v cfg := by
  unfold assign
  rw [updateFirst_absorb (named t.1) (setIn t.2 v) (setIn t.2 v') cfg (fun _ => rfl),
    setIn_setIn]

theorem assign_comm (t t' : String × String) (v v' : String) (cfg : Cfg) (h : t ≠ t') :
    assign t v (assign t' v' cfg) = assign t' v' (assign t v cfg) := by
  unfold assign
  by_cases ho : t.1 = t'.1
  · have hk : t.2 ≠ t'.2 := fun hk => h (Prod.ext ho hk)
    rw [ho, updateFirst_absorb (named t'.1) (setIn t.2 v) (setIn t'.2 v') cfg (fun _ => rfl),
      updateFirst_absorb (named t'.1) (setIn t'.2 v') (setIn t.2 v) cfg (fun _ => rfl),
      setIn_comm _ _ _ _ hk]
  · exact updateFirst_comm (named t.1) (named t'.1) (setIn t.2 v) (setIn t'.2 v') cfg
      (named_disjoint _ _ ho) (fun _ => rfl) (fun _ => rfl)

theorem assign_addKey_comm (t t' : String × String) (v v' : String) (cfg : Cfg) (h : t ≠ t') :
    assign t v (addKey t' v' cfg) = addKey t' v' (assign t v cfg) := by
  unfold assign addKey
  by_cases ho : t.1 = t'.1
  · have hk : t.2 ≠ t'.2 := fun hk => h (Prod.ext ho hk)
    rw [ho, updateFirst_absorb (named t'.1) (setIn t.2 v) (addIn t'.2 v') cfg (fun _ => rfl),
      updateFirst_absorb (named t'.1) (addIn t'.2 v') (setIn t.2 v) cfg (fun _ => rfl),
      setIn_addIn_comm _ _ _ _ hk]
  · exact updateFirst_comm (named t.1) (named t'.1) (setIn t.2 v) (addIn t'.2 v') cfg
      (named_disjoint _ _ ho) (fun _ => rfl) (fun _ => rfl)

theorem getSection_eq (cfg : Cfg) (n : String) :
    getSection cfg n = cfg.find? (named (sectionKey n)) := rfl

theorem holdsKey_assign (t : String × String) (v : String) (cfg : Cfg) (key n : String) :
    holdsKey (assign t v cfg) key n = holdsKey cfg key n := by
  unfold holdsKey assign
  rw [getSection_eq, getSection_eq]
  by_cases hn : sectionKey n = t.1
  · rw [hn, find?_updateFirst_self (named t.1) (setIn t.2 v) cfg (fun _ => rfl)]
    cases List.find? (named t.1) cfg with
    | none => rfl
    | some x => simp [setIn, any_key_updateFirst]
  · rw [find?_updateFirst_other (named t.1) (named (sectionKey n)) (setIn t.2 v) cfg
      (named_disjoint _ _ (fun h => hn h.symm)) (fun _ => rfl)]

theorem keyOwner_assign (t : String × String) (v : String) (cfg : Cfg) (sec key : String) :
    keyOwner (assign t v cfg) sec key = keyOwner cfg sec key := by
  unfold keyOwner
  congr 1
  funext n
  exact holdsKey_assign t v cfg key n

theorem target_assign (t : String × String) (v : String) (cfg : Cfg) (sec key : String) :
    target (assign t v cfg) sec key = target cfg sec key := by
  unfold target
  rw [keyOwner_assign]

theorem getSection_isSome_iff (cfg : Cfg) (n : String) :
    (getSection cfg n).isSome = true ↔ sectionKey n ∈ cfg.map IniSection.name := by
  unfold getSection
  rw [List.find?_isSome]
  simp only [beq_iff_eq, List.mem_map]

theorem iniSection_eq (cfg : Cfg) (name : String) :
    iniSection cfg name =
      if sectionKey name ∈ cfg.map IniSection.name then cfg
      else cfg ++ [⟨sectionKey name, []⟩] := by
  unfold iniSection
  have h := getSection_isSome_iff cfg name
  cases hg : getSection cfg name with
  | none =>
    rw [hg] at h
    simp only [Option.isSome_none, Bool.false_eq_true, false_iff] at h
    simp [h]
  | some x =>
    rw [hg] at h
    simp only [Option.isSome_some, true_iff] at h
    simp [h]

theorem iniSection_assign (t : String × String) (v : String) (cfg : Cfg) (name : String) :
    iniSection (assign t v cfg) name = assign t v (iniSection cfg name) := by
  rw [iniSection_eq, iniSection_eq, assign_names]
  split
  · rfl
  · unfold assign
    rw [updateFirst_append]
    split
    · rfl
    · rename_i hany
      have hany2 : cfg.any (named t.1) = false := Bool.eq_false_iff.mpr hany
      rw [updateFirst_of_none _ _ _ hany2]
      congr 1
      simp only [updateFirst]
      split <;> rfl

/-- An assignment to a place other than the one that a `SetValue` writes to can be made
before the call or after it. -/
theorem iniKeySetValue_assign (t : String × String) (v : String) (cfg : Cfg)
    (sec key val : String) (h : target cfg sec key ≠ t) :
    iniKeySetValue (assign t v cfg) sec key val = assign t v (iniKeySetValue cfg sec key val) := by
  rw [iniKeySetValue_eq, iniKeySetValue_eq, keyOwner_assign, target_assign]
  cases keyOwner cfg sec key with
  | none => exact (assign_addKey_comm t _ v val cfg (Ne.symm h)).symm
  | some o => exact assign_comm _ t val v cfg h

/-- Writing the value again at the place that a `SetValue` has just written changes
nothing. -/
theorem assign_after_setValue (cfg : Cfg) (sec key val : String) :
    assign (target cfg sec key) val (iniKeySetValue cfg sec key val) =
      iniKeySetValue cfg sec key val := by
  rw [iniKeySetValue_eq]
  cases ho : keyOwner cfg sec key with
  | some o => exact assign_absorb _ _ _ _
  | none =>
    have hhold : holdsKey cfg key sec = false := by
      have := List.find?_eq_none.mp ho sec (List.mem_cons_self _ _)
      simpa using this
    simp only [target, ho]
    unfold assign addKey
    rw [updateFirst_absorb (named (sectionKey sec)) (setIn key val) (addIn key val) cfg
      (fun _ => rfl)]
    apply updateFirst_congr
    intro x hx
    have hx2 : x.keys.any (fun kv => kv.1 == key) = false := by
      unfold holdsKey at hhold
      rw [getSection_eq, hx] at hhold
      exact hhold
    simp only [Function.comp, setIn, addIn]
    rw [updateFirst_append]
    simp [hx2, updateFirst]

/-! ### Replaying the assignments of a run on its result -/

/-- An assignment is forgotten when a later one writes to the same place. -/
theorem assignAll_absorb (t : String × String) (v : String) :
    ∀ (ts : List ((String × String) × String)) (cfg : Cfg), t ∈ ts.map Prod.fst →
      assignAll ts (assign t v cfg) = assignAll ts cfg := by
  intro ts
  induction ts with
  | nil => intro cfg h; simp at h
  | cons tv rest ih =>
    intro cfg h
    simp only [assignAll, List.foldl_cons]
    by_cases heq : tv.1 = t
    · rw [heq, assign_absorb]
    · have hmem : t ∈ rest.map Prod.fst := by
        simp only [List.map_cons, List.mem_cons] at h
        rcases h with h | h
        · exact absurd h.symm heq
        · exact h
      rw [assign_comm tv.1 t tv.2 v cfg heq]
      exact ih _ hmem

/-- An assignment to a place that a run does not write to can be made before the run or
after it. -/
theorem foldl_applyOp_assign (t : String × String) (v : String) :
    ∀ (ops : List IniOp) (cfg : Cfg), t ∉ (targets ops cfg).map Prod.fst →
      ops.foldl applyOp (assign t v cfg) = assign t v (ops.foldl applyOp cfg) := by
  intro ops
  induction ops with
  | nil => intro cfg _; rfl
  | cons op rest ih =>
    intro cfg h
    cases op with
    | openSection name =>
      simp only [List.foldl_cons, applyOp, iniSection_assign]
      exact ih _ h
    | setValue sec key val =>
      simp only [targets, List.map_cons, List.mem_cons, not_or] at h
      simp only [List.foldl_cons, applyOp]
      rw [iniKeySetValue_assign t v cfg sec key val (fun e => h.1 e.symm)]
      exact ih _ h.2

/-- Carrying out on the result of a run the assignments that the run made changes nothing. -/
theorem assignAll_targets :
    ∀ (ops : List IniOp) (cfg : Cfg),
      assignAll (targets ops cfg) (ops.foldl applyOp cfg) = ops.foldl applyOp cfg := by
  intro ops
  induction ops with
  | nil => intro cfg; rfl
  | cons op rest ih =>
    intro cfg
    cases op with
    | openSection name => exact ih _
    | setValue sec key val =>
      simp only [targets, List.foldl_cons, applyOp]
      show assignAll (targets rest (iniKeySetValue cfg sec key val))
          (assign (target cfg sec key) val
            (rest.foldl applyOp (iniKeySetValue cfg sec key val))) = _
      by_cases hmem : target cfg sec key ∈
          (targets rest (iniKeySetValue cfg sec key val)).map Prod.fst
      · rw [assignAll_absorb _ _ _ _ hmem]
        exact ih _
      · rw [← foldl_applyOp_assign _ _ _ _ hmem, assign_after_setValue]
        exact ih _

/-! ### Parent sections -/

theorem dotPrefixes_split :
    ∀ (l : List Char) (P Q : List (List Char)) (a : List Char),
      dotPrefixes l = P ++ a :: Q → dotPrefixes a = P := by
  intro l
  induction l with
  | nil => intro P Q a h; simp [dotPrefixes] at h
  | cons c cs ih =>
    intro P Q a h
    have key : ∀ (P' : List (List Char)),
        (dotPrefixes cs).map (fun p => c :: p) = P' ++ a :: Q →
        ∃ a' P'', a = c :: a' ∧ P' = P''.map (fun p => c :: p) ∧ dotPrefixes a' = P'' := by
      intro P' hmap
      obtain ⟨l1, l2, hl, h1, h2⟩ := List.map_eq_append_iff.mp hmap
      obtain ⟨a', l2', hl2, ha, _⟩ := List.map_eq_cons_iff.mp h2
      refine ⟨a', l1, ha.symm, h1.symm, ?_⟩
      rw [hl2] at hl
      exact ih _ _ _ hl
    by_cases hc : c = '.'
    · simp only [dotPrefixes, hc, if_true, List.singleton_append] at h
      cases P with
      | nil =>
        simp only [List.nil_append, List.cons.injEq] at h
        rw [← h.1]
        rfl
      | cons p0 P' =>
        simp only [List.cons_append, List.cons.injEq] at h
        obtain ⟨a', P'', ha, hP, hd⟩ := key P' (by rw [hc]; exact h.2)
        rw [ha, ← h.1, hP]
        simp [dotPrefixes, hc, hd]
    · simp only [dotPrefixes, hc, if_false, List.nil_append] at h
      obtain ⟨a', P'', ha, hP, hd⟩ := key P h
      rw [ha, hP]
      simp [dotPrefixes, hc, hd]

/-- In the chain of a section and its parents, what follows a name are the parents of that
name. -/
theorem chain_tail (s a : String) (X Y : List String)
    (h : s :: parentNames s = X ++ a :: Y) : Y = parentNames a := by
  cases X with
  | nil =>
    simp only [List.nil_append, List.cons.injEq] at h
    rw [← h.1, h.2]
  | cons x X' =>
    simp only [List.cons_append, List.cons.injEq] at h
    have hp := h.2
    unfold parentNames at hp
    obtain ⟨l1, l2, hl, _, h2⟩ := List.map_eq_append_iff.mp hp
    obtain ⟨a0, l2', hl2, ha, hY⟩ := List.map_eq_cons_iff.mp h2
    rw [hl2] at hl
    have hd : dotPrefixes s.data = l2'.reverse ++ a0 :: l1.reverse := by
      have := congrArg List.reverse hl
      simpa using this
    have hsplit := dotPrefixes_split _ _ _ _ hd
    unfold parentNames
    rw [← ha, hsplit, List.reverse_reverse, hY]

theorem parentNames_empty : parentNames "" = [] := rfl

/-! ### What a call keeps of the document -/

theorem Extends_refl (d : Cfg) : Extends d d := ⟨fun _ h => h, fun _ _ _ h => h⟩

theorem Extends_trans (d e f : Cfg) (h1 : Extends d e) (h2 : Extends e f) : Extends d f :=
  ⟨fun n hn => h2.1 n (h1.1 n hn), fun s k o ho => h2.2 s k o (h1.2 s k o ho)⟩

theorem Extends_assign (d e : Cfg) (t : String × String) (v : String) (h : Extends d e) :
    Extends d (assign t v e) :=
  ⟨fun n hn => by rw [assign_names]; exact h.1 n hn,
    fun s k o ho => by rw [keyOwner_assign]; exact h.2 s k o ho⟩

theorem holdsKey_iniSection (cfg : Cfg) (name key n : String) :
    holdsKey (iniSection cfg name) key n = holdsKey cfg key n := by
  rw [iniSection_eq]
  split
  · rfl
  · unfold holdsKey
    rw [getSection_eq, getSection_eq, List.find?_append]
    cases List.find? (named (sectionKey n)) cfg with
    | some x => rfl
    | none =>
      simp only [Option.none_or, List.find?_cons]
      cases named (sectionKey n) ⟨sectionKey name, []⟩ <;> rfl

theorem Extends_iniSection (cfg : Cfg) (name : String) : Extends cfg (iniSection cfg name) := by
  refine ⟨fun n hn => iniSection_names_sub cfg name n hn, ?_⟩
  intro s k o ho
  unfold keyOwner at ho ⊢
  have : holdsKey (iniSection cfg name) k = holdsKey cfg k := by
    funext n
    exact holdsKey_iniSection cfg name k n
  rw [this]
  exact ho

theorem holdsKey_addKey_mono (t : String × String) (v : String) (cfg : Cfg) (key n : String)
    (h : holdsKey cfg key n = true) : holdsKey (addKey t v cfg) key n = true := by
  unfold holdsKey addKey at *
  rw [getSection_eq] at h ⊢
  by_cases hn : sectionKey n = t.1
  · rw [hn] at h ⊢
    rw [find?_updateFirst_self (named t.1) (addIn t.2 v) cfg (fun _ => rfl)]
    cases hf : List.find? (named t.1) cfg with
    | none => rw [hf] at h; simp at h
    | some x =>
      rw [hf] at h
      simp only [Option.map_some', addIn, List.any_append, Bool.or_eq_true]
      exact Or.inl h
  · rw [find?_updateFirst_other (named t.1) (named (sectionKey n)) (addIn t.2 v) cfg
      (named_disjoint _ _ (fun e => hn e.symm)) (fun _ => rfl)]
    exact h

theorem holdsKey_addKey_flip (t : String × String) (v : String) (cfg : Cfg) (key n : String)
    (h : holdsKey (addKey t v cfg) key n = true) (h0 : holdsKey cfg key n = false) :
    sectionKey n = t.1 ∧ key = t.2 := by
  unfold holdsKey addKey at *
  rw [getSection_eq] at h h0
  by_cases hn : sectionKey n = t.1
  · refine ⟨hn, ?_⟩
    rw [hn] at h h0
    rw [find?_updateFirst_self (named t.1) (addIn t.2 v) cfg (fun _ => rfl)] at h
    cases hf : List.find? (named t.1) cfg with
    | none => rw [hf] at h; simp at h
    | some x =>
      rw [hf] at h h0
      simp only [Option.map_some', addIn, List.any_append, Bool.or_eq_true] at h
      simp only at h0
      rcases h with h | h
      · rw [h0] at h; simp at h
      · simp only [List.any_cons, List.any_nil, Bool.or_false, beq_iff_eq] at h
        exact h.symm
  · rw [find?_updateFirst_other (named t.1) (named (sectionKey n)) (addIn t.2 v) cfg
      (named_disjoint _ _ (fun e => hn e.symm)) (fun _ => rfl)] at h
    rw [h0] at h
    simp at h

theorem holdsKey_addKey_self (sec key v : String) (cfg : Cfg) (hsec : sectionKey sec = sec)
    (hmem : sec ∈ cfg.map IniSection.name) :
    holdsKey (addKey (sec, key) v cfg) key sec = true := by
  unfold holdsKey addKey
  rw [getSection_eq, hsec,
    find?_updateFirst_self (named sec) (addIn key v) cfg (fun _ => rfl)]
  have hsome : (getSection cfg sec).isSome = true := by
    rw [getSection_isSome_iff, hsec]
    exact hmem
  rw [getSection_eq, hsec] at hsome
  cases hf : List.find? (named sec) cfg with
  | none => rw [hf] at hsome; simp at hsome
  | some x => simp [addIn]

/-- A new key in a section takes no key away from the lookups that found one: a nearer
holder of the key would have the old holder among its own parents. -/
theorem keyOwner_addKey (cfg : Cfg) (sec key v : String)
    (hnone : keyOwner cfg sec key = none) (s0 k0 o : String)
    (ho : keyOwner cfg s0 k0 = some o) :
    keyOwner (addKey (sec, key) v cfg) s0 k0 = some o := by
  unfold keyOwner at ho ⊢
  obtain ⟨hoT, A, B, hchain, hA⟩ := List.find?_eq_some.mp ho
  refine List.find?_eq_some.mpr ⟨holdsKey_addKey_mono _ _ _ _ _ hoT, A, B, hchain, ?_⟩
  intro a ha
  have ha0 : holdsKey cfg k0 a = false := by simpa using hA a ha
  cases hnew : holdsKey (addKey (sec, key) v cfg) k0 a with
  | false => rfl
  | true =>
    exfalso
    obtain ⟨hname, hkey⟩ := holdsKey_addKey_flip _ _ _ _ _ hnew ha0
    simp only at hname hkey
    obtain ⟨A1, A2, hA12⟩ := List.mem_iff_append.mp ha
    have htail : A2 ++ o :: B = parentNames a := by
      apply chain_tail s0 a A1
      rw [hchain, hA12]
      simp
    have hmemo : o ∈ parentNames a := by
      rw [← htail]
      simp
    have hane : a ≠ "" := by
      intro e
      rw [e, parentNames_empty] at hmemo
      simp at hmemo
    rw [sectionKey_of_ne a hane] at hname
    rw [hname] at hmemo
    have := List.find?_eq_none.mp hnone o (List.mem_cons_of_mem _ hmemo)
    rw [← hkey, hoT] at this
    exact this rfl

theorem Extends_iniKeySetValue (cfg : Cfg) (sec key val : String) (hsec : sectionKey sec = sec) :
    Extends cfg (iniKeySetValue cfg sec key val) := by
  refine ⟨fun n hn => by rw [iniKeySetValue_names]; exact hn, ?_⟩
  intro s0 k0 o ho
  rw [iniKeySetValue_eq]
  cases hown : keyOwner cfg sec key with
  | some o' =>
    simp only
    rw [keyOwner_assign]
    exact ho
  | none =>
    simp only [target, hown, hsec]
    exact keyOwner_addKey cfg sec key val hown s0 k0 o ho

/-- After a `SetValue` the key is found, at the place that the call wrote to. -/
theorem keyOwner_after_setValue (cfg : Cfg) (sec key val : String)
    (hsec : sectionKey sec = sec) (hmem : sec ∈ cfg.map IniSection.name) :
    ∃ o, keyOwner (iniKeySetValue cfg sec key val) sec key = some o ∧
      (sectionKey o, key) = target cfg sec key := by
  rw [iniKeySetValue_eq]
  cases hown : keyOwner cfg sec key with
  | some o =>
    refine ⟨o, ?_, by simp [target, hown]⟩
    simp only
    rw [keyOwner_assign]
    exact hown
  | none =>
    refine ⟨sec, ?_, by simp [target, hown]⟩
    simp only [target, hown, hsec]
    unfold keyOwner
    exact List.find?_cons_of_pos _ (holdsKey_addKey_self sec key val cfg hsec hmem)

/-! ### A run keeps what it found, and a second run writes to the same places -/

theorem Extends_run :
    ∀ (ops : List IniOp) (cfg : Cfg), wellFormed ops cfg → Extends cfg (ops.foldl applyOp cfg) := by
  intro ops
  induction ops with
  | nil => intro cfg _; exact Extends_refl cfg
  | cons op ops ih =>
    intro cfg h
    cases op with
    | openSection name =>
      simp only [List.foldl_cons, applyOp]
      exact Extends_trans _ _ _ (Extends_iniSection cfg name) (ih _ h)
    | setValue sec key val =>
      simp only [List.foldl_cons, applyOp]
      exact Extends_trans _ _ _ (Extends_iniKeySetValue cfg sec key val h.1) (ih _ h.2.2)

theorem wellFormed_append :
    ∀ (l1 l2 : List IniOp) (cfg : Cfg),
      wellFormed l1 cfg → wellFormed l2 (l1.foldl applyOp cfg) → wellFormed (l1 ++ l2) cfg := by
  intro l1
  induction l1 with
  | nil => intro l2 cfg _ h; exact h
  | cons op ops ih =>
    intro l2 cfg h1 h2
    cases op with
    | openSection name => exact ih l2 _ h1 h2
    | setValue sec key val => exact ⟨h1.1, h1.2.1, ih l2 _ h1.2.2 h2⟩

theorem sectionKey_idem (name : String) : sectionKey (sectionKey name) = sectionKey name := by
  by_cases h : name = ""
  · rw [h]; rfl
  · rw [sectionKey_of_ne name h, sectionKey_of_ne name h]

theorem wellFormed_opsOf (c : Credential) (cfg : Cfg) : wellFormed (opsOf c) cfg := by
  simp only [opsOf, wellFormed, iniKeySetValue_names, sectionKey_idem, iniSection_has,
    and_self]

theorem wellFormed_flatMap_opsOf :
    ∀ (creds : List Credential) (cfg : Cfg), wellFormed (creds.flatMap opsOf) cfg := by
  intro creds
  induction creds with
  | nil => intro cfg; exact True.intro
  | cons c cs ih =>
    intro cfg
    rw [List.flatMap_cons]
    exact wellFormed_append _ _ _ (wellFormed_opsOf c cfg) (ih _)

/-- On a document that keeps what the first run left, the same calls are the assignments
of the first run. -/
theorem foldl_applyOp_again :
    ∀ (ops : List IniOp) (d e : Cfg),
      wellFormed ops d → Extends (ops.foldl applyOp d) e →
      ops.foldl applyOp e = assignAll (targets ops d) e := by
  intro ops
  induction ops with
  | nil => intro d e _ _; rfl
  | cons op ops ih =>
    intro d e hwf hext
    cases op with
    | openSection name =>
      simp only [List.foldl_cons, applyOp, targets] at hext ⊢
      have hd : Extends (iniSection d name) e :=
        Extends_trans _ _ _ (Extends_run ops _ hwf) hext
      have hin : sectionKey name ∈ e.map IniSection.name := hd.1 _ (iniSection_has d name)
      have he : iniSection e name = e := by
        rw [iniSection_eq, if_pos hin]
      rw [he]
      exact ih _ _ hwf hext
    | setValue sec key val =>
      simp only [List.foldl_cons, applyOp, targets] at hext ⊢
      have hd : Extends (iniKeySetValue d sec key val) e :=
        Extends_trans _ _ _ (Extends_run ops _ hwf.2.2) hext
      obtain ⟨o, ho, htarget⟩ := keyOwner_after_setValue d sec key val hwf.1 hwf.2.1
      have hoe : keyOwner e sec key = some o := hd.2 _ _ _ ho
      have he : iniKeySetValue e sec key val = assign (target d sec key) val e := by
        rw [iniKeySetValue_eq, hoe]
        simp only
        congr 1
        rw [← htarget]
        simp [target, hoe]
      rw [he]
      simp only [assignAll, List.foldl_cons]
      exact ih _ _ hwf.2.2 (Extends_assign _ _ _ _ hext)

/-- The loop of `PersistCredentials`, run on its own result, changes nothing. -/
theorem foldl_persistOne_idempotent (creds : List Credential) (cfg : Cfg) :
    creds.foldl persistOne (creds.foldl persistOne cfg) = creds.foldl persistOne cfg := by
  rw [foldl_persistOne_eq_ops]
  rw [foldl_applyOp_again (creds.flatMap opsOf) cfg _ (wellFormed_flatMap_opsOf creds cfg)
    (by rw [← foldl_persistOne_eq_ops]; exact Extends_refl _)]
  rw [foldl_persistOne_eq_ops creds cfg]
  exact assignAll_targets _ _

/-! ### Reading a document back -/

theorem updateFirst_map_comm {α β : Type} (p : α → Bool) (q : β → Bool) (f : α → α)
    (f' : β → β) (g : α → β) (hp : ∀ x, q (g x) = p x) (hf : ∀ x, g (f x) = f' (g x))
    (l : List α) : (updateFirst p f l).map g = updateFirst q f' (l.map g) := by
  induction l with
  | nil => rfl
  | cons x xs ih =>
    simp only [updateFirst, List.map_cons, hp]
    split
    · simp [hf]
    · simp [ih]

theorem readDoc_names (rd : String → String) (cfg : Cfg) :
    (readDoc rd cfg).map IniSection.name = cfg.map IniSection.name := by
  simp [readDoc, readSection, List.map_map, Function.comp]

theorem holdsKey_readDoc (rd : String → String) (cfg : Cfg) (key n : String) :
    holdsKey (readDoc rd cfg) key n = holdsKey cfg key n := by
  unfold holdsKey getSection readDoc
  rw [List.find?_map]
  cases hs : List.find? ((fun s => s.name == sectionKey n) ∘ readSection rd) cfg with
  | none =>
    have : List.find? (fun s => s.name == sectionKey n) cfg = none := hs
    rw [this]
    rfl
  | some x =>
    have : List.find? (fun s => s.name == sectionKey n) cfg = some x := hs
    rw [this]
    simp only [Option.map_some', readSection, List.any_map]
    rfl

theorem keyOwner_readDoc (rd : String → String) (cfg : Cfg) (sec key : String) :
    keyOwner (readDoc rd cfg) sec key = keyOwner cfg sec key := by
  unfold keyOwner
  congr 1
  funext n
  exact holdsKey_readDoc rd cfg key n

theorem target_readDoc (rd : String → String) (cfg : Cfg) (sec key : String) :
    target (readDoc rd cfg) sec key = target cfg sec key := by
  unfold target
  rw [keyOwner_readDoc]

theorem readSection_setIn (rd : String → String) (k v : String) (s : IniSection) :
    readSection rd (setIn k v s) = setIn k (rd v) (readSection rd s) := by
  simp only [readSection, setIn]
  congr 1
  exact updateFirst_map_comm (fun kv : String × String => kv.1 == k)
    (fun kv : String × String => kv.1 == k) (fun kv => (kv.1, v)) (fun kv => (kv.1, rd v))
    (fun kv => (kv.1, rd kv.2)) (fun _ => rfl) (fun _ => rfl) s.keys

theorem readSection_addIn (rd : String → String) (k v : String) (s : IniSection) :
    readSection rd (addIn k v s) = addIn k (rd v) (readSection rd s) := by
  simp [readSection, addIn]

theorem readDoc_assign (rd : String → String) (t : String × String) (v : String) (cfg : Cfg) :
    readDoc rd (assign t v cfg) = assign t (rd v) (readDoc rd cfg) :=
  updateFirst_map_comm (named t.1) (named t.1) (setIn t.2 v) (setIn t.2 (rd v)) (readSection rd)
    (fun _ => rfl) (readSection_setIn rd t.2 v) cfg

theorem readDoc_addKey (rd : String → String) (t : String × String) (v : String) (cfg : Cfg) :
    readDoc rd (addKey t v cfg) = addKey t (rd v) (readDoc rd cfg) :=
  updateFirst_map_comm (named t.1) (named t.1) (addIn t.2 v) (addIn t.2 (rd v)) (readSection rd)
    (fun _ => rfl) (readSection_addIn rd t.2 v) cfg

theorem readDoc_iniSection (rd : String → String) (cfg : Cfg) (name : String) :
    readDoc rd (iniSection cfg name) = iniSection (readDoc rd cfg) name := by
  rw [iniSection_eq, iniSection_eq, readDoc_names]
  split
  · rfl
  · simp [readDoc, readSection]

theorem readDoc_iniKeySetValue (rd : String → String) (cfg : Cfg) (sec key val : String) :
    readDoc rd (iniKeySetValue cfg sec key val) =
      iniKeySetValue (readDoc rd cfg) sec key (rd val) := by
  rw [iniKeySetValue_eq, iniKeySetValue_eq, keyOwner_readDoc, target_readDoc]
  cases keyOwner cfg sec key with
  | none => exact readDoc_addKey rd _ val cfg
  | some o => exact readDoc_assign rd _ val cfg

theorem Extends_readDoc (rd : String → String) (cfg : Cfg) : Extends cfg (readDoc rd cfg) :=
  ⟨fun n hn => by rw [readDoc_names]; exact hn,
    fun s k o ho => by rw [keyOwner_readDoc]; exact ho⟩

/-! ### Assignments made before or after other calls -/

theorem assignAll_append (us vs : List ((String × String) × String)) (cfg : Cfg) :
    assignAll (us ++ vs) cfg = assignAll vs (assignAll us cfg) := by
  simp [assignAll, List.foldl_append]

theorem iniSection_assignAll (name : String) :
    ∀ (us : List ((String × String) × String)) (cfg : Cfg),
      iniSection (assignAll us cfg) name = assignAll us (iniSection cfg name) := by
  intro us
  induction us with
  | nil => intro cfg; rfl
  | cons u us ih =>
    intro cfg
    simp only [assignAll, List.foldl_cons] at ih ⊢
    rw [ih, iniSection_assign]

theorem holdsKey_assignAll (key n : String) :
    ∀ (us : List ((String × String) × String)) (cfg : Cfg),
      holdsKey (assignAll us cfg) key n = holdsKey cfg key n := by
  intro us
  induction us with
  | nil => intro cfg; rfl
  | cons u us ih =>
    intro cfg
    simp only [assignAll, List.foldl_cons] at ih ⊢
    rw [ih, holdsKey_assign]

theorem keyOwner_assignAll (us : List ((String × String) × String)) (cfg : Cfg)
    (sec key : String) : keyOwner (assignAll us cfg) sec key = keyOwner cfg sec key := by
  unfold keyOwner
  congr 1
  funext n
  exact holdsKey_assignAll key n us cfg

theorem target_assignAll (us : List ((String × String) × String)) (cfg : Cfg)
    (sec key : String) : target (assignAll us cfg) sec key = target cfg sec key := by
  unfold target
  rw [keyOwner_assignAll]

/-- Assignments are forgotten when later ones write to all their places. -/
theorem assignAll_absorb_all (ts : List ((String × String) × String)) :
    ∀ (us : List ((String × String) × String)) (cfg : Cfg),
      (∀ u ∈ us, u.1 ∈ ts.map Prod.fst) →
      assignAll ts (assignAll us cfg) = assignAll ts cfg := by
  intro us
  induction us with
  | nil => intro cfg _; rfl
  | cons u us ih =>
    intro cfg h
    have h1 : assignAll (u :: us) cfg = assignAll us (assign u.1 u.2 cfg) := rfl
    rw [h1, ih _ (fun x hx => h x (List.mem_cons_of_mem _ hx)),
      assignAll_absorb _ _ _ _ (h u (List.mem_cons_self _ _))]

theorem updateFirst_id {α : Type} (p : α → Bool) (l : List α) :
    updateFirst p (fun x => x) l = l := by
  induction l with
  | nil => rfl
  | cons x xs ih =>
    simp only [updateFirst]
    split
    · rfl
    · rw [ih]

/-- An assignment to a key that the section does not hold changes nothing. -/
theorem assign_absent (cfg : Cfg) (sec key v : String) (h : holdsKey cfg key sec = false) :
    assign (sectionKey sec, key) v cfg = cfg := by
  unfold assign
  nth_rewrite 2 [← updateFirst_id (named (sectionKey sec)) cfg]
  apply updateFirst_congr
  intro x hx
  have hx2 : x.keys.any (fun kv => kv.1 == key) = false := by
    unfold holdsKey at h
    rw [getSection_eq, hx] at h
    exact h
  simp only [setIn]
  rw [updateFirst_of_none _ _ _ hx2]

/-- An assignment to a key that was just added gives the key that value. -/
theorem assign_addKey_same (cfg : Cfg) (sec key v x : String)
    (h : holdsKey cfg key sec = false) :
    assign (sectionKey sec, key) x (addKey (sectionKey sec, key) v cfg) =
      addKey (sectionKey sec, key) x cfg := by
  unfold assign addKey
  rw [updateFirst_absorb (named (sectionKey sec)) (setIn key x) (addIn key v) cfg
    (fun _ => rfl)]
  apply updateFirst_congr
  intro y hy
  have hy2 : y.keys.any (fun kv => kv.1 == key) = false := by
    unfold holdsKey at h
    rw [getSection_eq, hy] at h
    exact h
  simp only [Function.comp, setIn, addIn]
  rw [updateFirst_append]
  simp [hy2, updateFirst]

/-- Assignments made after a key was added, the last of them to that key, give what adding
the key with the last value to the assigned document gives. -/
theorem assign_assignAll_addKey (sec key x : String) :
    ∀ (us : List ((String × String) × String)) (cfg : Cfg) (v : String),
      holdsKey cfg key sec = false →
      assign (sectionKey sec, key) x (assignAll us (addKey (sectionKey sec, key) v cfg)) =
        addKey (sectionKey sec, key) x (assignAll us cfg) := by
  intro us
  induction us with
  | nil => intro cfg v h; exact assign_addKey_same cfg sec key v x h
  | cons u us ih =>
    intro cfg v h
    have h1 : ∀ d, assignAll (u :: us) d = assignAll us (assign u.1 u.2 d) := fun _ => rfl
    rw [h1, h1]
    by_cases hu : u.1 = (sectionKey sec, key)
    · rw [hu, assign_addKey_same cfg sec key v u.2 h, assign_absent cfg sec key u.2 h]
      exact ih cfg u.2 h
    · rw [assign_addKey_comm u.1 _ u.2 v cfg hu]
      exact ih _ v (by rw [holdsKey_assign]; exact h)

theorem targets_append :
    ∀ (l1 l2 : List IniOp) (cfg : Cfg),
      targets (l1 ++ l2) cfg = targets l1 cfg ++ targets l2 (l1.foldl applyOp cfg) := by
  intro l1
  induction l1 with
  | nil => intro l2 cfg; rfl
  | cons op ops ih =>
    intro l2 cfg
    cases op with
    | openSection name => exact ih l2 _
    | setValue sec key val =>
      show _ :: targets (ops ++ l2) _ = _
      rw [ih]
      rfl

/-- The result of a run on a document that reads back as it is, read back: the result
with the values that the run wrote read back. -/
theorem readDoc_run (rd : String → String) (cfg : Cfg) (hcfg : readDoc rd cfg = cfg) :
    ∀ (ops : List IniOp),
      readDoc rd (ops.foldl applyOp cfg) =
        assignAll ((targets ops cfg).map fun tv => (tv.1, rd tv.2)) (ops.foldl applyOp cfg) := by
  intro ops
  induction ops using List.reverseRecOn with
  | nil => exact hcfg
  | append_singleton l op ih =>
    rw [List.foldl_append, targets_append]
    cases op with
    | openSection name =>
      simp only [List.foldl_cons, List.foldl_nil, applyOp, targets, List.append_nil]
      rw [readDoc_iniSection, ih, iniSection_assignAll]
    | setValue sec key val =>
      simp only [List.foldl_cons, List.foldl_nil, applyOp, targets, List.map_append,
        List.map_cons, List.map_nil]
      rw [readDoc_iniKeySetValue, ih]
      rw [iniKeySetValue_eq, keyOwner_assignAll, target_assignAll, iniKeySetValue_eq]
      cases ho : keyOwner (l.foldl applyOp cfg) sec key with
      | some o =>
        simp only
        rw [assignAll_absorb _ val _ (l.foldl applyOp cfg) (by simp), assignAll_append]
        rfl
      | none =>
        have hhold : holdsKey (l.foldl applyOp cfg) key sec = false := by
          have := List.find?_eq_none.mp ho sec (List.mem_cons_self _ _)
          simpa using this
        simp only [target, ho]
        rw [assignAll_append]
        exact (assign_assignAll_addKey sec key (rd val) _ _ val hhold).symm

/-- The loop of `PersistCredentials`, run on its own result as it is read back, gives its
result again, provided the document that it started from reads back as it is. -/
theorem foldl_persistOne_reread (rd : String → String) (creds : List Credential) (cfg : Cfg)
    (hcfg : readDoc rd cfg = cfg) :
    creds.foldl persistOne (readDoc rd (creds.foldl persistOne cfg)) =
      creds.foldl persistOne cfg := by
  rw [foldl_persistOne_eq_ops creds (readDoc rd _)]
  rw [foldl_applyOp_again (creds.flatMap opsOf) cfg _ (wellFormed_flatMap_opsOf creds cfg)
    (by rw [← foldl_persistOne_eq_ops]; exact Extends_readDoc rd _)]
  rw [foldl_persistOne_eq_ops creds cfg, readDoc_run rd cfg hcfg, assignAll_absorb_all]
  · exact assignAll_targets _ _
  · intro u hu
    obtain ⟨tv, htv, rfl⟩ := List.mem_map.mp hu
    exact List.mem_map.mpr ⟨tv, htv, rfl⟩

/-! ## Idempotence of persistence: `PersistCredentials` twice -/

theorem assocPut_assocPut {β : Type} (k : String) (v : β) (l : List (String × β)) :
    assocPut k v (assocPut k v l) = assocPut k v l := by
  simp [assocPut, List.filter_cons, List.filter_filter]

/-- A document whose values lose nothing when they are read a second time is, once read,
read back as it is. -/
theorem readDoc_readDoc (rd : String → String) (cfg : Cfg)
    (h : ∀ s ∈ cfg, ∀ kv ∈ s.keys, rd (rd kv.2) = rd kv.2) :
    readDoc rd (readDoc rd cfg) = readDoc rd cfg := by
  unfold readDoc
  rw [List.map_map]
  apply List.map_congr_left
  intro s hs
  simp only [Function.comp, readSection, List.map_map]
  congr 1
  apply List.map_congr_left
  intro kv hkv
  simp only [Function.comp, h s hs kv hkv]

/-- On the reference machine, with backups off and a non-empty list, `PersistCredentials`
succeeds and saves the document that the loop makes of the store as it is read. -/
theorem PersistCredentials_machine (a : SSO) (creds : List Credential) (last : Credential)
    (w : Sys Machine) (hb : a.BackupFile = false) (hlast : creds.getLast? = some last) :
    PersistCredentials machineEnv a creds w =
      (.returned (some ⟨credentialsFile machineEnv, last.ExpiresAt⟩) none,
        ⟨⟨w.st.clock, w.st.files,
            assocPut (credentialsFile machineEnv)
              (creds.foldl persistOne (readDoc readValue
                ((w.st.docs.lookup (credentialsFile machineEnv)).getD [⟨"DEFAULT", []⟩])))
              w.st.docs,
            w.st.refresh⟩,
          w.log ++ [.saveTo (credentialsFile machineEnv)
            (creds.foldl persistOne (readDoc readValue
              ((w.st.docs.lookup (credentialsFile machineEnv)).getD [⟨"DEFAULT", []⟩])))]⟩) := by
  unfold PersistCredentials
  simp only [backupStep, hb, Bool.false_eq_true, if_false, machineEnv, hlast, Sys.set, Sys.emit]

/-- Claim C11 fails for a store that holds a value in two layers of quotes: the section
`notes`, which is no profile of the run, holds `k` with `x` in single quotes inside double
quotes. The library drops one layer whenever it reads the store, so after the first run
the store holds `x` in single quotes and after the second run plain `x`. -/
theorem C11_persist_twice_counterexample :
    ∃ i1 w1 i2 w2 d1 d2,
      demoSSO.BackupFile = false ∧
      "notes" ∉ [laterCred].map Credential.ProfileName ∧
      PersistCredentials machineEnv demoSSO [laterCred] (Sys.init (notesMachine quotedTwice)) =
        (.returned (some i1) none, w1) ∧
      PersistCredentials machineEnv demoSSO [laterCred] w1 = (.returned (some i2) none, w2) ∧
      w1.st.docs.lookup (credentialsFile machineEnv) = some d1 ∧
      w2.st.docs.lookup (credentialsFile machineEnv) = some d2 ∧
      getSection d1 "notes" = some ⟨"notes", [("k", quotedOnce)]⟩ ∧
      getSection d2 "notes" = some ⟨"notes", [("k", "x")]⟩ ∧
      d1 ≠ d2 :=
  ⟨_, _, _, _, _, _, by rfl, by decide, by rfl, by rfl, by rfl, by rfl, by rfl, by rfl,
    by decide⟩

/-- Claim C11, amended. With backups off, for a store in which no value is wrapped in two
layers of quotes, a second `PersistCredentials` with the same credentials leaves the store
as the first one left it. In every environment whose loader returns the saved document
with its values read by some function `rd`: if the document that the first run read is
unchanged by `rd`, the first run succeeded and wrote `d1`, and the second run succeeds,
then the second run writes `d1` again, the same sections with the same keys and values in
the same order. On the reference machine, whose loader drops the surrounding quotes of a
value: for every state whose store holds no value that still has surrounding quotes after
one reading, and every non-empty list, both runs succeed, and after the second the store
holds the document it held after the first and the whole machine state is the same. -/
theorem C11_persist_idempotent :
    (∀ (σ : Type) (env : Env σ) (a : SSO) (creds : List Credential) (w w1 w2 : Sys σ)
        (i1 i2 : CredentialResultInfo) (cfg d1 : Cfg) (rd : String → String),
      a.BackupFile = false →
      storeRead env a w = some cfg →
      readDoc rd cfg = cfg →
      PersistCredentials env a creds w = (.returned (some i1) none, w1) →
      storeWrites (credentialsFile env) w1.log =
        storeWrites (credentialsFile env) w.log ++ [d1] →
      (env.iniLooseLoad (credentialsFile env) w1.st).1 = some (readDoc rd d1) →
      PersistCredentials env a creds w1 = (.returned (some i2) none, w2) →
      storeWrites (credentialsFile env) w2.log =
        storeWrites (credentialsFile env) w1.log ++ [d1]) ∧
    (∀ (a : SSO) (creds : List Credential) (w : Sys Machine),
      a.BackupFile = false → creds ≠ [] →
      (∀ s ∈ (w.st.docs.lookup (credentialsFile machineEnv)).getD [⟨"DEFAULT", []⟩],
        ∀ kv ∈ s.keys, readValue (readValue kv.2) = readValue kv.2) →
      ∃ i1 w1 i2 w2 d,
        PersistCredentials machineEnv a creds w = (.returned (some i1) none, w1) ∧
        PersistCredentials machineEnv a creds w1 = (.returned (some i2) none, w2) ∧
        w1.st.docs.lookup (credentialsFile machineEnv) = some d ∧
        w2.st.docs.lookup (credentialsFile machineEnv) = some d ∧
        w2.st = w1.st) := by
  constructor
  · intro σ env a creds w w1 w2 i1 i2 cfg d1 rd hb hread hfix h1 hw1 hload h2
    obtain ⟨cfg1, _, hr1, _, _, hlog1⟩ := PersistCredentials_success env a creds w w1 i1 h1
    obtain ⟨cfg2, _, hr2, _, _, hlog2⟩ := PersistCredentials_success env a creds w1 w2 i2 h2
    have hcfg1 : cfg1 = cfg := by
      rw [hread] at hr1
      exact (Option.some.inj hr1).symm
    have hd1 : d1 = creds.foldl persistOne cfg := by
      rw [hw1, hcfg1] at hlog1
      simpa using hlog1
    have hcfg2 : cfg2 = readDoc rd d1 := by
      simp only [storeRead, backupStep, hb, Bool.false_eq_true, if_false] at hr2
      rw [hload] at hr2
      exact (Option.some.inj hr2).symm
    rw [hlog2, hcfg2, hd1, foldl_persistOne_reread rd creds cfg hfix]
  · intro a creds w hb hne hvals
    obtain ⟨last, hlast⟩ : ∃ last, creds.getLast? = some last := by
      cases h : creds.getLast? with
      | none => exact absurd (List.getLast?_eq_none_iff.mp h) hne
      | some l => exact ⟨l, rfl⟩
    have hfix := readDoc_readDoc readValue _ hvals
    refine ⟨_, _, _, _,
      creds.foldl persistOne (readDoc readValue
        ((w.st.docs.lookup (credentialsFile machineEnv)).getD [⟨"DEFAULT", []⟩])),
      PersistCredentials_machine a creds last w hb hlast,
      PersistCredentials_machine a creds last _ hb hlast, ?_, ?_, ?_⟩
    · exact lookup_assocPut_self _ _ _
    · simp only [lookup_assocPut_self, Option.getD_some,
        foldl_persistOne_reread readValue creds _ hfix]
    · simp only [lookup_assocPut_self, Option.getD_some,
        foldl_persistOne_reread readValue creds _ hfix, assocPut_assocPut]

/-- The store whose section `notes` holds `x` in single quotes: the first run saves it
with plain `x` and the second run saves the same document. -/
theorem C11_persist_idempotent_witness :
    ∃ i1 w1 i2 w2 d,
      PersistCredentials machineEnv demoSSO [childCred] (Sys.init (notesMachine quotedOnce)) =
        (.returned (some i1) none, w1) ∧
      PersistCredentials machineEnv demoSSO [childCred] w1 = (.returned (some i2) none, w2) ∧
      w1.st.docs.lookup (credentialsFile machineEnv) = some d ∧
      w2.st.docs.lookup (credentialsFile machineEnv) = some d ∧
      w2.st = w1.st :=
  C11_persist_idempotent.2 demoSSO [childCred] (Sys.init (notesMachine quotedOnce))
    (by rfl) (by decide) (by decide)

end Asl
